import Mathlib

/-!
Verification of the graph_iter library: a shallow embedding of the
graph-traversal engine (BFS, DFS, Dijkstra/A* as one relaxation algorithm),
the priority container with insertion-order tie-breaking, and the finite
graph store, together with proofs and refutations of the specified
properties.

Rust HashMaps are modelled as association lists (`lookupA`, `insertA`,
`removeA`); insertion overwrites the value at an existing key.  The
`BinaryHeap<Reverse<(C, usize)>>` of the priority container is modelled as a
list of `(cost, id)` entries from which `pop` removes the entry that is
minimal in the lexicographic order, which is exactly the observable
behaviour of the Rust heap since all `(cost, id)` keys are distinct.
-/

/-! ## Association list primitives (model of HashMap) -/

def lookupA [DecidableEq K] : List (K × A) → K → Option A
  | [], _ => none
  | (k0, a0) :: rest, k => if k0 = k then some a0 else lookupA rest k

def containsA [DecidableEq K] (m : List (K × A)) (k : K) : Bool :=
  (lookupA m k).isSome

def insertA [DecidableEq K] : List (K × A) → K → A → List (K × A)
  | [], k, a => [(k, a)]
  | (k0, a0) :: rest, k, a =>
    if k0 = k then (k, a) :: rest else (k0, a0) :: insertA rest k a

def removeA [DecidableEq K] : List (K × A) → K → List (K × A)
  | [], _ => []
  | (k0, a0) :: rest, k => if k0 = k then rest else (k0, a0) :: removeA rest k

/-! ## Graph interfaces

`Graph<V>` only provides `neighbors`, so an unweighted graph is embedded as
a function `V → List V`.  `EdgedGraph<V, E>` additionally provides
`edges(v, w)`, the list of all parallel edges from `v` to `w`. -/

structure EGraph (V E : Type) where
  neighbors : V → List V
  edges : V → V → List E

/-! ## The frontier containers (vertex_container.rs)

`DfsContainer` is a `Vec` used as a stack and `BfsContainer` a `VecDeque`
used as a queue; both are embedded directly as Lean lists inside the
traverser states.  `AstarContainer` is embedded faithfully with its two
internal structures: the binary heap of `(cost, id)` keys and the
`id_map` from sequence ids to values. -/

structure AstarContainer (V C : Type) where
  id : Nat
  binary_heap : List (C × Nat)
  id_map : List (Nat × V)
  deriving DecidableEq

def AstarContainer.new : AstarContainer V C :=
  { id := 0, binary_heap := [], id_map := [] }

/-- The key order of the Rust heap: lexicographic on `(cost, id)`. -/
def keyLt [LinearOrder C] (x y : C × Nat) : Prop :=
  x.1 < y.1 ∨ (x.1 = y.1 ∧ x.2 < y.2)

instance [LinearOrder C] : DecidablePred (fun p : (C × Nat) × C × Nat => keyLt p.1 p.2) :=
  fun _ => by unfold keyLt; infer_instance

instance keyLtDec [LinearOrder C] (x y : C × Nat) : Decidable (keyLt x y) := by
  unfold keyLt; infer_instance

/-- The minimal `(cost, id)` key of the heap, which is what
`BinaryHeap<Reverse<(C, usize)>>::pop` removes. -/
def heapMin [LinearOrder C] : List (C × Nat) → Option (C × Nat)
  | [] => none
  | e :: rest =>
    match heapMin rest with
    | none => some e
    | some m => if keyLt m e then some m else some e

/-- Remove the first occurrence of an entry from the heap list. -/
def eraseEntry [LinearOrder C] : List (C × Nat) → C × Nat → List (C × Nat)
  | [], _ => []
  | e :: rest, x => if e = x then rest else e :: eraseEntry rest x

/-- `AstarContainer::pop`.  The outer `Option` models the `unwrap` on the
`id_map` lookup: `none` is the panic (an id present in the heap but absent
from `id_map`), `some none` is the regular empty-container result. -/
def AstarContainer.popE [LinearOrder C] (c : AstarContainer V C) :
    Option (Option ((V × C) × AstarContainer V C)) :=
  match heapMin c.binary_heap with
  | none => some none
  | some (cost, i) =>
    match lookupA c.id_map i with
    | none => none
    | some value =>
      some (some ((value, cost),
        { id := c.id,
          binary_heap := eraseEntry c.binary_heap (cost, i),
          id_map := removeA c.id_map i }))

/-- `AstarContainer::push`: pair the cost with a fresh strictly increasing
sequence id, record the value in `id_map`. -/
def AstarContainer.push (c : AstarContainer V C) (value : V) (cost : C) :
    AstarContainer V C :=
  { id := c.id + 1,
    binary_heap := c.binary_heap ++ [(cost, c.id)],
    id_map := insertA c.id_map c.id value }

/-! ## BFS traverser (BfsVertexTrav) -/

structure BfsState (V : Type) where
  start : V
  queue : List V
  predecessor_map : List (V × Option V)

def bfsNew (start : V) : BfsState V :=
  { start := start, queue := [start], predecessor_map := [(start, none)] }

def bfsPredecessor [DecidableEq V] (s : BfsState V) (v : V) : Option V :=
  (lookupA s.predecessor_map v).bind (fun p => p)

def bfsNext [DecidableEq V] (g : V → List V) (s : BfsState V) :
    Option V × BfsState V :=
  match s.queue with
  | [] => (none, s)
  | v :: rest =>
    let qp := (g v).foldl
      (fun (qp : List V × List (V × Option V)) n =>
        if containsA qp.2 n then qp
        else (qp.1 ++ [n], insertA qp.2 n (some v)))
      (rest, s.predecessor_map)
    (some v, { start := s.start, queue := qp.1, predecessor_map := qp.2 })

/-! ## DFS traverser (DfsVertexTrav)

`VertexTraverser::next` for DFS loops on `next_inner`, skipping postorder
events; the combined loop pops one stack item per non-yielding iteration,
so it is structural recursion on the stack.  The stack top is the list
head. -/

structure DfsState (V : Type) where
  start : V
  queue : List (V × Option V)
  predecessor_finished_map : List (V × (Option V × Bool))

def dfsNew (start : V) : DfsState V :=
  { start := start, queue := [(start, none)], predecessor_finished_map := [] }

def dfsPredecessor [DecidableEq V] (s : DfsState V) (v : V) : Option V :=
  (lookupA s.predecessor_finished_map v).bind (fun pf => pf.1)

def dfsNextAux [DecidableEq V] (g : V → List V) :
    List (V × Option V) → List (V × (Option V × Bool)) →
    Option V × List (V × Option V) × List (V × (Option V × Bool))
  | [], pfm => (none, [], pfm)
  | (v, p) :: rest, pfm =>
    match lookupA pfm v with
    | some (_, true) => dfsNextAux g rest pfm
    | some (pr, false) => dfsNextAux g rest (insertA pfm v (pr, true))
    | none =>
      (some v,
       (g v).foldl (fun q n => (n, some v) :: q) ((v, p) :: rest),
       insertA pfm v (p, false))

def dfsNext [DecidableEq V] (g : V → List V) (s : DfsState V) :
    Option V × DfsState V :=
  match dfsNextAux g s.queue s.predecessor_finished_map with
  | (o, q, m) =>
    (o, { start := s.start, queue := q, predecessor_finished_map := m })

/-! ## Dijkstra / A* traverser (AstarVertexTrav)

The weighted-edge operations of the Rust `WeightedEdge` bound: a total
order (`LinearOrder E`), a combining operation `add` and the
`Default::default` element `dflt` are explicit parameters.  The optional
estimator of A* is configuration fixed at construction, passed as a
parameter; `dijkstra` is the instance with `none`. -/

structure AstarState (V E : Type) where
  start : V
  queue : AstarContainer (V × E) E
  predecessor_map : List (V × Option V)
  min_edge_map : List (V × E)

def astarNew (dflt : E) (start : V) : AstarState V E :=
  { start := start,
    queue := AstarContainer.new.push (start, dflt) dflt,
    predecessor_map := [(start, none)],
    min_edge_map := [(start, dflt)] }

def astarPredecessor [DecidableEq V] (s : AstarState V E) (v : V) : Option V :=
  (lookupA s.predecessor_map v).bind (fun p => p)

/-- `Iterator::min` on the list of parallel edges. -/
def listMin [LinearOrder E] : List E → Option E
  | [] => none
  | e :: rest =>
    match listMin rest with
    | none => some e
    | some m => some (min e m)

/-- The relaxation of one neighbor inside `AstarVertexTrav::next`. -/
def astarRelax [DecidableEq V] [LinearOrder E] (g : EGraph V E)
    (add : E → E → E) (est : Option (V → E)) (vertex : V) (edge : E)
    (st : AstarState V E) (n : V) : AstarState V E :=
  match listMin (g.edges vertex n) with
  | none => st
  | some outgoing_edge =>
    let new_edge := add edge outgoing_edge
    match lookupA st.min_edge_map n with
    | some min_edge =>
      if new_edge < min_edge then
        let score := match est with
          | none => new_edge
          | some f => add new_edge (f n)
        { st with
          min_edge_map := insertA st.min_edge_map n new_edge,
          queue := st.queue.push (n, new_edge) score,
          predecessor_map := insertA st.predecessor_map n (some vertex) }
      else st
    | none =>
      let score := match est with
        | none => new_edge
        | some f => add new_edge (f n)
      { st with
        min_edge_map := insertA st.min_edge_map n new_edge,
        queue := st.queue.push (n, new_edge) score,
        predecessor_map := insertA st.predecessor_map n (some vertex) }

def astarNext [DecidableEq V] [LinearOrder E] (g : EGraph V E)
    (add : E → E → E) (est : Option (V → E)) (s : AstarState V E) :
    Option V × AstarState V E :=
  match s.queue.popE with
  | none => (none, s)
  | some none => (none, s)
  | some (some (((vertex, edge), _), q1)) =>
    (some vertex,
     (g.neighbors vertex).foldl (astarRelax g add est vertex edge)
       { s with queue := q1 })

/-! ## The generic traverser interface and path construction

`VertexTraverser` packages `first`, `next` and `predecessor`.
The iterator adapters `Iter` and `PredecessorIter` used by
`construct_path` are not present under src (only their import in
vertex_traverser.rs is), so their behaviour is modelled from the spec. -/

structure Trav (S V : Type) where
  first : S → V
  next : S → Option V × S
  predecessor : S → V → Option V

/-- Modelled from the spec: the `Iter` adapter missing from src repeatedly
pulls `next()`; `find` drives the traverser until the target is produced
or the frontier is exhausted ("keep calling next() until target is
produced or the traverser is exhausted").  `fuel` bounds the number of
pulls; every theorem supplies sufficient fuel. -/
def driveFind [DecidableEq V] (T : Trav S V) : Nat → S → V → S
  | 0, s, _ => s
  | fuel + 1, s, t =>
    match T.next s with
    | (none, s1) => s1
    | (some v, s1) => if v = t then s1 else driveFind T fuel s1 t

/-- Modelled from the spec: the `PredecessorIter` adapter missing from src
walks backward via `predecessor` from a vertex ("walk backward via
predecessor from target to the start (inclusive)"). -/
def predWalk (pred : V → Option V) : Nat → V → List V
  | 0, v => [v]
  | fuel + 1, v =>
    match pred v with
    | none => [v]
    | some u => v :: predWalk pred fuel u

/-- `VertexTraverser::construct_path`. -/
def constructPath [DecidableEq V] (T : Trav S V) (fuel : Nat) (s : S)
    (target : V) : Option (List V) × S :=
  let s1 := if (T.predecessor s target).isNone then driveFind T fuel s target else s
  let path := (predWalk (T.predecessor s1) fuel target).reverse
  if 1 < path.length ∨ target = T.first s1 then (some path, s1) else (none, s1)

def bfsTrav [DecidableEq V] (g : V → List V) : Trav (BfsState V) V :=
  { first := fun s => s.start, next := bfsNext g, predecessor := bfsPredecessor }

def dfsTrav [DecidableEq V] (g : V → List V) : Trav (DfsState V) V :=
  { first := fun s => s.start, next := dfsNext g, predecessor := dfsPredecessor }

def astarTrav [DecidableEq V] [LinearOrder E] (g : EGraph V E)
    (add : E → E → E) (est : Option (V → E)) : Trav (AstarState V E) V :=
  { first := fun s => s.start, next := astarNext g add est,
    predecessor := astarPredecessor }

/-! ## The finite graph store (finite_graph.rs)

`Id` is the shared monotonically increasing counter value, embedded as
`Nat`.  `Id::next` increments the counter and returns the new value. -/

structure FiniteGraph (V E : Type) where
  id : Nat
  vertices_map : List (Nat × V)
  edges_map : List (Nat × (E × Nat × Nat))
  neighbors_map : List (Nat × List (Nat × Nat))
  reverse_neighbors_map : List (Nat × List (Nat × Nat))

def FiniteGraph.new : FiniteGraph V E :=
  { id := 0, vertices_map := [], edges_map := [],
    neighbors_map := [], reverse_neighbors_map := [] }

def FiniteGraph.insert_vertex (g : FiniteGraph V E) (value : V) :
    Nat × FiniteGraph V E :=
  let i := g.id + 1
  (i, { g with id := i, vertices_map := insertA g.vertices_map i value })

def FiniteGraph.insert_edge_id (g : FiniteGraph V E) (from_ to_ edge : Nat) :
    Option Nat × FiniteGraph V E :=
  let nm := match lookupA g.neighbors_map from_ with
    | some neighbors => insertA g.neighbors_map from_ (neighbors ++ [(to_, edge)])
    | none => insertA g.neighbors_map from_ [(to_, edge)]
  let rm := match lookupA g.reverse_neighbors_map to_ with
    | some reverse_neighbors =>
      insertA g.reverse_neighbors_map to_ (reverse_neighbors ++ [(from_, edge)])
    | none => insertA g.reverse_neighbors_map to_ [(from_, edge)]
  (some edge, { g with neighbors_map := nm, reverse_neighbors_map := rm })

def FiniteGraph.insert_edge (g : FiniteGraph V E) (from_ to_ : Nat) (value : E) :
    Option Nat × FiniteGraph V E :=
  if ¬ containsA g.vertices_map from_ ∨ ¬ containsA g.vertices_map to_ then
    (none, g)
  else
    let i := g.id + 1
    let g1 := { g with id := i, edges_map := insertA g.edges_map i (value, from_, to_) }
    g1.insert_edge_id from_ to_ i

def FiniteGraph.insert_bi_edge (g : FiniteGraph V E) (from_ to_ : Nat) (data : E) :
    Option Nat × FiniteGraph V E :=
  match g.insert_edge from_ to_ data with
  | (some i, g1) => (some i, (g1.insert_edge_id to_ from_ i).2)
  | (none, g1) => (none, g1)

/-- Remove the first adjacency entry `(_, e)` whose edge id matches. -/
def removeFirstEdge : List (Nat × Nat) → Nat → List (Nat × Nat)
  | [], _ => []
  | (w, e0) :: rest, e => if e0 = e then rest else (w, e0) :: removeFirstEdge rest e

/-- The body of the scrub loop of `remove_edge` for one vertex and one of
the two adjacency maps. -/
def scrubMap (m : List (Nat × List (Nat × Nat))) (v e : Nat) :
    List (Nat × List (Nat × Nat)) :=
  match lookupA m v with
  | none => m
  | some neighbors => insertA m v (removeFirstEdge neighbors e)

def FiniteGraph.remove_edge (g : FiniteGraph V E) (edge : Nat) :
    Option E × FiniteGraph V E :=
  match lookupA g.edges_map edge with
  | none => (none, g)
  | some (data, vertex, other) =>
    let g1 := { g with edges_map := removeA g.edges_map edge }
    let g2 := [vertex, other].foldl
      (fun gg v =>
        { gg with
          neighbors_map := scrubMap gg.neighbors_map v edge,
          reverse_neighbors_map := scrubMap gg.reverse_neighbors_map v edge })
      g1
    (some data, g2)

def FiniteGraph.remove_vertex (g : FiniteGraph V E) (vertex : Nat) :
    Option V × FiniteGraph V E :=
  let result := lookupA g.vertices_map vertex
  let neighbors := (lookupA g.neighbors_map vertex).getD []
  let reverse_neighbors := (lookupA g.reverse_neighbors_map vertex).getD []
  let g1 := { g with
    vertices_map := removeA g.vertices_map vertex,
    neighbors_map := removeA g.neighbors_map vertex,
    reverse_neighbors_map := removeA g.reverse_neighbors_map vertex }
  let to_delete := neighbors.map Prod.snd ++ reverse_neighbors.map Prod.snd
  (result, to_delete.foldl (fun gg e => (gg.remove_edge e).2) g1)

def FiniteGraph.neighbors (g : FiniteGraph V E) (vertex : Nat) : List Nat :=
  ((lookupA g.neighbors_map vertex).getD []).map Prod.fst

def FiniteGraph.len (g : FiniteGraph V E) : Nat × Nat :=
  (g.vertices_map.length, g.edges_map.length)

/-! ## Association list lemmas -/

theorem lookupA_insertA_self [DecidableEq K] (m : List (K × A)) (k : K) (a : A) :
    lookupA (insertA m k a) k = some a := by
  induction m with
  | nil => simp [insertA, lookupA]
  | cons h t ih =>
    obtain ⟨k0, a0⟩ := h
    by_cases hk : k0 = k
    · simp [insertA, hk, lookupA]
    · simp [insertA, hk, lookupA, ih]

theorem lookupA_insertA_ne [DecidableEq K] (m : List (K × A)) (k k' : K) (a : A)
    (h : k' ≠ k) : lookupA (insertA m k a) k' = lookupA m k' := by
  have h2 : ¬ (k = k') := fun he => h he.symm
  induction m with
  | nil => simp [insertA, lookupA, h2]
  | cons hd t ih =>
    obtain ⟨k0, a0⟩ := hd
    by_cases hk : k0 = k
    · subst hk
      simp [insertA, lookupA, h2]
    · simp only [insertA, if_neg hk, lookupA]
      by_cases hk' : k0 = k'
      · simp [hk']
      · simp [hk', ih]

theorem lookupA_removeA_ne [DecidableEq K] (m : List (K × A)) (k k' : K)
    (h : k' ≠ k) : lookupA (removeA m k) k' = lookupA m k' := by
  induction m with
  | nil => simp [removeA]
  | cons hd t ih =>
    obtain ⟨k0, a0⟩ := hd
    by_cases hk : k0 = k
    · subst hk
      have h2 : ¬ (k0 = k') := fun he => h he.symm
      simp [removeA, lookupA, h2]
    · simp only [removeA, if_neg hk, lookupA]
      by_cases hk' : k0 = k'
      · simp [hk']
      · simp [hk', ih]

def keysND (m : List (K × A)) : Prop := (m.map Prod.fst).Nodup

theorem keysND_nil : keysND ([] : List (K × A)) := by simp [keysND]

theorem lookupA_eq_none_of_not_memKeys [DecidableEq K] (m : List (K × A)) (k : K)
    (h : k ∉ m.map Prod.fst) : lookupA m k = none := by
  induction m with
  | nil => simp [lookupA]
  | cons hd t ih =>
    obtain ⟨k0, a0⟩ := hd
    simp only [List.map_cons, List.mem_cons] at h
    push_neg at h
    have h2 : ¬ (k0 = k) := fun he => h.1 he.symm
    simp [lookupA, h2, ih h.2]

theorem memKeys_of_lookupA [DecidableEq K] (m : List (K × A)) (k : K)
    (h : (lookupA m k).isSome) : k ∈ m.map Prod.fst := by
  by_contra hc
  rw [lookupA_eq_none_of_not_memKeys m k hc] at h
  simp at h

theorem lookupA_removeA_self [DecidableEq K] (m : List (K × A)) (k : K)
    (hnd : keysND m) : lookupA (removeA m k) k = none := by
  induction m with
  | nil => simp [removeA, lookupA]
  | cons hd t ih =>
    obtain ⟨k0, a0⟩ := hd
    simp only [keysND, List.map_cons, List.nodup_cons] at hnd
    by_cases hk : k0 = k
    · subst hk
      simp only [removeA, if_pos rfl]
      exact lookupA_eq_none_of_not_memKeys t k0 hnd.1
    · simp [removeA, hk, lookupA, ih hnd.2]

theorem mem_insertA [DecidableEq K] (m : List (K × A)) (k k' : K) (a a' : A)
    (h : (k', a') ∈ insertA m k a) : k' = k ∨ (k', a') ∈ m := by
  induction m with
  | nil =>
    simp only [insertA, List.mem_singleton] at h
    left; exact congrArg Prod.fst h
  | cons hd t ih =>
    obtain ⟨k0, a0⟩ := hd
    by_cases hk : k0 = k
    · subst hk
      simp only [insertA, if_true, eq_self_iff_true, List.mem_cons] at h
      rcases h with h1 | h1
      · left; exact congrArg Prod.fst h1
      · right; exact List.mem_cons_of_mem _ h1
    · simp only [insertA, if_neg hk, List.mem_cons] at h
      rcases h with h1 | h1
      · right; exact List.mem_cons.2 (Or.inl h1)
      · rcases ih h1 with h2 | h2
        · left; exact h2
        · right; exact List.mem_cons_of_mem _ h2

theorem memKeys_insertA [DecidableEq K] (m : List (K × A)) (k k' : K) (a : A)
    (h : k' ∈ (insertA m k a).map Prod.fst) : k' = k ∨ k' ∈ m.map Prod.fst := by
  rcases List.mem_map.1 h with ⟨⟨k1, a1⟩, hmem, hk1⟩
  rcases mem_insertA m k k1 a a1 hmem with h2 | h2
  · left; rw [← hk1]; exact h2
  · right; rw [← hk1]; exact List.mem_map_of_mem Prod.fst h2

theorem keysND_insertA [DecidableEq K] (m : List (K × A)) (k : K) (a : A)
    (hnd : keysND m) : keysND (insertA m k a) := by
  induction m with
  | nil => simp [insertA, keysND]
  | cons hd t ih =>
    obtain ⟨k0, a0⟩ := hd
    simp only [keysND, List.map_cons, List.nodup_cons] at hnd
    by_cases hk : k0 = k
    · subst hk
      simpa [insertA, keysND] using hnd
    · have ht := ih hnd.2
      simp only [insertA, if_neg hk, keysND, List.map_cons, List.nodup_cons]
      refine ⟨?_, ht⟩
      intro hmem
      rcases memKeys_insertA t k k0 a hmem with h | h
      · exact hk h
      · exact hnd.1 h

theorem memKeys_removeA [DecidableEq K] (m : List (K × A)) (k k' : K)
    (h : k' ∈ (removeA m k).map Prod.fst) : k' ∈ m.map Prod.fst := by
  induction m with
  | nil => simp [removeA] at h
  | cons hd t ih =>
    obtain ⟨k0, a0⟩ := hd
    by_cases hk : k0 = k
    · subst hk
      simp only [removeA, if_true, eq_self_iff_true] at h
      exact List.mem_cons_of_mem _ h
    · simp only [removeA, if_neg hk, List.map_cons, List.mem_cons] at h ⊢
      rcases h with h | h
      · left; exact h
      · right; exact ih h

theorem keysND_removeA [DecidableEq K] (m : List (K × A)) (k : K)
    (hnd : keysND m) : keysND (removeA m k) := by
  induction m with
  | nil => simp [removeA, keysND]
  | cons hd t ih =>
    obtain ⟨k0, a0⟩ := hd
    simp only [keysND, List.map_cons, List.nodup_cons] at hnd
    by_cases hk : k0 = k
    · subst hk
      simpa [removeA, keysND] using hnd.2
    · simp only [removeA, if_neg hk, keysND, List.map_cons, List.nodup_cons]
      exact ⟨fun hm => hnd.1 (memKeys_removeA t k k0 hm), ih hnd.2⟩

/-! ## C6: insert_edge endpoint validation -/

/-- C6: `FiniteGraph::insert_edge(from, to, value)` returns `None` and
leaves the store completely unchanged (no Id allocated, edge table and both
adjacency maps untouched) when either endpoint is not a stored vertex;
when both endpoints exist it allocates the next Id, stores the
`(value, from, to)` triple, and appends `(to, id)` to `from`'s forward
adjacency and `(from, id)` to `to`'s reverse adjacency, leaving all other
adjacency lists unchanged. -/
theorem insert_edge_endpoint_contract (g : FiniteGraph V E) (from_ to_ : Nat)
    (value : E) :
    ((¬ containsA g.vertices_map from_ ∨ ¬ containsA g.vertices_map to_) →
      g.insert_edge from_ to_ value = (none, g)) ∧
    (containsA g.vertices_map from_ → containsA g.vertices_map to_ →
      ∃ g1, g.insert_edge from_ to_ value = (some (g.id + 1), g1) ∧
        g1.id = g.id + 1 ∧
        g1.vertices_map = g.vertices_map ∧
        g1.edges_map = insertA g.edges_map (g.id + 1) (value, from_, to_) ∧
        lookupA g1.neighbors_map from_ =
          some ((lookupA g.neighbors_map from_).getD [] ++ [(to_, g.id + 1)]) ∧
        lookupA g1.reverse_neighbors_map to_ =
          some ((lookupA g.reverse_neighbors_map to_).getD [] ++ [(from_, g.id + 1)]) ∧
        (∀ v, v ≠ from_ → lookupA g1.neighbors_map v = lookupA g.neighbors_map v) ∧
        (∀ v, v ≠ to_ →
          lookupA g1.reverse_neighbors_map v = lookupA g.reverse_neighbors_map v)) := by
  constructor
  · intro h
    unfold FiniteGraph.insert_edge
    rw [if_pos h]
  · intro h1 h2
    unfold FiniteGraph.insert_edge
    rw [if_neg (by push_neg; exact ⟨h1, h2⟩)]
    unfold FiniteGraph.insert_edge_id
    refine ⟨_, rfl, rfl, rfl, rfl, ?_, ?_, ?_, ?_⟩
    · cases hn : lookupA g.neighbors_map from_ with
      | none => simp [hn, lookupA_insertA_self]
      | some l => simp [hn, lookupA_insertA_self]
    · cases hn : lookupA g.reverse_neighbors_map to_ with
      | none => simp [hn, lookupA_insertA_self]
      | some l => simp [hn, lookupA_insertA_self]
    · intro v hv
      cases hn : lookupA g.neighbors_map from_ with
      | none => simp [hn, lookupA_insertA_ne _ _ _ _ hv]
      | some l => simp [hn, lookupA_insertA_ne _ _ _ _ hv]
    · intro v hv
      cases hn : lookupA g.reverse_neighbors_map to_ with
      | none => simp [hn, lookupA_insertA_ne _ _ _ _ hv]
      | some l => simp [hn, lookupA_insertA_ne _ _ _ _ hv]

/-- Witness for C6 at a concrete store: inserting an edge with a missing
endpoint into the empty store fails and changes nothing; inserting between
two stored vertices succeeds. -/
theorem insert_edge_endpoint_contract_witness :
    ((FiniteGraph.new (V := Nat) (E := Nat)).insert_edge 1 2 7 =
      (none, FiniteGraph.new)) ∧
    ∃ g1, (((FiniteGraph.new (V := Nat) (E := Nat)).insert_vertex 5).2.insert_vertex
        6).2.insert_edge 1 2 7 = (some 3, g1) := by
  constructor
  · exact (insert_edge_endpoint_contract FiniteGraph.new 1 2 7).1
      (by left; decide)
  · obtain ⟨g1, hg1, -⟩ :=
      (insert_edge_endpoint_contract
        (((FiniteGraph.new (V := Nat) (E := Nat)).insert_vertex 5).2.insert_vertex 6).2
        1 2 7).2 (by decide) (by decide)
    exact ⟨g1, hg1⟩

/-! ## C7: exhaustion is idempotent -/

theorem dfsNextAux_none_queue_nil [DecidableEq V] (g : V → List V)
    (q : List (V × Option V)) (pfm : List (V × (Option V × Bool)))
    (q1 : List (V × Option V)) (m1 : List (V × (Option V × Bool)))
    (h : dfsNextAux g q pfm = (none, q1, m1)) : q1 = [] := by
  induction q generalizing pfm with
  | nil =>
    simp only [dfsNextAux] at h
    exact (Prod.mk.injEq _ _ _ _ ▸ congrArg Prod.snd h).1.symm ▸ rfl
  | cons hd rest ih =>
    obtain ⟨v, p⟩ := hd
    simp only [dfsNextAux] at h
    rcases hl : lookupA pfm v with - | ⟨pr, fin⟩
    · rw [hl] at h
      simp at h
    · rw [hl] at h
      cases fin with
      | true => exact ih _ h
      | false => exact ih _ h

/-- C7: once `next()` has returned `None` (frontier exhausted), every
subsequent call returns `None` with the traverser state (frontier,
predecessor map, cost map) unchanged — for BFS, DFS, and the unified
Dijkstra/A* traverser (any estimator, `none` being Dijkstra). -/
theorem next_after_exhaustion_idempotent [DecidableEq V] [LinearOrder E] :
    (∀ (g : V → List V) (s s1 : BfsState V),
      bfsNext g s = (none, s1) → bfsNext g s1 = (none, s1)) ∧
    (∀ (g : V → List V) (s s1 : DfsState V),
      dfsNext g s = (none, s1) → dfsNext g s1 = (none, s1)) ∧
    (∀ (g : EGraph V E) (add : E → E → E) (est : Option (V → E))
        (s s1 : AstarState V E),
      astarNext g add est s = (none, s1) → astarNext g add est s1 = (none, s1)) := by
  refine ⟨?_, ?_, ?_⟩
  · intro g s s1 h
    match hq : s.queue with
    | [] =>
      unfold bfsNext at h
      rw [hq] at h
      cases h
      unfold bfsNext
      rw [hq]
    | v :: rest =>
      unfold bfsNext at h
      rw [hq] at h
      simp at h
  · intro g s s1 h
    unfold dfsNext at h ⊢
    rcases ha : dfsNextAux g s.queue s.predecessor_finished_map with ⟨o, q1, m1⟩
    rw [ha] at h
    cases o with
    | some v => simp at h
    | none =>
      have hq1 : q1 = [] := dfsNextAux_none_queue_nil g _ _ _ _ ha
      cases h
      simp only [hq1]
      rfl
  · intro g add est s s1 h
    unfold astarNext at h ⊢
    rcases hp : s.queue.popE with - | op
    · rw [hp] at h
      cases h
      rw [hp]
    · rw [hp] at h
      rcases op with - | ⟨⟨⟨vertex, edge⟩, cost⟩, q1⟩
      · cases h
        rw [hp]
      · simp at h

/-- Witness for C7: on concrete exhausted traverser states next() keeps
returning `None` without changing state. -/
theorem next_after_exhaustion_idempotent_witness :
    bfsNext (fun _ => ([] : List Nat)) ⟨0, [], []⟩ = (none, ⟨0, [], []⟩) ∧
    dfsNext (fun _ => ([] : List Nat)) ⟨0, [], []⟩ = (none, ⟨0, [], []⟩) ∧
    astarNext ⟨fun _ => ([] : List Nat), fun _ _ => ([] : List Nat)⟩
      (fun a b => a + b) none ⟨0, ⟨0, [], []⟩, [], []⟩ =
      (none, ⟨0, ⟨0, [], []⟩, [], []⟩) := by
  refine ⟨?_, ?_, ?_⟩
  · exact (next_after_exhaustion_idempotent (V := Nat) (E := Nat)).1
      (fun _ => []) ⟨0, [], []⟩ ⟨0, [], []⟩ rfl
  · exact (next_after_exhaustion_idempotent (V := Nat) (E := Nat)).2.1
      (fun _ => []) ⟨0, [], []⟩ ⟨0, [], []⟩ rfl
  · exact (next_after_exhaustion_idempotent (V := Nat) (E := Nat)).2.2
      ⟨fun _ => [], fun _ _ => []⟩ (fun a b => a + b) none
      ⟨0, ⟨0, [], []⟩, [], []⟩ ⟨0, ⟨0, [], []⟩, [], []⟩ rfl

/-! ## C5: construct_path with target = start -/

theorem predWalk_of_none (pred : V → Option V) (fuel : Nat) (v : V)
    (h : pred v = none) : predWalk pred fuel v = [v] := by
  cases fuel with
  | zero => rfl
  | succ f => simp [predWalk, h]

theorem bfs_fold_lookup_none_preserved [DecidableEq V] (v k : V)
    (l : List V) (qp : List V × List (V × Option V))
    (h : lookupA qp.2 k = some none) :
    lookupA (l.foldl
      (fun (qp : List V × List (V × Option V)) n =>
        if containsA qp.2 n then qp
        else (qp.1 ++ [n], insertA qp.2 n (some v))) qp).2 k = some none := by
  induction l generalizing qp with
  | nil => exact h
  | cons n rest ih =>
    simp only [List.foldl_cons]
    by_cases hc : containsA qp.2 n
    · rw [if_pos hc]
      exact ih qp h
    · rw [if_neg hc]
      refine ih _ ?_
      have hnk : n ≠ k := by
        intro he
        subst he
        rw [containsA, h] at hc
        simp at hc
      simp only []
      rw [lookupA_insertA_ne _ _ _ _ (Ne.symm hnk)]
      exact h

theorem astarRelax_start_preserved [DecidableEq V] [LinearOrder E]
    (g : EGraph V E) (add : E → E → E) (dflt : E) (est : Option (V → E))
    (start vertex n : V)
    (hd : ∀ e : E, dflt ≤ e) (hb : ∀ a b : E, b ≤ add a b)
    (st : AstarState V E)
    (hp : lookupA st.predecessor_map start = some none)
    (hm : lookupA st.min_edge_map start = some dflt) :
    lookupA (astarRelax g add est vertex dflt st n).predecessor_map start
        = some none ∧
    lookupA (astarRelax g add est vertex dflt st n).min_edge_map start
        = some dflt := by
  unfold astarRelax
  split
  · exact ⟨hp, hm⟩
  · rename_i oe hmin
    by_cases hns : n = start
    · subst hns
      rw [hm]
      simp only []
      have hnew : ¬ (add dflt oe < dflt) :=
        not_lt.2 (le_trans (hd oe) (hb dflt oe))
      rw [if_neg hnew]
      exact ⟨hp, hm⟩
    · rcases hln : lookupA st.min_edge_map n with - | me
      · refine ⟨?_, ?_⟩ <;>
          simp [hln, lookupA_insertA_ne _ _ _ _ (Ne.symm hns), hp, hm]
      · by_cases hlt : add dflt oe < me
        · refine ⟨?_, ?_⟩ <;>
            simp [hln, hlt, lookupA_insertA_ne _ _ _ _ (Ne.symm hns), hp, hm]
        · refine ⟨?_, ?_⟩ <;> simp [hln, hlt, hp, hm]

theorem astar_fold_start_preserved [DecidableEq V] [LinearOrder E]
    (g : EGraph V E) (add : E → E → E) (dflt : E) (est : Option (V → E))
    (start vertex : V)
    (hd : ∀ e : E, dflt ≤ e) (hb : ∀ a b : E, b ≤ add a b)
    (l : List V) (st : AstarState V E)
    (hp : lookupA st.predecessor_map start = some none)
    (hm : lookupA st.min_edge_map start = some dflt) :
    lookupA (l.foldl (astarRelax g add est vertex dflt) st).predecessor_map start
        = some none ∧
    lookupA (l.foldl (astarRelax g add est vertex dflt) st).min_edge_map start
        = some dflt := by
  induction l generalizing st with
  | nil => exact ⟨hp, hm⟩
  | cons n rest ih =>
    simp only [List.foldl_cons]
    obtain ⟨h1, h2⟩ :=
      astarRelax_start_preserved g add dflt est start vertex n hd hb st hp hm
    exact ih _ h1 h2

theorem astarRelax_start_field [DecidableEq V] [LinearOrder E]
    (g : EGraph V E) (add : E → E → E) (est : Option (V → E))
    (vertex n : V) (edge : E) (st : AstarState V E) :
    (astarRelax g add est vertex edge st n).start = st.start := by
  unfold astarRelax
  simp only []
  repeat' split
  all_goals rfl

theorem astar_fold_start_field [DecidableEq V] [LinearOrder E]
    (g : EGraph V E) (add : E → E → E) (est : Option (V → E))
    (vertex : V) (edge : E) (l : List V) (st : AstarState V E) :
    (l.foldl (astarRelax g add est vertex edge) st).start = st.start := by
  induction l generalizing st with
  | nil => rfl
  | cons n rest ih =>
    simp only [List.foldl_cons]
    rw [ih]
    exact astarRelax_start_field g add est vertex n edge st

theorem constructPath_first_hit [DecidableEq V] (T : Trav S V) (s s1 : S)
    (t : V) (f : Nat)
    (h0 : T.predecessor s t = none)
    (h1 : T.next s = (some t, s1))
    (h2 : T.predecessor s1 t = none)
    (h3 : T.first s1 = t) :
    constructPath T (f + 1) s t = (some [t], s1) := by
  simp only [constructPath, h0, Option.isNone_none, if_true]
  simp only [driveFind, h1, eq_self_iff_true, if_true]
  rw [predWalk_of_none _ _ _ h2]
  simp [h3]

/-- C5: on a freshly constructed traverser (BFS, DFS, Dijkstra, A*),
`construct_path(start)` with the target equal to the start vertex returns
the single-element path `[start]`, never `None`.  For the weighted
traversers the weighted-edge contract (`e ≥ zero`, `e1 + e2 ≥ e2`) is
assumed, as required by `dijkstra`/`astar`. -/
theorem construct_path_to_start [DecidableEq V] [LinearOrder E] :
    (∀ (g : V → List V) (start : V) (fuel : Nat), 1 ≤ fuel →
      (constructPath (bfsTrav g) fuel (bfsNew start) start).1 = some [start]) ∧
    (∀ (g : V → List V) (start : V) (fuel : Nat), 1 ≤ fuel →
      (constructPath (dfsTrav g) fuel (dfsNew start) start).1 = some [start]) ∧
    (∀ (g : EGraph V E) (add : E → E → E) (dflt : E) (est : Option (V → E))
        (start : V) (fuel : Nat), 1 ≤ fuel →
      (∀ e : E, dflt ≤ e) → (∀ a b : E, b ≤ add a b) →
      (constructPath (astarTrav g add est) fuel (astarNew dflt start) start).1 =
        some [start]) := by
  refine ⟨?_, ?_, ?_⟩
  · intro g start fuel hfuel
    obtain ⟨f, rfl⟩ : ∃ f, fuel = f + 1 :=
      ⟨fuel - 1, (Nat.succ_pred_eq_of_pos hfuel).symm⟩
    rw [constructPath_first_hit (bfsTrav g) (bfsNew start) _ start f
      (by simp [bfsTrav, bfsPredecessor, bfsNew, lookupA]) rfl
      (by
        show bfsPredecessor _ start = none
        unfold bfsPredecessor
        simp only [bfsNew]
        rw [bfs_fold_lookup_none_preserved start start (g start)
          ([], [(start, none)]) (by simp [lookupA])]
        rfl)
      rfl]
  · intro g start fuel hfuel
    obtain ⟨f, rfl⟩ : ∃ f, fuel = f + 1 :=
      ⟨fuel - 1, (Nat.succ_pred_eq_of_pos hfuel).symm⟩
    rw [constructPath_first_hit (dfsTrav g) (dfsNew start) _ start f
      (by simp [dfsTrav, dfsPredecessor, dfsNew, lookupA]) rfl
      (by
        show dfsPredecessor _ start = none
        simp [dfsPredecessor, dfsNext, dfsNew, dfsNextAux, lookupA,
          lookupA_insertA_self])
      rfl]
  · intro g add dflt est start fuel hfuel hd hb
    obtain ⟨f, rfl⟩ : ∃ f, fuel = f + 1 :=
      ⟨fuel - 1, (Nat.succ_pred_eq_of_pos hfuel).symm⟩
    have hpop : (astarNew (V := V) dflt start).queue.popE =
        some (some (((start, dflt), dflt), ⟨1, [], []⟩)) := by
      simp [astarNew, AstarContainer.push, AstarContainer.new, AstarContainer.popE,
        heapMin, lookupA, eraseEntry, removeA]
    have hnext : astarNext g add est (astarNew dflt start) =
        (some start,
         (g.neighbors start).foldl (astarRelax g add est start dflt)
           { astarNew dflt start with queue := ⟨1, [], []⟩ }) := by
      unfold astarNext
      rw [hpop]
    rw [constructPath_first_hit (astarTrav g add est) (astarNew dflt start) _ start f
      (by simp [astarTrav, astarPredecessor, astarNew, lookupA]) hnext
      (by
        show astarPredecessor _ start = none
        unfold astarPredecessor
        rw [(astar_fold_start_preserved g add dflt est start start hd hb
          (g.neighbors start) { astarNew dflt start with queue := ⟨1, [], []⟩ }
          (by simp [astarNew, lookupA]) (by simp [astarNew, lookupA])).1]
        rfl)
      (by
        show (_ : AstarState V E).start = start
        rw [astar_fold_start_field]
        rfl)]

/-- Witness for C5 on a concrete two-vertex graph. -/
theorem construct_path_to_start_witness :
    (constructPath (bfsTrav (fun n => if n = 0 then [1] else [])) 5
      (bfsNew (0 : Nat)) 0).1 = some [0] ∧
    (constructPath (dfsTrav (fun n => if n = 0 then [1] else [])) 5
      (dfsNew (0 : Nat)) 0).1 = some [0] ∧
    (constructPath (astarTrav
        ⟨fun n => if n = 0 then [1] else [], fun _ _ => [(1 : Nat)]⟩
        (fun a b => a + b) none) 5 (astarNew 0 (0 : Nat)) 0).1 = some [0] := by
  refine ⟨?_, ?_, ?_⟩
  · exact (construct_path_to_start (V := Nat) (E := Nat)).1
      (fun n => if n = 0 then [1] else []) 0 5 (by decide)
  · exact (construct_path_to_start (V := Nat) (E := Nat)).2.1
      (fun n => if n = 0 then [1] else []) 0 5 (by decide)
  · exact (construct_path_to_start (V := Nat) (E := Nat)).2.2
      ⟨fun n => if n = 0 then [1] else [], fun _ _ => [1]⟩
      (fun a b => a + b) 0 none 0 5 (by decide) (fun e => Nat.zero_le e)
      (fun a b => Nat.le_add_left b a)

/-! ## Paths in a graph

A path in an unweighted graph is a vertex list whose consecutive elements
are neighbors.  A path in an edged graph is a start vertex plus a list of
`(edge, vertex)` steps, each edge being one of the parallel edges between
the consecutive vertices; its cost is the left fold of the combining
operation starting from the zero element, exactly as the traverser
accumulates costs. -/

def chainOk [DecidableEq V] (g : V → List V) : List V → Bool
  | [] => true
  | [_] => true
  | a :: b :: rest => (b ∈ g a : Bool) && chainOk g (b :: rest)

def isPathList [DecidableEq V] (g : V → List V) (s t : V) (p : List V) : Bool :=
  (p.head? = some s : Bool) && (p.getLast? = some t : Bool) && chainOk g p

def edgedOk [DecidableEq V] [DecidableEq E] (g : EGraph V E) :
    V → List (E × V) → Bool
  | _, [] => true
  | v, (e, w) :: rest =>
    (w ∈ g.neighbors v : Bool) && (e ∈ g.edges v w : Bool) && edgedOk g w rest

def stepsEnd (v : V) (steps : List (E × V)) : V :=
  steps.foldl (fun _ s => s.2) v

def isEPath [DecidableEq V] [DecidableEq E] (g : EGraph V E) (s t : V)
    (steps : List (E × V)) : Bool :=
  edgedOk g s steps && (stepsEnd s steps = t : Bool)

def epCost (add : E → E → E) (dflt : E) (es : List E) : E :=
  es.foldl add dflt

/-- The vertex sequence of an edged path. -/
def stepsVerts (s : V) (steps : List (E × V)) : List V :=
  s :: steps.map Prod.snd

/-! ## C1, counterexample part: the weighted-edge contract alone does not
guarantee minimality.

The combining operation below satisfies the documented contract
`e1 + e2 ≥ max(e1, e2)` and `e ≥ 0`, but is not monotone, and Dijkstra
returns a non-minimal path on a five-vertex graph. -/

def cAdd (a b : Nat) : Nat :=
  if a = 2 ∧ b = 5 then 100 else if a = 4 ∧ b = 5 then 9 else a + b

def cexG : EGraph Nat Nat :=
  { neighbors := fun v =>
      if v = 0 then [1, 2] else if v = 1 then [3] else if v = 2 then [3]
      else if v = 3 then [4] else [],
    edges := fun v w =>
      if v = 0 ∧ w = 1 then [1] else if v = 0 ∧ w = 2 then [2]
      else if v = 1 ∧ w = 3 then [1] else if v = 2 ∧ w = 3 then [2]
      else if v = 3 ∧ w = 4 then [5] else [] }

theorem cAdd_contract : ∀ a b : Nat, a ≤ cAdd a b ∧ b ≤ cAdd a b := by
  intro a b
  unfold cAdd
  by_cases h1 : a = 2 ∧ b = 5
  · rw [if_pos h1]; omega
  · rw [if_neg h1]
    by_cases h2 : a = 4 ∧ b = 5
    · rw [if_pos h2]; omega
    · rw [if_neg h2]; omega

/-- C1 is false as stated: on `cexG`, whose weights satisfy the documented
weighted-edge contract, Dijkstra's `construct_path(4)` returns the vertex
path `[0, 1, 3, 4]`, every edge labelling of which costs `100`, while the
path `[0, 2, 3, 4]` (edges 2, 2, 5) costs `9 < 100`. -/
theorem dijkstra_minimality_needs_monotonicity :
    (∀ a b : Nat, a ≤ cAdd a b ∧ b ≤ cAdd a b) ∧
    (∀ e : Nat, 0 ≤ e) ∧
    (constructPath (astarTrav cexG cAdd none) 30 (astarNew 0 0) 4).1 =
      some [0, 1, 3, 4] ∧
    (∀ steps : List (Nat × Nat), isEPath cexG 0 4 steps = true →
      stepsVerts 0 steps = [0, 1, 3, 4] →
      epCost cAdd 0 (steps.map Prod.fst) = 100) ∧
    isEPath cexG 0 4 [(2, 2), (2, 3), (5, 4)] = true ∧
    epCost cAdd 0 ([(2, 2), (2, 3), (5, 4)].map Prod.fst) = 9 ∧
    (9 : Nat) < 100 := by
  refine ⟨cAdd_contract, fun e => Nat.zero_le e, by decide, ?_, by decide,
    by decide, by decide⟩
  intro steps hpath hverts
  match steps with
  | [(e1, v1), (e2, v2), (e3, v3)] =>
    obtain ⟨hv1, hv2, hv3⟩ : v1 = 1 ∧ v2 = 3 ∧ v3 = 4 := by
      simpa [stepsVerts] using hverts
    subst hv1
    subst hv2
    subst hv3
    obtain ⟨⟨he1, he2, he3⟩, -⟩ : (e1 = 1 ∧ e2 = 1 ∧ e3 = 5) ∧
        stepsEnd (E := Nat) 0 [(e1, 1), (e2, 3), (e3, 4)] = 4 := by
      simpa [isEPath, edgedOk, cexG] using hpath
    subst he1
    subst he2
    subst he3
    decide
  | [] => simp [stepsVerts] at hverts
  | [_] => simp [stepsVerts] at hverts
  | [_, _] => simp [stepsVerts] at hverts
  | _ :: _ :: _ :: _ :: _ => simp [stepsVerts] at hverts

/-! ## C4, counterexample part: a constant-zero estimator is not a no-op

The code computes the A* priority as `score + estimator(neighbor)`; with
the constant-zero estimator the score is `new_edge + zero`, which the
weighted-edge contract does not force to equal `new_edge`. -/

def add4 (a b : Nat) : Nat := if a = 3 ∧ b = 0 then 10 else a + b

def c4G : EGraph Nat Nat :=
  { neighbors := fun v => if v = 0 then [1, 2] else [],
    edges := fun v w =>
      if v = 0 ∧ w = 1 then [3] else if v = 0 ∧ w = 2 then [4] else [] }

theorem add4_contract : ∀ a b : Nat, a ≤ add4 a b ∧ b ≤ add4 a b := by
  intro a b
  unfold add4
  by_cases h : a = 3 ∧ b = 0
  · rw [if_pos h]; omega
  · rw [if_neg h]; omega

/-- C4 is false as stated: on `c4G`, whose weights satisfy the documented
weighted-edge contract, the second `next()` of Dijkstra returns vertex `1`
while the second `next()` of A* with the constant-zero estimator returns
vertex `2`: the two traversers do not produce the same vertex sequence. -/
theorem astar_zero_estimator_differs_from_dijkstra :
    (∀ a b : Nat, a ≤ add4 a b ∧ b ≤ add4 a b) ∧
    (∀ e : Nat, 0 ≤ e) ∧
    (astarNext c4G add4 none
      (astarNext c4G add4 none (astarNew 0 0)).2).1 = some 1 ∧
    (astarNext c4G add4 (some (fun _ => 0))
      (astarNext c4G add4 (some (fun _ => 0)) (astarNew 0 0)).2).1 = some 2 ∧
    some 1 ≠ some 2 := by
  exact ⟨add4_contract, fun e => Nat.zero_le e, by decide, by decide, by decide⟩

/-! ## C9, counterexample part: predecessor does not pull the traverser -/

/-- C9 is false as stated for the current `VertexTraverser::predecessor`:
on the graph `0 → 1`, the fresh BFS traverser answers
`predecessor(1) = None` even though vertex `1` is reachable and a single
additional pull would decide it (after one `next()` the recorded
predecessor is `Some 0`).  `predecessor` takes `&self` and only reports
the currently recorded state; the pulls are performed by
`construct_path`, not by `predecessor`. -/
theorem predecessor_reports_current_state_only :
    bfsPredecessor (bfsNew 0) 1 = none ∧
    bfsPredecessor
      (bfsNext (fun n => if n = 0 then [1] else []) (bfsNew 0)).2 1 = some 0 := by
  exact ⟨by decide, by decide⟩

/-! ## C4, amended part -/

theorem astarRelax_zero_est [DecidableEq V] [LinearOrder E]
    (g : EGraph V E) (add : E → E → E) (dflt : E)
    (hid : ∀ e : E, add e dflt = e) (vertex : V) (edge : E)
    (st : AstarState V E) (n : V) :
    astarRelax g add (some (fun _ => dflt)) vertex edge st n =
      astarRelax g add none vertex edge st n := by
  unfold astarRelax
  split
  · rfl
  · rename_i oe hmin
    rcases hln : lookupA st.min_edge_map n with - | me
    · simp [hid]
    · by_cases hlt : add edge oe < me
      · simp [hlt, hid]
      · simp [hlt]

theorem astarTrav_zero_est_eq [DecidableEq V] [LinearOrder E]
    (g : EGraph V E) (add : E → E → E) (dflt : E)
    (hid : ∀ e : E, add e dflt = e) :
    astarTrav g add (some (fun _ => dflt)) = astarTrav g add none := by
  unfold astarTrav
  have hnext : astarNext g add (some (fun _ => dflt)) = astarNext g add none := by
    funext s
    unfold astarNext
    rcases hp : s.queue.popE with - | op
    · rfl
    · rcases op with - | ⟨⟨⟨vertex, edge⟩, cost⟩, q1⟩
      · rfl
      · have hrel : astarRelax g add (some (fun _ => dflt)) vertex edge =
            astarRelax g add none vertex edge := by
          funext st n
          exact astarRelax_zero_est g add dflt hid vertex edge st n
        simp only [hrel]
  rw [hnext]

/-- C4 amended: when the zero element is a right identity of the combining
operation (`e + zero = e`, which the documented contract does not imply but
every standard weight type satisfies), the A* traverser with the
constant-zero estimator is step-for-step identical to the Dijkstra
traverser: `next` returns the same vertex and the same successor state
(hence the same vertex sequence and the same predecessor and cost maps),
and `construct_path` returns the same result from any state. -/
theorem astar_zero_estimator_eq_dijkstra [DecidableEq V] [LinearOrder E]
    (g : EGraph V E) (add : E → E → E) (dflt : E)
    (hid : ∀ e : E, add e dflt = e) :
    (∀ s : AstarState V E,
      astarNext g add (some (fun _ => dflt)) s = astarNext g add none s) ∧
    (∀ (fuel : Nat) (s : AstarState V E) (target : V),
      constructPath (astarTrav g add (some (fun _ => dflt))) fuel s target =
        constructPath (astarTrav g add none) fuel s target) := by
  have h := astarTrav_zero_est_eq g add dflt hid
  constructor
  · intro s
    have : (astarTrav g add (some (fun _ => dflt))).next s =
        (astarTrav g add none).next s := by rw [h]
    exact this
  · intro fuel s target
    rw [h]

/-- Witness for C4 amended with ordinary natural-number weights. -/
theorem astar_zero_estimator_eq_dijkstra_witness :
    astarNext c4G (fun a b => a + b) (some (fun _ => 0)) (astarNew 0 0) =
      astarNext c4G (fun a b => a + b) none (astarNew 0 0) ∧
    constructPath (astarTrav c4G (fun a b => a + b) (some (fun _ => 0))) 10
        (astarNew 0 0) 2 =
      constructPath (astarTrav c4G (fun a b => a + b) none) 10 (astarNew 0 0) 2 := by
  constructor
  · exact (astar_zero_estimator_eq_dijkstra c4G (fun a b => a + b) 0
      (fun e => Nat.add_zero e)).1 (astarNew 0 0)
  · exact (astar_zero_estimator_eq_dijkstra c4G (fun a b => a + b) 0
      (fun e => Nat.add_zero e)).2 10 (astarNew 0 0) 2

/-! ## Heap order facts -/

theorem keyLt_irrefl [LinearOrder C] (x : C × Nat) : ¬ keyLt x x := by
  unfold keyLt
  push_neg
  exact ⟨le_refl _, fun _ => le_refl _⟩

theorem keyLt_asymm [LinearOrder C] (x y : C × Nat) (h : keyLt x y) :
    ¬ keyLt y x := by
  unfold keyLt at h ⊢
  push_neg
  rcases h with h | ⟨he, hn⟩
  · refine ⟨le_of_lt h, fun hc => ?_⟩
    exact absurd (hc ▸ h) (lt_irrefl _)
  · exact ⟨le_of_eq he, fun _ => le_of_lt hn⟩

theorem keyLe_trans [LinearOrder C] (x y z : C × Nat)
    (h1 : ¬ keyLt y x) (h2 : ¬ keyLt z y) : ¬ keyLt z x := by
  unfold keyLt at h1 h2 ⊢
  push_neg at h1 h2 ⊢
  refine ⟨le_trans h1.1 h2.1, fun he => ?_⟩
  have hxy : x.1 = y.1 := le_antisymm h1.1 (he ▸ h2.1)
  exact le_trans (h1.2 hxy.symm) (h2.2 (by rw [he, hxy]))

theorem heapMin_eq_none_iff [LinearOrder C] (l : List (C × Nat)) :
    heapMin l = none ↔ l = [] := by
  cases l with
  | nil => simp [heapMin]
  | cons e rest =>
    simp only [heapMin]
    cases heapMin rest with
    | none => simp
    | some m =>
      by_cases h : keyLt m e
      · simp [h]
      · simp [h]

theorem heapMin_mem [LinearOrder C] (l : List (C × Nat)) (m : C × Nat)
    (h : heapMin l = some m) : m ∈ l := by
  induction l with
  | nil => simp [heapMin] at h
  | cons e rest ih =>
    simp only [heapMin] at h
    cases hr : heapMin rest with
    | none =>
      simp only [hr] at h
      cases h
      exact List.mem_cons_self _ _
    | some m0 =>
      simp only [hr] at h
      by_cases hk : keyLt m0 e
      · rw [if_pos hk] at h
        cases h
        exact List.mem_cons_of_mem _ (ih hr)
      · rw [if_neg hk] at h
        cases h
        exact List.mem_cons_self _ _

theorem heapMin_min [LinearOrder C] :
    ∀ (l : List (C × Nat)) (m : C × Nat), heapMin l = some m →
      ∀ p ∈ l, ¬ keyLt p m := by
  intro l
  induction l with
  | nil => intro m h; simp [heapMin] at h
  | cons e rest ih =>
    intro m h p hp
    simp only [heapMin] at h
    rcases List.mem_cons.1 hp with hpe | hpr
    · subst hpe
      cases hr : heapMin rest with
      | none =>
        simp only [hr] at h
        cases h
        exact keyLt_irrefl _
      | some m0 =>
        simp only [hr] at h
        by_cases hk : keyLt m0 p
        · rw [if_pos hk] at h
          cases h
          exact keyLt_asymm _ _ hk
        · rw [if_neg hk] at h
          cases h
          exact keyLt_irrefl _
    · cases hr : heapMin rest with
      | none =>
        rw [heapMin_eq_none_iff] at hr
        subst hr
        simp at hpr
      | some m0 =>
        simp only [hr] at h
        have hpm0 := ih m0 hr p hpr
        by_cases hk : keyLt m0 e
        · rw [if_pos hk] at h
          cases h
          exact hpm0
        · rw [if_neg hk] at h
          cases h
          exact keyLe_trans _ _ _ hk hpm0

theorem mem_of_mem_eraseEntry [LinearOrder C] (l : List (C × Nat))
    (x p : C × Nat) (h : p ∈ eraseEntry l x) : p ∈ l := by
  induction l with
  | nil => simp [eraseEntry] at h
  | cons e rest ih =>
    simp only [eraseEntry] at h
    by_cases he : e = x
    · rw [if_pos he] at h
      exact List.mem_cons_of_mem _ h
    · rw [if_neg he] at h
      rcases List.mem_cons.1 h with h1 | h1
      · exact h1 ▸ List.mem_cons_self _ _
      · exact List.mem_cons_of_mem _ (ih h1)

theorem eraseEntry_sublist [LinearOrder C] (l : List (C × Nat)) (x : C × Nat) :
    (eraseEntry l x).Sublist l := by
  induction l with
  | nil => simp [eraseEntry]
  | cons e rest ih =>
    simp only [eraseEntry]
    by_cases he : e = x
    · rw [if_pos he]
      exact (List.sublist_cons_self _ _)
    · rw [if_neg he]
      exact ih.cons₂ e

theorem snd_ne_of_mem_eraseEntry [LinearOrder C] (l : List (C × Nat))
    (x p : C × Nat) (hnd : (l.map Prod.snd).Nodup) (hx : x ∈ l)
    (h : p ∈ eraseEntry l x) : p.2 ≠ x.2 := by
  induction l with
  | nil => simp at hx
  | cons e rest ih =>
    simp only [List.map_cons, List.nodup_cons] at hnd
    simp only [eraseEntry] at h
    by_cases he : e = x
    · rw [if_pos he] at h
      subst he
      intro hc
      exact hnd.1 (hc ▸ List.mem_map_of_mem Prod.snd h)
    · rw [if_neg he] at h
      rcases List.mem_cons.1 h with h1 | h1
      · subst h1
        rcases List.mem_cons.1 hx with h2 | h2
        · exact absurd h2.symm he
        · intro hc
          exact hnd.1 (hc ▸ List.mem_map_of_mem Prod.snd h2)
      · rcases List.mem_cons.1 hx with h2 | h2
        · exact absurd h2.symm he
        · exact ih hnd.2 h2 h1

/-! ## Container operation sequences (C8, C10) -/

inductive ContOp (V C : Type) where
  | pushOp (v : V) (c : C)
  | popOp

def applyContOp [LinearOrder C] (c : AstarContainer V C) :
    ContOp V C → AstarContainer V C
  | .pushOp v cost => c.push v cost
  | .popOp =>
    match c.popE with
    | some (some (_, c1)) => c1
    | _ => c

def applyContOps [LinearOrder C] (ops : List (ContOp V C)) : AstarContainer V C :=
  ops.foldl applyContOp AstarContainer.new

/-- The sequence of pushed `(value, cost)` pairs of an operation list, in
order; the container pairs the i-th push with sequence id i. -/
def pushedSeq : List (ContOp V C) → List (V × C)
  | [] => []
  | .pushOp v c :: rest => (v, c) :: pushedSeq rest
  | .popOp :: rest => pushedSeq rest

/-- The inductive invariant tying a reachable container to its push
history. -/
def ContGood [LinearOrder C] (c : AstarContainer V C) (pl : List (V × C)) : Prop :=
  c.id = pl.length ∧
  (c.binary_heap.map Prod.snd).Nodup ∧
  keysND c.id_map ∧
  (∀ p ∈ c.binary_heap, p.2 < c.id) ∧
  (∀ p ∈ c.binary_heap, ∃ v, lookupA c.id_map p.2 = some v ∧
    pl.get? p.2 = some (v, p.1))

theorem contGood_new [LinearOrder C] : ContGood (AstarContainer.new : AstarContainer V C) [] := by
  refine ⟨rfl, by simp [AstarContainer.new], keysND_nil, ?_, ?_⟩ <;>
    simp [AstarContainer.new]

theorem contGood_push [LinearOrder C] (c : AstarContainer V C)
    (pl : List (V × C)) (hg : ContGood c pl) (v : V) (cost : C) :
    ContGood (c.push v cost) (pl ++ [(v, cost)]) := by
  obtain ⟨hid, hnd, hknd, hlt, hcorr⟩ := hg
  refine ⟨?_, ?_, ?_, ?_, ?_⟩
  · simp [AstarContainer.push, hid]
  · simp only [AstarContainer.push, List.map_append, List.map_cons, List.map_nil]
    rw [List.nodup_append]
    refine ⟨hnd, by simp, ?_⟩
    intro a ha
    simp only [List.mem_singleton]
    rcases List.mem_map.1 ha with ⟨p, hp, hpa⟩
    intro hc
    exact absurd (hpa ▸ hc ▸ hlt p hp) (lt_irrefl _)
  · exact keysND_insertA _ _ _ hknd
  · intro p hp
    simp only [AstarContainer.push, List.mem_append, List.mem_singleton] at hp
    simp only [AstarContainer.push]
    rcases hp with hp | hp
    · exact lt_trans (hlt p hp) (Nat.lt_succ_self _)
    · subst hp
      exact Nat.lt_succ_self _
  · intro p hp
    simp only [AstarContainer.push, List.mem_append, List.mem_singleton] at hp
    rcases hp with hp | hp
    · obtain ⟨w, hw1, hw2⟩ := hcorr p hp
      refine ⟨w, ?_, ?_⟩
      · simp only [AstarContainer.push]
        rw [lookupA_insertA_ne _ _ _ _ (Nat.ne_of_lt (hlt p hp))]
        exact hw1
      · rw [List.get?_append (hid ▸ hlt p hp)]
        exact hw2
    · subst hp
      refine ⟨v, ?_, ?_⟩
      · simp only [AstarContainer.push]
        exact lookupA_insertA_self _ _ _
      · simp [hid]

theorem contGood_pop [LinearOrder C] (c : AstarContainer V C)
    (pl : List (V × C)) (hg : ContGood c pl) :
    ContGood (applyContOp c .popOp) pl := by
  obtain ⟨hid, hnd, hknd, hlt, hcorr⟩ := hg
  unfold applyContOp
  rcases hp : c.popE with - | op
  · exact ⟨hid, hnd, hknd, hlt, hcorr⟩
  · rcases op with - | ⟨⟨w, cost⟩, c1⟩
    · exact ⟨hid, hnd, hknd, hlt, hcorr⟩
    · simp only []
      unfold AstarContainer.popE at hp
      rcases hm : heapMin c.binary_heap with - | ⟨mcost, mi⟩
      · rw [hm] at hp; cases hp
      · simp only [hm] at hp
        rcases hl : lookupA c.id_map mi with - | mv
        · rw [hl] at hp; cases hp
        · rw [hl] at hp
          injection hp with hp
          injection hp with hp
          cases hp
          have hmem := heapMin_mem _ _ hm
          refine ⟨hid, ?_, keysND_removeA _ _ hknd, ?_, ?_⟩
          · exact List.Nodup.sublist
              (List.Sublist.map Prod.snd (eraseEntry_sublist _ _)) hnd
          · intro p hpm
            exact hlt p (mem_of_mem_eraseEntry _ _ _ hpm)
          · intro p hpm
            have hpmem := mem_of_mem_eraseEntry _ _ _ hpm
            have hne : p.2 ≠ mi :=
              snd_ne_of_mem_eraseEntry _ _ _ hnd hmem hpm
            obtain ⟨w1, hw1, hw2⟩ := hcorr p hpmem
            exact ⟨w1, by rw [lookupA_removeA_ne _ _ _ hne]; exact hw1, hw2⟩

theorem contGood_applyOps [LinearOrder C] (ops : List (ContOp V C)) :
    ContGood (applyContOps ops) (pushedSeq ops) := by
  suffices h : ∀ (ops : List (ContOp V C)) (c : AstarContainer V C)
      (pl : List (V × C)), ContGood c pl →
      ContGood (ops.foldl applyContOp c) (pl ++ pushedSeq ops) by
    have h2 := h ops AstarContainer.new [] contGood_new
    simpa [applyContOps] using h2
  intro ops
  induction ops with
  | nil => intro c pl hg; simpa [pushedSeq] using hg
  | cons op rest ih =>
    intro c pl hg
    cases op with
    | pushOp v cost =>
      have h1 := contGood_push c pl hg v cost
      have h2 := ih _ _ h1
      simpa [pushedSeq] using h2
    | popOp =>
      have h1 := contGood_pop c pl hg
      have h2 := ih _ _ h1
      simpa [pushedSeq] using h2

/-! ## C10 and C8 -/

/-- C10: for every sequence of push/pop operations from a fresh
`AstarContainer`, every sequence id in the binary heap has a matching
`id_map` entry, so the `unwrap` inside `pop` cannot panic and `pop` is
total: it returns `None` exactly when the container is empty. -/
theorem astar_container_pop_total [LinearOrder C] (ops : List (ContOp V C)) :
    (∀ p ∈ (applyContOps ops).binary_heap,
      (lookupA (applyContOps ops).id_map p.2).isSome) ∧
    (applyContOps ops).popE ≠ none ∧
    ((applyContOps ops).popE = some none ↔
      (applyContOps ops).binary_heap = []) := by
  obtain ⟨-, -, -, -, hcorr⟩ := contGood_applyOps ops
  have hsync : ∀ p ∈ (applyContOps ops).binary_heap,
      (lookupA (applyContOps ops).id_map p.2).isSome := by
    intro p hp
    obtain ⟨w, hw, -⟩ := hcorr p hp
    simp [hw]
  refine ⟨hsync, ?_, ?_⟩
  · unfold AstarContainer.popE
    rcases hm : heapMin (applyContOps ops).binary_heap with - | ⟨mcost, mi⟩
    · simp
    · have hmem := heapMin_mem _ _ hm
      have := hsync _ hmem
      rcases hl : lookupA (applyContOps ops).id_map mi with - | mv
      · rw [hl] at this; simp at this
      · simp [hl]
  · unfold AstarContainer.popE
    rcases hm : heapMin (applyContOps ops).binary_heap with - | ⟨mcost, mi⟩
    · rw [heapMin_eq_none_iff] at hm
      simp [hm]
    · have hmem := heapMin_mem _ _ hm
      have := hsync _ hmem
      rcases hl : lookupA (applyContOps ops).id_map mi with - | mv
      · rw [hl] at this; simp at this
      · simp only [hl]
        constructor
        · intro hc; cases hc
        · intro hc
          rw [hc] at hmem
          simp at hmem

/-- C8: for every sequence of push/pop operations from a fresh
`AstarContainer`, a successful `pop` returns an element whose cost is
minimal among the elements currently in the container, and among the
current elements of equal cost it is the one with the least sequence id,
i.e. the one pushed earliest (the id indexes the push history). -/
theorem astar_container_pop_min_stable [LinearOrder C]
    (ops : List (ContOp V C)) (v : V) (cost : C) (c1 : AstarContainer V C)
    (h : (applyContOps ops).popE = some (some ((v, cost), c1))) :
    (∀ p ∈ (applyContOps ops).binary_heap, cost ≤ p.1) ∧
    ∃ i, (cost, i) ∈ (applyContOps ops).binary_heap ∧
      lookupA (applyContOps ops).id_map i = some v ∧
      (pushedSeq ops).get? i = some (v, cost) ∧
      (∀ p ∈ (applyContOps ops).binary_heap, p.1 = cost → i ≤ p.2) := by
  obtain ⟨-, -, -, -, hcorr⟩ := contGood_applyOps ops
  unfold AstarContainer.popE at h
  rcases hm : heapMin (applyContOps ops).binary_heap with - | ⟨mcost, mi⟩
  · rw [hm] at h; cases h
  · simp only [hm] at h
    rcases hl : lookupA (applyContOps ops).id_map mi with - | mv
    · rw [hl] at h; cases h
    · rw [hl] at h
      injection h with h
      injection h with h
      have hv : mv = v := congrArg Prod.fst (congrArg Prod.fst h)
      have hc : mcost = cost := congrArg Prod.snd (congrArg Prod.fst h)
      subst hv; subst hc
      have hmem := heapMin_mem _ _ hm
      have hmin := heapMin_min _ _ hm
      constructor
      · intro p hp
        have := hmin p hp
        unfold keyLt at this
        push_neg at this
        exact this.1
      · refine ⟨mi, hmem, hl, ?_, ?_⟩
        · obtain ⟨w, hw1, hw2⟩ := hcorr _ hmem
          rw [hl] at hw1
          injection hw1 with hw1
          rw [← hw1] at hw2
          exact hw2
        · intro p hp hpc
          have := hmin p hp
          unfold keyLt at this
          push_neg at this
          exact this.2 hpc

/-- Witness for C8: two pushes with equal cost 5; pop returns the earlier
one (value 10, sequence id 0). -/
theorem astar_container_pop_min_stable_witness :
    (∀ p ∈ (applyContOps [ContOp.pushOp 10 5, ContOp.pushOp 11 (5 : Nat)]).binary_heap,
      5 ≤ p.1) ∧
    ∃ i, (5, i) ∈ (applyContOps [ContOp.pushOp 10 5, ContOp.pushOp 11 (5 : Nat)]).binary_heap ∧
      lookupA (applyContOps [ContOp.pushOp 10 5, ContOp.pushOp 11 (5 : Nat)]).id_map i = some 10 ∧
      (pushedSeq [ContOp.pushOp 10 5, ContOp.pushOp 11 (5 : Nat)]).get? i = some (10, 5) ∧
      (∀ p ∈ (applyContOps [ContOp.pushOp 10 5, ContOp.pushOp 11 (5 : Nat)]).binary_heap,
        p.1 = 5 → i ≤ p.2) := by
  exact astar_container_pop_min_stable
    [ContOp.pushOp 10 5, ContOp.pushOp 11 (5 : Nat)] 10 5
    ⟨2, [(5, 1)], [(1, 11)]⟩ (by decide)

/-! ## Finite store invariant machinery (C3) -/

/-- Number of adjacency entries with edge id `e` in the list stored under
key `v`. -/
def cnt (m : List (Nat × List (Nat × Nat))) (v e : Nat) : Nat :=
  ((lookupA m v).getD []).countP (fun p => p.2 = e)

theorem countP_removeFirstEdge_self (l : List (Nat × Nat)) (e : Nat) :
    (removeFirstEdge l e).countP (fun p => p.2 = e) =
      l.countP (fun p => p.2 = e) - 1 := by
  induction l with
  | nil => simp [removeFirstEdge]
  | cons p rest ih =>
    obtain ⟨w, e0⟩ := p
    by_cases he : e0 = e
    · subst he
      have hr : removeFirstEdge ((w, e0) :: rest) e0 = rest := by
        simp [removeFirstEdge]
      rw [hr, List.countP_cons]
      simp
    · have hr : removeFirstEdge ((w, e0) :: rest) e =
          (w, e0) :: removeFirstEdge rest e := by
        simp [removeFirstEdge, he]
      rw [hr, List.countP_cons, List.countP_cons]
      simp only [decide_eq_true_eq, he, if_false]
      omega

theorem countP_removeFirstEdge_other (l : List (Nat × Nat)) (e e' : Nat)
    (hne : e' ≠ e) :
    (removeFirstEdge l e).countP (fun p => p.2 = e') =
      l.countP (fun p => p.2 = e') := by
  induction l with
  | nil => simp [removeFirstEdge]
  | cons p rest ih =>
    obtain ⟨w, e0⟩ := p
    by_cases he : e0 = e
    · subst he
      have hr : removeFirstEdge ((w, e0) :: rest) e0 = rest := by
        simp [removeFirstEdge]
      rw [hr, List.countP_cons]
      simp only [decide_eq_true_eq]
      rw [if_neg (show ¬ ((w, e0).2 = e') from fun hc => hne hc.symm)]
      omega
    · have hr : removeFirstEdge ((w, e0) :: rest) e =
          (w, e0) :: removeFirstEdge rest e := by
        simp [removeFirstEdge, he]
      rw [hr, List.countP_cons, List.countP_cons, ih]

theorem mem_removeFirstEdge (l : List (Nat × Nat)) (e : Nat) (p : Nat × Nat)
    (h : p ∈ removeFirstEdge l e) : p ∈ l := by
  induction l with
  | nil => simp [removeFirstEdge] at h
  | cons q rest ih =>
    obtain ⟨w, e0⟩ := q
    by_cases he : e0 = e
    · subst he
      simp only [removeFirstEdge, if_pos rfl] at h
      exact List.mem_cons_of_mem _ h
    · simp only [removeFirstEdge, if_neg he, List.mem_cons] at h ⊢
      rcases h with h | h
      · left; exact h
      · right; exact ih h

theorem lookupA_scrubMap_ne (m : List (Nat × List (Nat × Nat))) (v v' e : Nat)
    (h : v' ≠ v) : lookupA (scrubMap m v e) v' = lookupA m v' := by
  unfold scrubMap
  cases hl : lookupA m v with
  | none => rfl
  | some l => exact lookupA_insertA_ne _ _ _ _ h

theorem lookupA_scrubMap_self (m : List (Nat × List (Nat × Nat))) (v e : Nat) :
    lookupA (scrubMap m v e) v =
      (lookupA m v).map (fun l => removeFirstEdge l e) := by
  unfold scrubMap
  cases hl : lookupA m v with
  | none => simp [hl]
  | some l => simp [lookupA_insertA_self]

theorem keysND_scrubMap (m : List (Nat × List (Nat × Nat))) (v e : Nat)
    (h : keysND m) : keysND (scrubMap m v e) := by
  unfold scrubMap
  cases lookupA m v with
  | none => exact h
  | some l => exact keysND_insertA _ _ _ h

theorem cnt_scrubMap_self (m : List (Nat × List (Nat × Nat))) (v e : Nat) :
    cnt (scrubMap m v e) v e = cnt m v e - 1 := by
  unfold cnt
  rw [lookupA_scrubMap_self]
  cases lookupA m v with
  | none => simp
  | some l => simp [countP_removeFirstEdge_self]

theorem cnt_scrubMap_ne_vertex (m : List (Nat × List (Nat × Nat)))
    (v v' e e' : Nat) (h : v' ≠ v) :
    cnt (scrubMap m v e) v' e' = cnt m v' e' := by
  unfold cnt
  rw [lookupA_scrubMap_ne _ _ _ _ h]

theorem cnt_scrubMap_ne_edge (m : List (Nat × List (Nat × Nat)))
    (v v' e e' : Nat) (h : e' ≠ e) :
    cnt (scrubMap m v e) v' e' = cnt m v' e' := by
  by_cases hv : v' = v
  · subst hv
    unfold cnt
    rw [lookupA_scrubMap_self]
    cases lookupA m v' with
    | none => simp
    | some l => simp [countP_removeFirstEdge_other _ _ _ h]
  · exact cnt_scrubMap_ne_vertex _ _ _ _ _ hv

theorem scrubMap_entry_sub (m : List (Nat × List (Nat × Nat))) (v e v' : Nat)
    (l' : List (Nat × Nat)) (h : lookupA (scrubMap m v e) v' = some l') :
    ∃ l, lookupA m v' = some l ∧ ∀ p ∈ l', p ∈ l := by
  by_cases hv : v' = v
  · subst hv
    rw [lookupA_scrubMap_self] at h
    cases hl : lookupA m v' with
    | none => rw [hl] at h; cases h
    | some l =>
      rw [hl] at h
      injection h with h
      exact ⟨l, rfl, fun p hp => mem_removeFirstEdge _ _ _ (h ▸ hp)⟩
  · rw [lookupA_scrubMap_ne _ _ _ _ hv] at h
    exact ⟨l', h, fun p hp => hp⟩

theorem cnt_pos_mem (m : List (Nat × List (Nat × Nat))) (v e : Nat)
    (h : 0 < cnt m v e) :
    ∃ l, lookupA m v = some l ∧ e ∈ l.map Prod.snd := by
  unfold cnt at h
  cases hl : lookupA m v with
  | none => rw [hl] at h; simp at h
  | some l =>
    rw [hl] at h
    simp only [Option.getD_some] at h
    rcases List.countP_pos.1 h with ⟨p, hp, hpe⟩
    simp only [decide_eq_true_eq] at hpe
    exact ⟨l, rfl, hpe ▸ List.mem_map_of_mem Prod.snd hp⟩

theorem cnt_pos_of_mem (m : List (Nat × List (Nat × Nat))) (v e : Nat)
    (l : List (Nat × Nat)) (p : Nat × Nat) (hl : lookupA m v = some l)
    (hp : p ∈ l) (hpe : p.2 = e) : 0 < cnt m v e := by
  unfold cnt
  rw [hl]
  simp only [Option.getD_some]
  exact List.countP_pos.2 ⟨p, hp, by simp [hpe]⟩

theorem containsA_insertA_mono [DecidableEq K] (m : List (K × A)) (k k' : K)
    (a : A) (h : containsA m k) : containsA (insertA m k' a) k := by
  by_cases hk : k = k'
  · subst hk
    unfold containsA
    rw [lookupA_insertA_self]
    rfl
  · unfold containsA at h ⊢
    rw [lookupA_insertA_ne _ _ _ _ hk]
    exact h

theorem lookupA_none_of_big [DecidableEq K] (m : List (K × A)) (k : K)
    (bound : K → Prop) (hb : ∀ p ∈ m, bound p.1) (hk : ¬ bound k) :
    lookupA m k = none := by
  apply lookupA_eq_none_of_not_memKeys
  intro hmem
  rcases List.mem_map.1 hmem with ⟨p, hp, hpk⟩
  exact hk (hpk ▸ hb p hp)

/-- The exact multiplicities of the adjacency entries of a stored edge:
a plain edge `a → b` occurs once in `a`'s forward list and once in `b`'s
reverse list; a bi-edge additionally occurs once in `b`'s forward and
`a`'s reverse list; self-loop variants fold the two sides onto one key. -/
def countsOK (g : FiniteGraph V E) (e a b : Nat) : Prop :=
  (a ≠ b → cnt g.neighbors_map a e = 1 ∧ cnt g.reverse_neighbors_map b e = 1 ∧
    cnt g.neighbors_map b e = cnt g.reverse_neighbors_map a e ∧
    cnt g.neighbors_map b e ≤ 1) ∧
  (a = b → cnt g.neighbors_map a e = cnt g.reverse_neighbors_map a e ∧
    1 ≤ cnt g.neighbors_map a e ∧ cnt g.neighbors_map a e ≤ 2)

/-- Upper bounds on the multiplicities, all that is needed for the scrub
loop of `remove_edge` to clear every occurrence. -/
def cntBounded (g : FiniteGraph V E) (e a b : Nat) : Prop :=
  (a ≠ b → cnt g.neighbors_map a e ≤ 1 ∧ cnt g.reverse_neighbors_map b e ≤ 1 ∧
    cnt g.neighbors_map b e ≤ 1 ∧ cnt g.reverse_neighbors_map a e ≤ 1) ∧
  (a = b → cnt g.neighbors_map a e ≤ 2 ∧ cnt g.reverse_neighbors_map a e ≤ 2)

theorem countsOK_bounded (g : FiniteGraph V E) (e a b : Nat)
    (h : countsOK g e a b) : cntBounded g e a b := by
  obtain ⟨h1, h2⟩ := h
  constructor
  · intro hne
    obtain ⟨c1, c2, c3, c4⟩ := h1 hne
    omega
  · intro he
    obtain ⟨c1, c2, c3⟩ := h2 he
    omega

/-- The inductive invariant of the finite store. -/
structure StoreInv (g : FiniteGraph V E) : Prop where
  ndV : keysND g.vertices_map
  ndE : keysND g.edges_map
  ndN : keysND g.neighbors_map
  ndR : keysND g.reverse_neighbors_map
  bndV : ∀ p ∈ g.vertices_map, p.1 ≤ g.id
  bndE : ∀ p ∈ g.edges_map, p.1 ≤ g.id
  bndN : ∀ q ∈ g.neighbors_map, q.1 ≤ g.id ∧ ∀ p ∈ q.2, p.2 ≤ g.id
  bndR : ∀ q ∈ g.reverse_neighbors_map, q.1 ≤ g.id ∧ ∀ p ∈ q.2, p.2 ≤ g.id
  adjN : ∀ v l, lookupA g.neighbors_map v = some l → ∀ p ∈ l, ∃ val : E,
    lookupA g.edges_map p.2 = some (val, v, p.1) ∨
    lookupA g.edges_map p.2 = some (val, p.1, v)
  adjR : ∀ v l, lookupA g.reverse_neighbors_map v = some l → ∀ p ∈ l, ∃ val : E,
    lookupA g.edges_map p.2 = some (val, p.1, v) ∨
    lookupA g.edges_map p.2 = some (val, v, p.1)
  cok : ∀ e ev a b, lookupA g.edges_map e = some (ev, a, b) → countsOK g e a b
  live : ∀ e ev a b, lookupA g.edges_map e = some (ev, a, b) →
    containsA g.vertices_map a ∧ containsA g.vertices_map b

theorem storeInv_new : StoreInv (FiniteGraph.new : FiniteGraph V E) := by
  refine ⟨keysND_nil, keysND_nil, keysND_nil, keysND_nil, ?_, ?_, ?_, ?_,
    ?_, ?_, ?_, ?_⟩ <;> simp [FiniteGraph.new, lookupA]

theorem storeInv_insert_vertex (g : FiniteGraph V E) (hg : StoreInv g)
    (value : V) : StoreInv (g.insert_vertex value).2 := by
  obtain ⟨ndV, ndE, ndN, ndR, bndV, bndE, bndN, bndR, adjN, adjR, cok, live⟩ := hg
  unfold FiniteGraph.insert_vertex
  refine ⟨keysND_insertA _ _ _ ndV, ndE, ndN, ndR, ?_, ?_, ?_, ?_, adjN, adjR,
    ?_, ?_⟩
  · intro p hp
    rcases mem_insertA _ _ _ _ _ hp with h | h
    · simp [h]
    · exact le_trans (bndV p h) (Nat.le_succ _)
  · intro p hp
    exact le_trans (bndE p hp) (Nat.le_succ _)
  · intro q hq
    obtain ⟨h1, h2⟩ := bndN q hq
    exact ⟨le_trans h1 (Nat.le_succ _), fun p hp => le_trans (h2 p hp) (Nat.le_succ _)⟩
  · intro q hq
    obtain ⟨h1, h2⟩ := bndR q hq
    exact ⟨le_trans h1 (Nat.le_succ _), fun p hp => le_trans (h2 p hp) (Nat.le_succ _)⟩
  · intro e ev a b he
    exact cok e ev a b he
  · intro e ev a b he
    obtain ⟨h1, h2⟩ := live e ev a b he
    exact ⟨containsA_insertA_mono _ _ _ _ h1, containsA_insertA_mono _ _ _ _ h2⟩

theorem mem_insertA_strong [DecidableEq K] (m : List (K × A)) (k : K) (a : A)
    (q : K × A) (h : q ∈ insertA m k a) : q = (k, a) ∨ q ∈ m := by
  induction m with
  | nil =>
    simp only [insertA, List.mem_singleton] at h
    left; exact h
  | cons hd rest ih =>
    obtain ⟨k0, a0⟩ := hd
    by_cases hk : k0 = k
    · subst hk
      simp only [insertA, if_true, eq_self_iff_true, List.mem_cons] at h
      rcases h with h1 | h1
      · left; exact h1
      · right; exact List.mem_cons_of_mem _ h1
    · simp only [insertA, if_neg hk, List.mem_cons] at h
      rcases h with h1 | h1
      · right; exact List.mem_cons.2 (Or.inl h1)
      · rcases ih h1 with h2 | h2
        · left; exact h2
        · right; exact List.mem_cons_of_mem _ h2

theorem mem_of_lookupA [DecidableEq K] (m : List (K × A)) (k : K) (a : A)
    (h : lookupA m k = some a) : (k, a) ∈ m := by
  induction m with
  | nil => simp [lookupA] at h
  | cons hd rest ih =>
    obtain ⟨k0, a0⟩ := hd
    by_cases hk : k0 = k
    · subst hk
      simp only [lookupA, if_pos rfl] at h
      injection h with h
      subst h
      exact List.mem_cons_self _ _
    · simp only [lookupA, if_neg hk] at h
      exact List.mem_cons_of_mem _ (ih h)

theorem containsA_bound (m : List (Nat × A)) (k n : Nat)
    (hb : ∀ p ∈ m, p.1 ≤ n) (h : containsA m k) : k ≤ n := by
  unfold containsA at h
  cases hl : lookupA m k with
  | none => rw [hl] at h; simp at h
  | some a => exact hb _ (mem_of_lookupA _ _ _ hl)

theorem cnt_zero_of_fresh (m : List (Nat × List (Nat × Nat))) (v e n : Nat)
    (hb : ∀ q ∈ m, ∀ p ∈ q.2, p.2 ≤ n) (he : n < e) : cnt m v e = 0 := by
  unfold cnt
  cases hl : lookupA m v with
  | none => simp
  | some l =>
    simp only [Option.getD_some]
    rw [List.countP_eq_zero]
    intro p hp
    simp only [decide_eq_true_eq]
    intro hc
    have := hb _ (mem_of_lookupA _ _ _ hl) p hp
    omega

/-- The adjacency update of `insert_edge_id` as an `insertA` of an
appended list. -/
theorem insert_edge_id_maps (g : FiniteGraph V E) (f t e : Nat) :
    (g.insert_edge_id f t e).2.neighbors_map =
      insertA g.neighbors_map f (((lookupA g.neighbors_map f).getD []) ++ [(t, e)]) ∧
    (g.insert_edge_id f t e).2.reverse_neighbors_map =
      insertA g.reverse_neighbors_map t
        (((lookupA g.reverse_neighbors_map t).getD []) ++ [(f, e)]) ∧
    (g.insert_edge_id f t e).2.edges_map = g.edges_map ∧
    (g.insert_edge_id f t e).2.vertices_map = g.vertices_map ∧
    (g.insert_edge_id f t e).2.id = g.id ∧
    (g.insert_edge_id f t e).1 = some e := by
  unfold FiniteGraph.insert_edge_id
  cases hn : lookupA g.neighbors_map f with
  | none =>
    cases hr : lookupA g.reverse_neighbors_map t with
    | none => simp [hn, hr]
    | some l => simp [hn, hr]
  | some l =>
    cases hr : lookupA g.reverse_neighbors_map t with
    | none => simp [hn, hr]
    | some l2 => simp [hn, hr]

theorem cnt_insertA_append_self (m : List (Nat × List (Nat × Nat)))
    (v w e0 e : Nat) :
    cnt (insertA m v (((lookupA m v).getD []) ++ [(w, e0)])) v e =
      cnt m v e + (if e0 = e then 1 else 0) := by
  unfold cnt
  rw [lookupA_insertA_self]
  simp only [Option.getD_some, List.countP_append]
  simp only [List.countP_cons, List.countP_nil, decide_eq_true_eq]
  omega

theorem cnt_insertA_append_ne (m : List (Nat × List (Nat × Nat)))
    (v v' w e0 e : Nat) (h : v' ≠ v) :
    cnt (insertA m v (((lookupA m v).getD []) ++ [(w, e0)])) v' e =
      cnt m v' e := by
  unfold cnt
  rw [lookupA_insertA_ne _ _ _ _ h]

theorem insert_edge_fields (g : FiniteGraph V E) (f t : Nat) (val : E)
    (hf : containsA g.vertices_map f) (ht : containsA g.vertices_map t) :
    (g.insert_edge f t val).1 = some (g.id + 1) ∧
    (g.insert_edge f t val).2.id = g.id + 1 ∧
    (g.insert_edge f t val).2.vertices_map = g.vertices_map ∧
    (g.insert_edge f t val).2.edges_map =
      insertA g.edges_map (g.id + 1) (val, f, t) ∧
    (g.insert_edge f t val).2.neighbors_map =
      insertA g.neighbors_map f
        (((lookupA g.neighbors_map f).getD []) ++ [(t, g.id + 1)]) ∧
    (g.insert_edge f t val).2.reverse_neighbors_map =
      insertA g.reverse_neighbors_map t
        (((lookupA g.reverse_neighbors_map t).getD []) ++ [(f, g.id + 1)]) := by
  have hg1 : g.insert_edge f t val =
      ({ g with
           id := g.id + 1,
           edges_map := insertA g.edges_map (g.id + 1) (val, f, t) }).insert_edge_id
        f t (g.id + 1) := by
    unfold FiniteGraph.insert_edge
    rw [if_neg (by push_neg; exact ⟨hf, ht⟩)]
  obtain ⟨hnm, hrm, hem, hvm, hid, hfst⟩ := insert_edge_id_maps
    ({ g with
         id := g.id + 1,
         edges_map := insertA g.edges_map (g.id + 1) (val, f, t) }) f t (g.id + 1)
  rw [hg1]
  exact ⟨hfst, hid, hvm, hem, hnm, hrm⟩

/-- Generic invariant-preservation for states obtained by adding a fresh
edge record with id `g.id + 1` and appending the matching forward and
reverse adjacency entries. -/
theorem storeInv_edge_extension (g S1 : FiniteGraph V E) (hg : StoreInv g)
    (f t : Nat) (val : E)
    (hf : containsA g.vertices_map f) (ht : containsA g.vertices_map t)
    (hid : S1.id = g.id + 1) (hvm : S1.vertices_map = g.vertices_map)
    (hem : S1.edges_map = insertA g.edges_map (g.id + 1) (val, f, t))
    (hnm : S1.neighbors_map =
      insertA g.neighbors_map f
        (((lookupA g.neighbors_map f).getD []) ++ [(t, g.id + 1)]))
    (hrm : S1.reverse_neighbors_map =
      insertA g.reverse_neighbors_map t
        (((lookupA g.reverse_neighbors_map t).getD []) ++ [(f, g.id + 1)])) :
    StoreInv S1 ∧
    (f ≠ t → cnt S1.neighbors_map t (g.id + 1) = 0 ∧
      cnt S1.reverse_neighbors_map f (g.id + 1) = 0) ∧
    (f = t → cnt S1.neighbors_map f (g.id + 1) = 1 ∧
      cnt S1.reverse_neighbors_map f (g.id + 1) = 1) := by
  obtain ⟨ndV, ndE, ndN, ndR, bndV, bndE, bndN, bndR, adjN, adjR, cok, live⟩ := hg
  have hfb : f ≤ g.id := containsA_bound _ _ _ bndV hf
  have htb : t ≤ g.id := containsA_bound _ _ _ bndV ht
  have hemi : lookupA S1.edges_map (g.id + 1) = some (val, f, t) := by
    rw [hem]; exact lookupA_insertA_self _ _ _
  have hemold : ∀ e, e ≠ g.id + 1 →
      lookupA S1.edges_map e = lookupA g.edges_map e := by
    intro e he
    rw [hem]; exact lookupA_insertA_ne _ _ _ _ he
  have hcntn : ∀ v e, cnt S1.neighbors_map v e =
      cnt g.neighbors_map v e +
        (if v = f then (if g.id + 1 = e then 1 else 0) else 0) := by
    intro v e
    rw [hnm]
    by_cases hv : v = f
    · subst hv
      rw [if_pos rfl]
      exact cnt_insertA_append_self _ _ _ _ _
    · rw [if_neg hv, cnt_insertA_append_ne _ _ _ _ _ _ hv]
      omega
  have hcntr : ∀ v e, cnt S1.reverse_neighbors_map v e =
      cnt g.reverse_neighbors_map v e +
        (if v = t then (if g.id + 1 = e then 1 else 0) else 0) := by
    intro v e
    rw [hrm]
    by_cases hv : v = t
    · subst hv
      rw [if_pos rfl]
      exact cnt_insertA_append_self _ _ _ _ _
    · rw [if_neg hv, cnt_insertA_append_ne _ _ _ _ _ _ hv]
      omega
  have hfreshn : ∀ v, cnt g.neighbors_map v (g.id + 1) = 0 :=
    fun v => cnt_zero_of_fresh _ _ _ g.id (fun q hq => (bndN q hq).2)
      (Nat.lt_succ_self _)
  have hfreshr : ∀ v, cnt g.reverse_neighbors_map v (g.id + 1) = 0 :=
    fun v => cnt_zero_of_fresh _ _ _ g.id (fun q hq => (bndR q hq).2)
      (Nat.lt_succ_self _)
  refine ⟨⟨?_, ?_, ?_, ?_, ?_, ?_, ?_, ?_, ?_, ?_, ?_, ?_⟩, ?_, ?_⟩
  · rw [hvm]; exact ndV
  · rw [hem]; exact keysND_insertA _ _ _ ndE
  · rw [hnm]; exact keysND_insertA _ _ _ ndN
  · rw [hrm]; exact keysND_insertA _ _ _ ndR
  · rw [hvm, hid]
    exact fun p hp => le_trans (bndV p hp) (Nat.le_succ _)
  · rw [hem, hid]
    intro p hp
    rcases mem_insertA_strong _ _ _ _ hp with h | h
    · rw [h]
    · exact le_trans (bndE p h) (Nat.le_succ _)
  · rw [hnm, hid]
    intro q hq
    rcases mem_insertA_strong _ _ _ _ hq with h | h
    · subst h
      refine ⟨le_trans hfb (Nat.le_succ _), ?_⟩
      intro p hp
      rcases List.mem_append.1 hp with h1 | h1
      · cases hl : lookupA g.neighbors_map f with
        | none => rw [hl] at h1; simp at h1
        | some l0 =>
          rw [hl] at h1
          simp only [Option.getD_some] at h1
          exact le_trans ((bndN _ (mem_of_lookupA _ _ _ hl)).2 p h1)
            (Nat.le_succ _)
      · simp only [List.mem_singleton] at h1
        rw [h1]
    · obtain ⟨h1, h2⟩ := bndN q h
      exact ⟨le_trans h1 (Nat.le_succ _),
        fun p hp => le_trans (h2 p hp) (Nat.le_succ _)⟩
  · rw [hrm, hid]
    intro q hq
    rcases mem_insertA_strong _ _ _ _ hq with h | h
    · subst h
      refine ⟨le_trans htb (Nat.le_succ _), ?_⟩
      intro p hp
      rcases List.mem_append.1 hp with h1 | h1
      · cases hl : lookupA g.reverse_neighbors_map t with
        | none => rw [hl] at h1; simp at h1
        | some l0 =>
          rw [hl] at h1
          simp only [Option.getD_some] at h1
          exact le_trans ((bndR _ (mem_of_lookupA _ _ _ hl)).2 p h1)
            (Nat.le_succ _)
      · simp only [List.mem_singleton] at h1
        rw [h1]
    · obtain ⟨h1, h2⟩ := bndR q h
      exact ⟨le_trans h1 (Nat.le_succ _),
        fun p hp => le_trans (h2 p hp) (Nat.le_succ _)⟩
  · rw [hnm]
    intro v l hvl p hp
    by_cases hv : v = f
    · subst hv
      rw [lookupA_insertA_self] at hvl
      injection hvl with hvl
      subst hvl
      rcases List.mem_append.1 hp with h1 | h1
      · cases hl : lookupA g.neighbors_map v with
        | none => rw [hl] at h1; simp at h1
        | some l0 =>
          rw [hl] at h1
          simp only [Option.getD_some] at h1
          obtain ⟨w, hw⟩ := adjN v l0 hl p h1
          have hpb : p.2 ≤ g.id := (bndN _ (mem_of_lookupA _ _ _ hl)).2 p h1
          exact ⟨w, by rw [hemold p.2 (by omega)]; exact hw⟩
      · simp only [List.mem_singleton] at h1
        subst h1
        exact ⟨val, Or.inl hemi⟩
    · rw [lookupA_insertA_ne _ _ _ _ hv] at hvl
      obtain ⟨w, hw⟩ := adjN v l hvl p hp
      have hpb : p.2 ≤ g.id := (bndN _ (mem_of_lookupA _ _ _ hvl)).2 p hp
      exact ⟨w, by rw [hemold p.2 (by omega)]; exact hw⟩
  · rw [hrm]
    intro v l hvl p hp
    by_cases hv : v = t
    · subst hv
      rw [lookupA_insertA_self] at hvl
      injection hvl with hvl
      subst hvl
      rcases List.mem_append.1 hp with h1 | h1
      · cases hl : lookupA g.reverse_neighbors_map v with
        | none => rw [hl] at h1; simp at h1
        | some l0 =>
          rw [hl] at h1
          simp only [Option.getD_some] at h1
          obtain ⟨w, hw⟩ := adjR v l0 hl p h1
          have hpb : p.2 ≤ g.id := (bndR _ (mem_of_lookupA _ _ _ hl)).2 p h1
          exact ⟨w, by rw [hemold p.2 (by omega)]; exact hw⟩
      · simp only [List.mem_singleton] at h1
        subst h1
        exact ⟨val, Or.inl hemi⟩
    · rw [lookupA_insertA_ne _ _ _ _ hv] at hvl
      obtain ⟨w, hw⟩ := adjR v l hvl p hp
      have hpb : p.2 ≤ g.id := (bndR _ (mem_of_lookupA _ _ _ hvl)).2 p hp
      exact ⟨w, by rw [hemold p.2 (by omega)]; exact hw⟩
  · intro e ev a b he
    by_cases hei : e = g.id + 1
    · subst hei
      rw [hemi] at he
      injection he with he
      have ha : f = a := congrArg (fun x => x.2.1) he
      have hb : t = b := congrArg (fun x => x.2.2) he
      rw [← ha, ← hb]
      constructor
      · intro hne
        have hne2 : t ≠ f := fun hc => hne hc.symm
        rw [hcntn, hcntr, hcntn, hcntr]
        simp [hne, hne2, hfreshn, hfreshr]
      · intro heq
        rw [hcntn, hcntr]
        simp [heq, hfreshn, hfreshr]
    · rw [hemold e hei] at he
      obtain ⟨c1, c2⟩ := cok e ev a b he
      have hbe : e ≤ g.id := bndE _ (mem_of_lookupA _ _ _ he)
      have hcn : ∀ v, cnt S1.neighbors_map v e = cnt g.neighbors_map v e := by
        intro v
        rw [hcntn]
        have : ¬ (g.id + 1 = e) := by omega
        by_cases hv : v = f
        · rw [if_pos hv, if_neg this]
          omega
        · rw [if_neg hv]
          omega
      have hcr : ∀ v, cnt S1.reverse_neighbors_map v e =
          cnt g.reverse_neighbors_map v e := by
        intro v
        rw [hcntr]
        have : ¬ (g.id + 1 = e) := by omega
        by_cases hv : v = t
        · rw [if_pos hv, if_neg this]
          omega
        · rw [if_neg hv]
          omega
      constructor
      · intro hne
        rw [hcn, hcr, hcn, hcr]
        exact c1 hne
      · intro heq
        rw [hcn, hcr]
        exact c2 heq
  · intro e ev a b he
    rw [hvm]
    by_cases hei : e = g.id + 1
    · subst hei
      rw [hemi] at he
      injection he with he
      have ha : f = a := congrArg (fun x => x.2.1) he
      have hb : t = b := congrArg (fun x => x.2.2) he
      rw [← ha, ← hb]
      exact ⟨hf, ht⟩
    · rw [hemold e hei] at he
      exact live e ev a b he
  · intro hne
    have hne2 : t ≠ f := fun hc => hne hc.symm
    rw [hcntn, hcntr]
    simp [hne, hne2, hfreshn, hfreshr]
  · intro heq
    rw [hcntn, hcntr]
    simp [heq, hfreshn, hfreshr]

/-- Invariant preservation for the second half of `insert_bi_edge`: the
existing edge record `i : (val, f, t)` is mirrored into `t`'s forward and
`f`'s reverse adjacency. -/
theorem storeInv_mirror_extension (S S2 : FiniteGraph V E) (hS : StoreInv S)
    (i f t : Nat) (val : E)
    (hrec : lookupA S.edges_map i = some (val, f, t))
    (hplain : (f ≠ t → cnt S.neighbors_map t i = 0 ∧
        cnt S.reverse_neighbors_map f i = 0) ∧
      (f = t → cnt S.neighbors_map f i = 1 ∧
        cnt S.reverse_neighbors_map f i = 1))
    (hid : S2.id = S.id) (hvm : S2.vertices_map = S.vertices_map)
    (hem : S2.edges_map = S.edges_map)
    (hnm : S2.neighbors_map =
      insertA S.neighbors_map t
        (((lookupA S.neighbors_map t).getD []) ++ [(f, i)]))
    (hrm : S2.reverse_neighbors_map =
      insertA S.reverse_neighbors_map f
        (((lookupA S.reverse_neighbors_map f).getD []) ++ [(t, i)])) :
    StoreInv S2 := by
  obtain ⟨ndV, ndE, ndN, ndR, bndV, bndE, bndN, bndR, adjN, adjR, cok, live⟩ := hS
  have hib : i ≤ S.id := bndE _ (mem_of_lookupA _ _ _ hrec)
  obtain ⟨hfl, htl⟩ := live i val f t hrec
  have hfb : f ≤ S.id := containsA_bound _ _ _ bndV hfl
  have htb : t ≤ S.id := containsA_bound _ _ _ bndV htl
  have hcntn : ∀ v e, cnt S2.neighbors_map v e =
      cnt S.neighbors_map v e +
        (if v = t then (if i = e then 1 else 0) else 0) := by
    intro v e
    rw [hnm]
    by_cases hv : v = t
    · subst hv
      rw [if_pos rfl]
      exact cnt_insertA_append_self _ _ _ _ _
    · rw [if_neg hv, cnt_insertA_append_ne _ _ _ _ _ _ hv]
      omega
  have hcntr : ∀ v e, cnt S2.reverse_neighbors_map v e =
      cnt S.reverse_neighbors_map v e +
        (if v = f then (if i = e then 1 else 0) else 0) := by
    intro v e
    rw [hrm]
    by_cases hv : v = f
    · subst hv
      rw [if_pos rfl]
      exact cnt_insertA_append_self _ _ _ _ _
    · rw [if_neg hv, cnt_insertA_append_ne _ _ _ _ _ _ hv]
      omega
  refine ⟨?_, ?_, ?_, ?_, ?_, ?_, ?_, ?_, ?_, ?_, ?_, ?_⟩
  · rw [hvm]; exact ndV
  · rw [hem]; exact ndE
  · rw [hnm]; exact keysND_insertA _ _ _ ndN
  · rw [hrm]; exact keysND_insertA _ _ _ ndR
  · rw [hvm, hid]; exact bndV
  · rw [hem, hid]; exact bndE
  · rw [hnm, hid]
    intro q hq
    rcases mem_insertA_strong _ _ _ _ hq with h | h
    · subst h
      refine ⟨htb, ?_⟩
      intro p hp
      rcases List.mem_append.1 hp with h1 | h1
      · cases hl : lookupA S.neighbors_map t with
        | none => rw [hl] at h1; simp at h1
        | some l0 =>
          rw [hl] at h1
          simp only [Option.getD_some] at h1
          exact (bndN _ (mem_of_lookupA _ _ _ hl)).2 p h1
      · simp only [List.mem_singleton] at h1
        rw [h1]
        exact hib
    · exact bndN q h
  · rw [hrm, hid]
    intro q hq
    rcases mem_insertA_strong _ _ _ _ hq with h | h
    · subst h
      refine ⟨hfb, ?_⟩
      intro p hp
      rcases List.mem_append.1 hp with h1 | h1
      · cases hl : lookupA S.reverse_neighbors_map f with
        | none => rw [hl] at h1; simp at h1
        | some l0 =>
          rw [hl] at h1
          simp only [Option.getD_some] at h1
          exact (bndR _ (mem_of_lookupA _ _ _ hl)).2 p h1
      · simp only [List.mem_singleton] at h1
        rw [h1]
        exact hib
    · exact bndR q h
  · rw [hnm, hem]
    intro v l hvl p hp
    by_cases hv : v = t
    · subst hv
      rw [lookupA_insertA_self] at hvl
      injection hvl with hvl
      subst hvl
      rcases List.mem_append.1 hp with h1 | h1
      · cases hl : lookupA S.neighbors_map v with
        | none => rw [hl] at h1; simp at h1
        | some l0 =>
          rw [hl] at h1
          simp only [Option.getD_some] at h1
          exact adjN v l0 hl p h1
      · simp only [List.mem_singleton] at h1
        subst h1
        exact ⟨val, Or.inr hrec⟩
    · rw [lookupA_insertA_ne _ _ _ _ hv] at hvl
      exact adjN v l hvl p hp
  · rw [hrm, hem]
    intro v l hvl p hp
    by_cases hv : v = f
    · subst hv
      rw [lookupA_insertA_self] at hvl
      injection hvl with hvl
      subst hvl
      rcases List.mem_append.1 hp with h1 | h1
      · cases hl : lookupA S.reverse_neighbors_map v with
        | none => rw [hl] at h1; simp at h1
        | some l0 =>
          rw [hl] at h1
          simp only [Option.getD_some] at h1
          exact adjR v l0 hl p h1
      · simp only [List.mem_singleton] at h1
        subst h1
        exact ⟨val, Or.inr hrec⟩
    · rw [lookupA_insertA_ne _ _ _ _ hv] at hvl
      exact adjR v l hvl p hp
  · rw [hem]
    intro e ev a b he
    by_cases hei : e = i
    · subst hei
      rw [hrec] at he
      injection he with he
      have ha : f = a := congrArg (fun x => x.2.1) he
      have hb : t = b := congrArg (fun x => x.2.2) he
      rw [← ha, ← hb]
      obtain ⟨c1, c2⟩ := cok e val f t hrec
      constructor
      · intro hne
        have hne2 : t ≠ f := fun hc => hne hc.symm
        obtain ⟨p1, p2⟩ := hplain.1 hne
        obtain ⟨q1, q2, q3, q4⟩ := c1 hne
        rw [hcntn, hcntr, hcntn, hcntr]
        simp only [if_true, eq_self_iff_true, if_neg hne, if_neg hne2]
        omega
      · intro heq
        obtain ⟨p1, p2⟩ := hplain.2 heq
        rw [hcntn, hcntr]
        rw [heq] at p1 p2 ⊢
        simp only [if_true, eq_self_iff_true]
        omega
    · obtain ⟨c1, c2⟩ := cok e ev a b he
      have hcn : ∀ v, cnt S2.neighbors_map v e = cnt S.neighbors_map v e := by
        intro v
        rw [hcntn]
        have hne : ¬ (i = e) := fun hc => hei hc.symm
        by_cases hv : v = t
        · rw [if_pos hv, if_neg hne]
          omega
        · rw [if_neg hv]
          omega
      have hcr : ∀ v, cnt S2.reverse_neighbors_map v e =
          cnt S.reverse_neighbors_map v e := by
        intro v
        rw [hcntr]
        have hne : ¬ (i = e) := fun hc => hei hc.symm
        by_cases hv : v = f
        · rw [if_pos hv, if_neg hne]
          omega
        · rw [if_neg hv]
          omega
      constructor
      · intro hne
        rw [hcn, hcr, hcn, hcr]
        exact c1 hne
      · intro heq
        rw [hcn, hcr]
        exact c2 heq
  · rw [hem, hvm]
    exact live

theorem storeInv_insert_edge (g : FiniteGraph V E) (hg : StoreInv g)
    (f t : Nat) (val : E) : StoreInv (g.insert_edge f t val).2 := by
  by_cases hv : containsA g.vertices_map f ∧ containsA g.vertices_map t
  · obtain ⟨hf, ht⟩ := hv
    obtain ⟨h1, h2, h3, h4, h5, h6⟩ := insert_edge_fields g f t val hf ht
    exact (storeInv_edge_extension g _ hg f t val hf ht h2 h3 h4 h5 h6).1
  · have heq : g.insert_edge f t val = (none, g) := by
      unfold FiniteGraph.insert_edge
      rw [if_pos (by tauto)]
    rw [heq]
    exact hg

theorem storeInv_insert_bi_edge (g : FiniteGraph V E) (hg : StoreInv g)
    (f t : Nat) (val : E) : StoreInv (g.insert_bi_edge f t val).2 := by
  by_cases hv : containsA g.vertices_map f ∧ containsA g.vertices_map t
  · obtain ⟨hf, ht⟩ := hv
    obtain ⟨h1, h2, h3, h4, h5, h6⟩ := insert_edge_fields g f t val hf ht
    obtain ⟨hS1, hplain1, hplain2⟩ :=
      storeInv_edge_extension g _ hg f t val hf ht h2 h3 h4 h5 h6
    have hpair : g.insert_edge f t val =
        (some (g.id + 1), (g.insert_edge f t val).2) := Prod.ext h1 rfl
    have hrec : lookupA (g.insert_edge f t val).2.edges_map (g.id + 1) =
        some (val, f, t) := by
      rw [h4]
      exact lookupA_insertA_self _ _ _
    obtain ⟨mnm, mrm, mem, mvm, mid, -⟩ :=
      insert_edge_id_maps (g.insert_edge f t val).2 t f (g.id + 1)
    have hbe : (g.insert_bi_edge f t val).2 =
        ((g.insert_edge f t val).2.insert_edge_id t f (g.id + 1)).2 := by
      unfold FiniteGraph.insert_bi_edge
      rw [hpair]
    rw [hbe]
    exact storeInv_mirror_extension (g.insert_edge f t val).2 _ hS1
      (g.id + 1) f t val hrec ⟨hplain1, hplain2⟩ mid mvm mem mnm mrm
  · have heq : g.insert_edge f t val = (none, g) := by
      unfold FiniteGraph.insert_edge
      rw [if_pos (by tauto)]
    have hbe : (g.insert_bi_edge f t val).2 = g := by
      unfold FiniteGraph.insert_bi_edge
      rw [heq]
    rw [hbe]
    exact hg

theorem mem_of_mem_removeA [DecidableEq K] (m : List (K × A)) (k : K)
    (q : K × A) (h : q ∈ removeA m k) : q ∈ m := by
  induction m with
  | nil => simp [removeA] at h
  | cons hd rest ih =>
    obtain ⟨k0, a0⟩ := hd
    by_cases hk : k0 = k
    · subst hk
      simp only [removeA, if_pos rfl] at h
      exact List.mem_cons_of_mem _ h
    · simp only [removeA, if_neg hk, List.mem_cons] at h ⊢
      rcases h with h | h
      · left; exact h
      · right; exact ih h

theorem cnt_removeA_ne (m : List (Nat × List (Nat × Nat))) (v v' e : Nat)
    (h : v' ≠ v) : cnt (removeA m v) v' e = cnt m v' e := by
  unfold cnt
  rw [lookupA_removeA_ne _ _ _ h]

theorem cnt_removeA_le (m : List (Nat × List (Nat × Nat))) (v v' e : Nat)
    (hnd : keysND m) : cnt (removeA m v) v' e ≤ cnt m v' e := by
  by_cases h : v' = v
  · subst h
    unfold cnt
    rw [lookupA_removeA_self _ _ hnd]
    simp
  · rw [cnt_removeA_ne _ _ _ _ h]

theorem containsA_removeA_ne [DecidableEq K] (m : List (K × A)) (k k' : K)
    (h : k' ≠ k) : containsA (removeA m k) k' = containsA m k' := by
  unfold containsA
  rw [lookupA_removeA_ne _ _ _ h]

/-- Entries with a given edge id occur only under the edge's two endpoint
keys (a consequence of the adjacency soundness clause). -/
theorem cnt_confine_nm (g : FiniteGraph V E)
    (adjN : ∀ v l, lookupA g.neighbors_map v = some l → ∀ p ∈ l, ∃ val : E,
      lookupA g.edges_map p.2 = some (val, v, p.1) ∨
      lookupA g.edges_map p.2 = some (val, p.1, v))
    (e : Nat) (ev : E) (a b : Nat)
    (hrec : lookupA g.edges_map e = some (ev, a, b))
    (v : Nat) (hva : v ≠ a) (hvb : v ≠ b) : cnt g.neighbors_map v e = 0 := by
  by_contra hc
  have hpos : 0 < cnt g.neighbors_map v e := Nat.pos_of_ne_zero hc
  obtain ⟨l, hl, hmem⟩ := cnt_pos_mem _ _ _ hpos
  rcases List.mem_map.1 hmem with ⟨p, hp, hpe⟩
  obtain ⟨w, hw⟩ := adjN v l hl p hp
  rw [hpe] at hw
  rcases hw with hw | hw
  · rw [hrec] at hw
    injection hw with hw
    exact hva (congrArg (fun x => x.2.1) hw).symm
  · rw [hrec] at hw
    injection hw with hw
    exact hvb (congrArg (fun x => x.2.2) hw).symm

theorem cnt_confine_rm (g : FiniteGraph V E)
    (adjR : ∀ v l, lookupA g.reverse_neighbors_map v = some l → ∀ p ∈ l, ∃ val : E,
      lookupA g.edges_map p.2 = some (val, p.1, v) ∨
      lookupA g.edges_map p.2 = some (val, v, p.1))
    (e : Nat) (ev : E) (a b : Nat)
    (hrec : lookupA g.edges_map e = some (ev, a, b))
    (v : Nat) (hva : v ≠ a) (hvb : v ≠ b) :
    cnt g.reverse_neighbors_map v e = 0 := by
  by_contra hc
  have hpos : 0 < cnt g.reverse_neighbors_map v e := Nat.pos_of_ne_zero hc
  obtain ⟨l, hl, hmem⟩ := cnt_pos_mem _ _ _ hpos
  rcases List.mem_map.1 hmem with ⟨p, hp, hpe⟩
  obtain ⟨w, hw⟩ := adjR v l hl p hp
  rw [hpe] at hw
  rcases hw with hw | hw
  · rw [hrec] at hw
    injection hw with hw
    exact hvb (congrArg (fun x => x.2.2) hw).symm
  · rw [hrec] at hw
    injection hw with hw
    exact hva (congrArg (fun x => x.2.1) hw).symm

/-- The weakened invariant that holds while `remove_vertex` cascades
`remove_edge` over the incident edges: edges listed in `pend` may still
reference the removed vertex and may have partially scrubbed adjacency. -/
structure CascInv (g : FiniteGraph V E) (dead : Nat) (pend : List Nat) : Prop where
  ndV : keysND g.vertices_map
  ndE : keysND g.edges_map
  ndN : keysND g.neighbors_map
  ndR : keysND g.reverse_neighbors_map
  bndV : ∀ p ∈ g.vertices_map, p.1 ≤ g.id
  bndE : ∀ p ∈ g.edges_map, p.1 ≤ g.id
  bndN : ∀ q ∈ g.neighbors_map, q.1 ≤ g.id ∧ ∀ p ∈ q.2, p.2 ≤ g.id
  bndR : ∀ q ∈ g.reverse_neighbors_map, q.1 ≤ g.id ∧ ∀ p ∈ q.2, p.2 ≤ g.id
  adjN : ∀ v l, lookupA g.neighbors_map v = some l → ∀ p ∈ l, ∃ val : E,
    lookupA g.edges_map p.2 = some (val, v, p.1) ∨
    lookupA g.edges_map p.2 = some (val, p.1, v)
  adjR : ∀ v l, lookupA g.reverse_neighbors_map v = some l → ∀ p ∈ l, ∃ val : E,
    lookupA g.edges_map p.2 = some (val, p.1, v) ∨
    lookupA g.edges_map p.2 = some (val, v, p.1)
  cokOr : ∀ e ev a b, lookupA g.edges_map e = some (ev, a, b) →
    countsOK g e a b ∨ (e ∈ pend ∧ cntBounded g e a b)
  liveOr : ∀ e ev a b, lookupA g.edges_map e = some (ev, a, b) →
    (a = dead ∨ b = dead → e ∈ pend) ∧
    (a ≠ dead → containsA g.vertices_map a) ∧
    (b ≠ dead → containsA g.vertices_map b)

theorem storeInv_casc (g : FiniteGraph V E) (hg : StoreInv g)
    (pend : List Nat) : CascInv g (g.id + 1) pend := by
  obtain ⟨ndV, ndE, ndN, ndR, bndV, bndE, bndN, bndR, adjN, adjR, cok, live⟩ := hg
  refine ⟨ndV, ndE, ndN, ndR, bndV, bndE, bndN, bndR, adjN, adjR, ?_, ?_⟩
  · intro e ev a b he
    exact Or.inl (cok e ev a b he)
  · intro e ev a b he
    obtain ⟨h1, h2⟩ := live e ev a b he
    have ha : a ≤ g.id := containsA_bound _ _ _ bndV h1
    have hb : b ≤ g.id := containsA_bound _ _ _ bndV h2
    refine ⟨?_, fun _ => h1, fun _ => h2⟩
    intro hc
    rcases hc with hc | hc <;> omega

theorem casc_storeInv (g : FiniteGraph V E) (dead : Nat)
    (hg : CascInv g dead []) : StoreInv g := by
  obtain ⟨ndV, ndE, ndN, ndR, bndV, bndE, bndN, bndR, adjN, adjR, cokOr, liveOr⟩ := hg
  refine ⟨ndV, ndE, ndN, ndR, bndV, bndE, bndN, bndR, adjN, adjR, ?_, ?_⟩
  · intro e ev a b he
    rcases cokOr e ev a b he with h | h
    · exact h
    · simp at h
  · intro e ev a b he
    obtain ⟨h1, h2, h3⟩ := liveOr e ev a b he
    have had : a ≠ dead := by
      intro hc
      have := h1 (Or.inl hc)
      simp at this
    have hbd : b ≠ dead := by
      intro hc
      have := h1 (Or.inr hc)
      simp at this
    exact ⟨h2 had, h3 hbd⟩

theorem bnd_scrubMap (m : List (Nat × List (Nat × Nat))) (v e n : Nat)
    (hb : ∀ q ∈ m, q.1 ≤ n ∧ ∀ p ∈ q.2, p.2 ≤ n) :
    ∀ q ∈ scrubMap m v e, q.1 ≤ n ∧ ∀ p ∈ q.2, p.2 ≤ n := by
  unfold scrubMap
  cases hl : lookupA m v with
  | none => exact hb
  | some l =>
    intro q hq
    rcases mem_insertA_strong _ _ _ _ hq with h | h
    · subst h
      obtain ⟨h1, h2⟩ := hb _ (mem_of_lookupA _ _ _ hl)
      exact ⟨h1, fun p hp => h2 p (mem_removeFirstEdge _ _ _ hp)⟩
    · exact hb q h

theorem remove_edge_fields (g : FiniteGraph V E) (e : Nat) (val : E)
    (a b : Nat) (h : lookupA g.edges_map e = some (val, a, b)) :
    g.remove_edge e =
      (some val,
       { g with
           edges_map := removeA g.edges_map e,
           neighbors_map := scrubMap (scrubMap g.neighbors_map a e) b e,
           reverse_neighbors_map :=
             scrubMap (scrubMap g.reverse_neighbors_map a e) b e }) := by
  unfold FiniteGraph.remove_edge
  rw [h]
  rfl

theorem casc_remove_edge (g : FiniteGraph V E) (dead : Nat) (e : Nat)
    (rest : List Nat) (hg : CascInv g dead (e :: rest)) :
    CascInv (g.remove_edge e).2 dead rest := by
  obtain ⟨ndV, ndE, ndN, ndR, bndV, bndE, bndN, bndR, adjN, adjR, cokOr, liveOr⟩ := hg
  rcases hrec : lookupA g.edges_map e with - | ⟨val, a, b⟩
  · have hfix : g.remove_edge e = (none, g) := by
      unfold FiniteGraph.remove_edge
      rw [hrec]
    rw [hfix]
    refine ⟨ndV, ndE, ndN, ndR, bndV, bndE, bndN, bndR, adjN, adjR, ?_, ?_⟩
    · intro e1 ev1 a1 b1 he1
      rcases cokOr e1 ev1 a1 b1 he1 with h | ⟨hmem, hb⟩
      · exact Or.inl h
      · rcases List.mem_cons.1 hmem with h1 | h1
        · subst h1
          rw [hrec] at he1
          cases he1
        · exact Or.inr ⟨h1, hb⟩
    · intro e1 ev1 a1 b1 he1
      obtain ⟨h1, h2, h3⟩ := liveOr e1 ev1 a1 b1 he1
      refine ⟨?_, h2, h3⟩
      intro hc
      rcases List.mem_cons.1 (h1 hc) with hh | hh
      · subst hh
        rw [hrec] at he1
        cases he1
      · exact hh
  · rw [remove_edge_fields g e val a b hrec]
    have hcnt_e_nm : ∀ v,
        cnt (scrubMap (scrubMap g.neighbors_map a e) b e) v e = 0 := by
      intro v
      by_cases hva : v = a
      · by_cases hvb : v = b
        · have hab : a = b := hva.symm.trans hvb
          rw [hva, ← hab, cnt_scrubMap_self, cnt_scrubMap_self]
          rcases cokOr e val a b hrec with ⟨c1, c2⟩ | ⟨-, c1, c2⟩
          · obtain ⟨d1, d2, d3⟩ := c2 hab
            omega
          · obtain ⟨d1, d2⟩ := c2 hab
            omega
        · have hab : a ≠ b := fun hc => hvb (hva.trans hc)
          rw [hva, cnt_scrubMap_ne_vertex _ _ _ _ _ hab, cnt_scrubMap_self]
          rcases cokOr e val a b hrec with ⟨c1, c2⟩ | ⟨-, c1, c2⟩
          · obtain ⟨d1, d2, d3, d4⟩ := c1 hab
            omega
          · obtain ⟨d1, d2, d3, d4⟩ := c1 hab
            omega
      · by_cases hvb : v = b
        · have hab : a ≠ b := fun hc => hva (hvb.trans hc.symm)
          have hba : b ≠ a := fun hc => hab hc.symm
          rw [hvb, cnt_scrubMap_self, cnt_scrubMap_ne_vertex _ _ _ _ _ hba]
          rcases cokOr e val a b hrec with ⟨c1, c2⟩ | ⟨-, c1, c2⟩
          · obtain ⟨d1, d2, d3, d4⟩ := c1 hab
            omega
          · obtain ⟨d1, d2, d3, d4⟩ := c1 hab
            omega
        · rw [cnt_scrubMap_ne_vertex _ _ _ _ _ hvb,
            cnt_scrubMap_ne_vertex _ _ _ _ _ hva]
          exact cnt_confine_nm g adjN e val a b hrec v hva hvb
    have hcnt_e_rm : ∀ v,
        cnt (scrubMap (scrubMap g.reverse_neighbors_map a e) b e) v e = 0 := by
      intro v
      by_cases hva : v = a
      · by_cases hvb : v = b
        · have hab : a = b := hva.symm.trans hvb
          rw [hva, ← hab, cnt_scrubMap_self, cnt_scrubMap_self]
          rcases cokOr e val a b hrec with ⟨c1, c2⟩ | ⟨-, c1, c2⟩
          · obtain ⟨d1, d2, d3⟩ := c2 hab
            omega
          · obtain ⟨d1, d2⟩ := c2 hab
            omega
        · have hab : a ≠ b := fun hc => hvb (hva.trans hc)
          rw [hva, cnt_scrubMap_ne_vertex _ _ _ _ _ hab, cnt_scrubMap_self]
          rcases cokOr e val a b hrec with ⟨c1, c2⟩ | ⟨-, c1, c2⟩
          · obtain ⟨d1, d2, d3, d4⟩ := c1 hab
            omega
          · obtain ⟨d1, d2, d3, d4⟩ := c1 hab
            omega
      · by_cases hvb : v = b
        · have hab : a ≠ b := fun hc => hva (hvb.trans hc.symm)
          have hba : b ≠ a := fun hc => hab hc.symm
          rw [hvb, cnt_scrubMap_self, cnt_scrubMap_ne_vertex _ _ _ _ _ hba]
          rcases cokOr e val a b hrec with ⟨c1, c2⟩ | ⟨-, c1, c2⟩
          · obtain ⟨d1, d2, d3, d4⟩ := c1 hab
            omega
          · obtain ⟨d1, d2, d3, d4⟩ := c1 hab
            omega
        · rw [cnt_scrubMap_ne_vertex _ _ _ _ _ hvb,
            cnt_scrubMap_ne_vertex _ _ _ _ _ hva]
          exact cnt_confine_rm g adjR e val a b hrec v hva hvb
    have hcnt_other_nm : ∀ v e1, e1 ≠ e →
        cnt (scrubMap (scrubMap g.neighbors_map a e) b e) v e1 =
          cnt g.neighbors_map v e1 := by
      intro v e1 h1
      rw [cnt_scrubMap_ne_edge _ _ _ _ _ h1, cnt_scrubMap_ne_edge _ _ _ _ _ h1]
    have hcnt_other_rm : ∀ v e1, e1 ≠ e →
        cnt (scrubMap (scrubMap g.reverse_neighbors_map a e) b e) v e1 =
          cnt g.reverse_neighbors_map v e1 := by
      intro v e1 h1
      rw [cnt_scrubMap_ne_edge _ _ _ _ _ h1, cnt_scrubMap_ne_edge _ _ _ _ _ h1]
    have hemold : ∀ e1, e1 ≠ e →
        lookupA (removeA g.edges_map e) e1 = lookupA g.edges_map e1 :=
      fun e1 h1 => lookupA_removeA_ne _ _ _ h1
    have hsubN : ∀ v l, lookupA (scrubMap (scrubMap g.neighbors_map a e) b e) v
        = some l → ∃ l0, lookupA g.neighbors_map v = some l0 ∧ ∀ p ∈ l, p ∈ l0 := by
      intro v l hl
      obtain ⟨l1, hl1, hs1⟩ := scrubMap_entry_sub _ _ _ _ _ hl
      obtain ⟨l0, hl0, hs0⟩ := scrubMap_entry_sub _ _ _ _ _ hl1
      exact ⟨l0, hl0, fun p hp => hs0 p (hs1 p hp)⟩
    have hsubR : ∀ v l,
        lookupA (scrubMap (scrubMap g.reverse_neighbors_map a e) b e) v
        = some l → ∃ l0, lookupA g.reverse_neighbors_map v = some l0 ∧
          ∀ p ∈ l, p ∈ l0 := by
      intro v l hl
      obtain ⟨l1, hl1, hs1⟩ := scrubMap_entry_sub _ _ _ _ _ hl
      obtain ⟨l0, hl0, hs0⟩ := scrubMap_entry_sub _ _ _ _ _ hl1
      exact ⟨l0, hl0, fun p hp => hs0 p (hs1 p hp)⟩
    refine ⟨ndV, keysND_removeA _ _ ndE,
      keysND_scrubMap _ _ _ (keysND_scrubMap _ _ _ ndN),
      keysND_scrubMap _ _ _ (keysND_scrubMap _ _ _ ndR), bndV, ?_, ?_, ?_,
      ?_, ?_, ?_, ?_⟩
    · intro p hp
      exact bndE p (mem_of_mem_removeA _ _ _ hp)
    · exact bnd_scrubMap _ _ _ _ (bnd_scrubMap _ _ _ _ bndN)
    · exact bnd_scrubMap _ _ _ _ (bnd_scrubMap _ _ _ _ bndR)
    · intro v l hl p hp
      obtain ⟨l0, hl0, hsub⟩ := hsubN v l hl
      have hpl0 := hsub p hp
      have hpe : p.2 ≠ e := by
        intro hc
        have := cnt_pos_of_mem _ v e l p hl hp hc
        rw [hcnt_e_nm v] at this
        omega
      obtain ⟨w, hw⟩ := adjN v l0 hl0 p hpl0
      exact ⟨w, by rw [hemold p.2 hpe]; exact hw⟩
    · intro v l hl p hp
      obtain ⟨l0, hl0, hsub⟩ := hsubR v l hl
      have hpl0 := hsub p hp
      have hpe : p.2 ≠ e := by
        intro hc
        have := cnt_pos_of_mem _ v e l p hl hp hc
        rw [hcnt_e_rm v] at this
        omega
      obtain ⟨w, hw⟩ := adjR v l0 hl0 p hpl0
      exact ⟨w, by rw [hemold p.2 hpe]; exact hw⟩
    · intro e1 ev1 a1 b1 he1
      have hne : e1 ≠ e := by
        intro hc
        rw [hc, lookupA_removeA_self _ _ ndE] at he1
        cases he1
      rw [hemold e1 hne] at he1
      rcases cokOr e1 ev1 a1 b1 he1 with ⟨c1, c2⟩ | ⟨hmem, hb1, hb2⟩
      · left
        constructor
        · intro hne1
          obtain ⟨d1, d2, d3, d4⟩ := c1 hne1
          rw [hcnt_other_nm _ _ hne, hcnt_other_rm _ _ hne,
            hcnt_other_nm _ _ hne, hcnt_other_rm _ _ hne]
          exact ⟨d1, d2, d3, d4⟩
        · intro heq1
          obtain ⟨d1, d2, d3⟩ := c2 heq1
          rw [hcnt_other_nm _ _ hne, hcnt_other_rm _ _ hne]
          exact ⟨d1, d2, d3⟩
      · right
        refine ⟨?_, ?_, ?_⟩
        · rcases List.mem_cons.1 hmem with hh | hh
          · exact absurd hh hne
          · exact hh
        · intro hne1
          obtain ⟨d1, d2, d3, d4⟩ := hb1 hne1
          rw [hcnt_other_nm _ _ hne, hcnt_other_rm _ _ hne,
            hcnt_other_nm _ _ hne, hcnt_other_rm _ _ hne]
          exact ⟨d1, d2, d3, d4⟩
        · intro heq1
          obtain ⟨d1, d2⟩ := hb2 heq1
          rw [hcnt_other_nm _ _ hne, hcnt_other_rm _ _ hne]
          exact ⟨d1, d2⟩
    · intro e1 ev1 a1 b1 he1
      have hne : e1 ≠ e := by
        intro hc
        rw [hc, lookupA_removeA_self _ _ ndE] at he1
        cases he1
      rw [hemold e1 hne] at he1
      obtain ⟨h1, h2, h3⟩ := liveOr e1 ev1 a1 b1 he1
      refine ⟨?_, h2, h3⟩
      intro hc
      rcases List.mem_cons.1 (h1 hc) with hh | hh
      · exact absurd hh hne
      · exact hh

theorem remove_vertex_fields (g : FiniteGraph V E) (v : Nat) :
    (g.remove_vertex v).2 =
      ((((lookupA g.neighbors_map v).getD []).map Prod.snd ++
        ((lookupA g.reverse_neighbors_map v).getD []).map Prod.snd).foldl
        (fun gg e => (gg.remove_edge e).2)
        { g with
            vertices_map := removeA g.vertices_map v,
            neighbors_map := removeA g.neighbors_map v,
            reverse_neighbors_map := removeA g.reverse_neighbors_map v }) := rfl

theorem remove_vertex_casc (g : FiniteGraph V E) (hg : StoreInv g) (v : Nat) :
    CascInv
      ({ g with
           vertices_map := removeA g.vertices_map v,
           neighbors_map := removeA g.neighbors_map v,
           reverse_neighbors_map := removeA g.reverse_neighbors_map v }) v
      ((((lookupA g.neighbors_map v).getD []).map Prod.snd ++
        ((lookupA g.reverse_neighbors_map v).getD []).map Prod.snd)) := by
  obtain ⟨ndV, ndE, ndN, ndR, bndV, bndE, bndN, bndR, adjN, adjR, cok, live⟩ := hg
  have hmemdel : ∀ e ev a b, lookupA g.edges_map e = some (ev, a, b) →
      a = v ∨ b = v →
      e ∈ (((lookupA g.neighbors_map v).getD []).map Prod.snd ++
        ((lookupA g.reverse_neighbors_map v).getD []).map Prod.snd) := by
    intro e ev a b he hab
    obtain ⟨c1, c2⟩ := cok e ev a b he
    by_cases heq : a = b
    · obtain ⟨d1, d2, d3⟩ := c2 heq
      have hav : a = v := by
        rcases hab with h | h
        · exact h
        · exact heq.trans h
      obtain ⟨l, hl, hmem⟩ := cnt_pos_mem g.neighbors_map a e (by omega)
      rw [hav] at hl
      rw [List.mem_append]
      left
      rw [hl]
      exact hmem
    · obtain ⟨d1, d2, d3, d4⟩ := c1 heq
      rcases hab with h | h
      · obtain ⟨l, hl, hmem⟩ := cnt_pos_mem g.neighbors_map a e (by omega)
        rw [h] at hl
        rw [List.mem_append]
        left
        rw [hl]
        exact hmem
      · obtain ⟨l, hl, hmem⟩ := cnt_pos_mem g.reverse_neighbors_map b e (by omega)
        rw [h] at hl
        rw [List.mem_append]
        right
        rw [hl]
        exact hmem
  refine ⟨keysND_removeA _ _ ndV, ndE, keysND_removeA _ _ ndN,
    keysND_removeA _ _ ndR, ?_, bndE, ?_, ?_, ?_, ?_, ?_, ?_⟩
  · intro p hp
    exact bndV p (mem_of_mem_removeA _ _ _ hp)
  · intro q hq
    exact bndN q (mem_of_mem_removeA _ _ _ hq)
  · intro q hq
    exact bndR q (mem_of_mem_removeA _ _ _ hq)
  · intro v1 l hl p hp
    by_cases hv1 : v1 = v
    · rw [hv1, lookupA_removeA_self _ _ ndN] at hl
      cases hl
    · rw [lookupA_removeA_ne _ _ _ hv1] at hl
      exact adjN v1 l hl p hp
  · intro v1 l hl p hp
    by_cases hv1 : v1 = v
    · rw [hv1, lookupA_removeA_self _ _ ndR] at hl
      cases hl
    · rw [lookupA_removeA_ne _ _ _ hv1] at hl
      exact adjR v1 l hl p hp
  · intro e ev a b he
    by_cases hab : a = v ∨ b = v
    · right
      refine ⟨hmemdel e ev a b he hab, ?_, ?_⟩
      · intro hne
        obtain ⟨d1, d2, d3, d4⟩ := (cok e ev a b he).1 hne
        refine ⟨?_, ?_, ?_, ?_⟩ <;>
          exact le_trans (cnt_removeA_le _ _ _ _ (by assumption)) (by omega)
      · intro heq
        obtain ⟨d1, d2, d3⟩ := (cok e ev a b he).2 heq
        constructor <;>
          exact le_trans (cnt_removeA_le _ _ _ _ (by assumption)) (by omega)
    · push_neg at hab
      obtain ⟨hav, hbv⟩ := hab
      left
      obtain ⟨c1, c2⟩ := cok e ev a b he
      constructor
      · intro hne
        obtain ⟨d1, d2, d3, d4⟩ := c1 hne
        rw [cnt_removeA_ne _ _ _ _ hav, cnt_removeA_ne _ _ _ _ hbv,
          cnt_removeA_ne _ _ _ _ hbv, cnt_removeA_ne _ _ _ _ hav]
        exact ⟨d1, d2, d3, d4⟩
      · intro heq
        obtain ⟨d1, d2, d3⟩ := c2 heq
        rw [cnt_removeA_ne _ _ _ _ hav, cnt_removeA_ne _ _ _ _ hav]
        exact ⟨d1, d2, d3⟩
  · intro e ev a b he
    obtain ⟨h1, h2⟩ := live e ev a b he
    refine ⟨hmemdel e ev a b he, ?_, ?_⟩
    · intro hav
      rw [containsA_removeA_ne _ _ _ hav]
      exact h1
    · intro hbv
      rw [containsA_removeA_ne _ _ _ hbv]
      exact h2

theorem casc_fold (dead : Nat) (l : List Nat) (g : FiniteGraph V E)
    (hg : CascInv g dead l) :
    CascInv (l.foldl (fun gg e => (gg.remove_edge e).2) g) dead [] := by
  induction l generalizing g with
  | nil => exact hg
  | cons e rest ih =>
    simp only [List.foldl_cons]
    exact ih _ (casc_remove_edge g dead e rest hg)

theorem storeInv_remove_vertex (g : FiniteGraph V E) (hg : StoreInv g)
    (v : Nat) : StoreInv (g.remove_vertex v).2 := by
  rw [remove_vertex_fields]
  exact casc_storeInv _ v (casc_fold v _ _ (remove_vertex_casc g hg v))

theorem storeInv_remove_edge (g : FiniteGraph V E) (hg : StoreInv g)
    (e : Nat) : StoreInv (g.remove_edge e).2 := by
  have h1 : CascInv g (g.id + 1) [e] := storeInv_casc g hg [e]
  have h2 := casc_remove_edge g (g.id + 1) e [] h1
  exact casc_storeInv _ _ h2

/-! ## C3: the store invariant -/

inductive GOp (V E : Type) where
  | insVertex (value : V)
  | insEdge (from_ to_ : Nat) (value : E)
  | insBiEdge (from_ to_ : Nat) (value : E)
  | remVertex (i : Nat)
  | remEdge (i : Nat)

def applyGOp (g : FiniteGraph V E) : GOp V E → FiniteGraph V E
  | .insVertex value => (g.insert_vertex value).2
  | .insEdge f t value => (g.insert_edge f t value).2
  | .insBiEdge f t value => (g.insert_bi_edge f t value).2
  | .remVertex i => (g.remove_vertex i).2
  | .remEdge i => (g.remove_edge i).2

def applyGOps (ops : List (GOp V E)) : FiniteGraph V E :=
  ops.foldl applyGOp FiniteGraph.new

theorem storeInv_applyGOps (ops : List (GOp V E)) : StoreInv (applyGOps ops) := by
  suffices h : ∀ (ops : List (GOp V E)) (g : FiniteGraph V E), StoreInv g →
      StoreInv (ops.foldl applyGOp g) from h ops FiniteGraph.new storeInv_new
  intro ops
  induction ops with
  | nil => exact fun g hg => hg
  | cons op rest ih =>
    intro g hg
    simp only [List.foldl_cons]
    refine ih _ ?_
    cases op with
    | insVertex value => exact storeInv_insert_vertex g hg value
    | insEdge f t value => exact storeInv_insert_edge g hg f t value
    | insBiEdge f t value => exact storeInv_insert_bi_edge g hg f t value
    | remVertex i => exact storeInv_remove_vertex g hg i
    | remEdge i => exact storeInv_remove_edge g hg i

/-- C3: after every sequence of insert_vertex / insert_edge /
insert_bi_edge / remove_vertex / remove_edge operations starting from the
empty `FiniteGraph`, every `(vertex, edge)` entry of every forward or
reverse adjacency list refers to an edge currently present in the edge
table, and both endpoints of every stored edge are vertices currently
present in the vertex table. -/
theorem finite_graph_adjacency_invariant (ops : List (GOp V E)) :
    (∀ v l, lookupA (applyGOps ops).neighbors_map v = some l →
      ∀ p ∈ l, containsA (applyGOps ops).edges_map p.2) ∧
    (∀ v l, lookupA (applyGOps ops).reverse_neighbors_map v = some l →
      ∀ p ∈ l, containsA (applyGOps ops).edges_map p.2) ∧
    (∀ e ev a b, lookupA (applyGOps ops).edges_map e = some (ev, a, b) →
      containsA (applyGOps ops).vertices_map a ∧
      containsA (applyGOps ops).vertices_map b) := by
  obtain ⟨-, -, -, -, -, -, -, -, adjN, adjR, -, live⟩ := storeInv_applyGOps ops
  refine ⟨?_, ?_, live⟩
  · intro v l hl p hp
    obtain ⟨w, hw⟩ := adjN v l hl p hp
    unfold containsA
    rcases hw with hw | hw <;> rw [hw] <;> rfl
  · intro v l hl p hp
    obtain ⟨w, hw⟩ := adjR v l hl p hp
    unfold containsA
    rcases hw with hw | hw <;> rw [hw] <;> rfl

/-! ## Unweighted paths and BFS distance (C2) -/

/-- There is a walk of exactly `d` edges from `s` to the indexed vertex. -/
inductive PathTo (g : V → List V) (s : V) : V → Nat → Prop where
  | base : PathTo g s s 0
  | step {u x : V} {d : Nat} : PathTo g s u d → x ∈ g u → PathTo g s x (d + 1)

/-- `d` is the minimum edge count over all walks from `s` to `t`. -/
def BfsDist (g : V → List V) (s t : V) (d : Nat) : Prop :=
  PathTo g s t d ∧ ∀ d', PathTo g s t d' → d ≤ d'

theorem bfsDist_unique (g : V → List V) (s t : V) (d d' : Nat)
    (h : BfsDist g s t d) (h' : BfsDist g s t d') : d = d' :=
  le_antisymm (h.2 d' h'.1) (h'.2 d h.1)

theorem bfsDist_exists (g : V → List V) (s t : V) (d : Nat)
    (h : PathTo g s t d) : ∃ d0, BfsDist g s t d0 := by
  classical
  have hex : ∃ n, PathTo g s t n := ⟨d, h⟩
  exact ⟨Nat.find hex, Nat.find_spec hex, fun d' hd' => Nat.find_min' hex hd'⟩

theorem bfsDist_start (g : V → List V) (s : V) : BfsDist g s s 0 :=
  ⟨PathTo.base, fun d' _ => Nat.zero_le d'⟩

/-- Bridge between walk propositions and explicit vertex-list paths. -/
theorem pathTo_iff_isPathList [DecidableEq V] (g : V → List V) (s : V) :
    ∀ (t : V) (d : Nat), PathTo g s t d ↔
      ∃ p, isPathList g s t p = true ∧ p.length = d + 1 := by
  have fwd : ∀ (t : V) (d : Nat), PathTo g s t d →
      ∃ p, isPathList g s t p = true ∧ p.length = d + 1 := by
    intro t d h
    induction h with
    | base => exact ⟨[s], by simp [isPathList, chainOk], rfl⟩
    | step hu hx ih =>
      obtain ⟨p, hp, hlen⟩ := ih
      rename_i u x d1
      refine ⟨p ++ [x], ?_, by simp [hlen]⟩
      simp only [isPathList, Bool.and_eq_true, decide_eq_true_eq] at hp ⊢
      obtain ⟨⟨h1, h2⟩, h3⟩ := hp
      refine ⟨⟨?_, ?_⟩, ?_⟩
      · cases p with
        | nil => simp at h1
        | cons a q => simpa using h1
      · simp
      · have : ∀ (q : List V) (w : V), chainOk g q = true →
            q.getLast? = some w → x ∈ g w → chainOk g (q ++ [x]) = true := by
          intro q
          induction q with
          | nil => intro w _ hw; simp at hw
          | cons a q2 ih2 =>
            intro w hc hw hxw
            cases q2 with
            | nil =>
              simp only [List.getLast?_singleton] at hw
              injection hw with hw
              subst hw
              simpa [chainOk] using hxw
            | cons b q3 =>
              simp only [chainOk, Bool.and_eq_true] at hc
              have hrec := ih2 w hc.2 (by
                simpa only [List.getLast?_cons_cons] using hw) hxw
              simp only [List.cons_append, chainOk, Bool.and_eq_true]
              refine ⟨hc.1, ?_⟩
              simpa only [List.cons_append] using hrec
        exact this p u h3 h2 hx
  intro t d
  constructor
  · exact fwd t d
  · rintro ⟨p, hp, hlen⟩
    clear fwd
    induction p using List.reverseRecOn generalizing t d with
    | nil => simp [isPathList] at hp
    | append_singleton q x ih =>
      simp only [isPathList, Bool.and_eq_true, decide_eq_true_eq] at hp
      obtain ⟨⟨h1, h2⟩, h3⟩ := hp
      simp only [List.getLast?_append, List.getLast?_singleton] at h2
      injection h2 with h2
      subst h2
      cases q with
      | nil =>
        simp only [List.nil_append, List.head?_cons] at h1 ⊢
        have hx : x = s := by simpa using h1
        subst hx
        have hd : d = 0 := by
          simp only [List.nil_append, List.length_singleton] at hlen
          omega
        subst hd
        exact PathTo.base
      | cons a q2 =>
        obtain ⟨w, hw⟩ : ∃ w, (a :: q2).getLast? = some w := by
          rcases hw : (a :: q2).getLast? with - | w
          · rw [List.getLast?_eq_none_iff] at hw
            cases hw
          · exact ⟨w, rfl⟩
        have hchain : chainOk g (a :: q2) = true ∧ x ∈ g w := by
          have hsplit : ∀ (q : List V) (w1 : V), q.getLast? = some w1 →
              chainOk g (q ++ [x]) = true → chainOk g q = true ∧ x ∈ g w1 := by
            intro q
            induction q with
            | nil => intro w1 hw1; simp at hw1
            | cons a1 q3 ih3 =>
              intro w1 hw1 hc
              cases q3 with
              | nil =>
                simp only [List.getLast?_singleton] at hw1
                injection hw1 with hw1
                subst hw1
                simp only [List.singleton_append, chainOk, Bool.and_eq_true,
                  decide_eq_true_eq] at hc
                exact ⟨rfl, hc.1⟩
              | cons b q4 =>
                simp only [List.cons_append, chainOk, Bool.and_eq_true] at hc
                obtain ⟨hc1, hc2⟩ := hc
                obtain ⟨hh1, hh2⟩ := ih3 w1 (by
                  simpa only [List.getLast?_cons_cons] using hw1) hc2
                refine ⟨?_, hh2⟩
                simp only [chainOk, Bool.and_eq_true]
                exact ⟨hc1, hh1⟩
          exact hsplit (a :: q2) w hw h3
        have hlen2 : (a :: q2).length = (d - 1) + 1 := by
          simp only [List.length_append, List.length_singleton] at hlen
          simp only [List.length_cons] at *
          omega
        have hd : d = (d - 1) + 1 := by
          simp only [List.length_append, List.length_cons,
            List.length_singleton] at hlen
          omega
        have hhead : (a :: q2).head? = some s := by
          simpa using h1
        have hprev : PathTo g s w (d - 1) := by
          refine ih w (d - 1) ?_ hlen2
          simp only [isPathList, Bool.and_eq_true, decide_eq_true_eq]
          exact ⟨⟨hhead, hw⟩, hchain.1⟩
        rw [hd]
        exact PathTo.step hprev hchain.2

/-- The BFS loop invariant: the predecessor map is a shortest-path tree of
the discovered vertices, the queue consists of two consecutive distance
layers, and every discovered vertex is either still in the frontier or
fully expanded. -/
structure BfsInv [DecidableEq V] (g : V → List V) (verts : List V) (start : V)
    (s : BfsState V) : Prop where
  hstart : s.start = start
  hnd : keysND s.predecessor_map
  hs0 : lookupA s.predecessor_map start = some none
  hnone : ∀ x, lookupA s.predecessor_map x = some none → x = start
  hsome : ∀ x u, lookupA s.predecessor_map x = some (some u) →
    x ∈ g u ∧ (∃ lu, lookupA s.predecessor_map u = some lu) ∧
    ∃ du, BfsDist g start u du ∧ BfsDist g start x (du + 1)
  hqsub : ∀ x ∈ s.queue, ∃ lx, lookupA s.predecessor_map x = some lx
  hdisc : ∀ x lx, lookupA s.predecessor_map x = some lx →
    ∃ dx, BfsDist g start x dx
  hvsub : ∀ x lx, lookupA s.predecessor_map x = some lx → x ∈ verts
  hqsplit : ∃ (d0 : Nat) (qa qb : List V), s.queue = qa ++ qb ∧
    (∀ x ∈ qa, BfsDist g start x d0) ∧
    (∀ x ∈ qb, BfsDist g start x (d0 + 1))
  hexp : ∀ x lx, lookupA s.predecessor_map x = some lx →
    x ∈ s.queue ∨ ∀ n ∈ g x, ∃ ln, lookupA s.predecessor_map n = some ln

theorem bfsInv_init [DecidableEq V] (g : V → List V) (verts : List V)
    (start : V) (hs : start ∈ verts) : BfsInv g verts start (bfsNew start) := by
  refine ⟨rfl, by simp [bfsNew, keysND], by simp [bfsNew, lookupA], ?_, ?_,
    ?_, ?_, ?_, ?_, ?_⟩
  · intro x hx
    simp only [bfsNew, lookupA] at hx
    by_cases h : start = x
    · exact h.symm
    · rw [if_neg h] at hx
      cases hx
  · intro x u hx
    simp only [bfsNew, lookupA] at hx
    by_cases h : start = x
    · rw [if_pos h] at hx
      cases hx
    · rw [if_neg h] at hx
      cases hx
  · intro x hx
    simp only [bfsNew] at hx
    simp only [List.mem_singleton] at hx
    subst hx
    exact ⟨none, by simp [bfsNew, lookupA]⟩
  · intro x lx hx
    simp only [bfsNew, lookupA] at hx
    by_cases h : start = x
    · rw [← h]
      exact ⟨0, bfsDist_start g start⟩
    · rw [if_neg h] at hx
      cases hx
  · intro x lx hx
    simp only [bfsNew, lookupA] at hx
    by_cases h : start = x
    · rw [← h]
      exact hs
    · rw [if_neg h] at hx
      cases hx
  · refine ⟨0, [start], [], rfl, ?_, by simp⟩
    intro x hx
    have hx2 : x = start := by simpa using hx
    rw [hx2]
    exact bfsDist_start g start
  · intro x lx hx
    simp only [bfsNew, lookupA] at hx
    by_cases h : start = x
    · left
      rw [← h]
      simp [bfsNew]
    · rw [if_neg h] at hx
      cases hx

theorem bfs_head_min [DecidableEq V] (g : V → List V) (verts : List V)
    (start : V) (s : BfsState V) (hinv : BfsInv g verts start s)
    (u : V) (rest : List V) (hq : s.queue = u :: rest) (du : Nat)
    (hdu : BfsDist g start u du) :
    ∀ x ∈ s.queue, ∀ dx, BfsDist g start x dx → du ≤ dx := by
  obtain ⟨d0, qa, qb, hsplit, hqa, hqb⟩ := hinv.hqsplit
  intro x hx dx hdx
  cases qa with
  | nil =>
    simp only [List.nil_append] at hsplit
    have hub : u ∈ qb := by rw [← hsplit, hq]; exact List.mem_cons_self _ _
    have hdu2 : du = d0 + 1 := bfsDist_unique _ _ _ _ _ hdu (hqb u hub)
    have hxb : x ∈ qb := by rw [← hsplit]; exact hx
    have hdx2 : dx = d0 + 1 := bfsDist_unique _ _ _ _ _ hdx (hqb x hxb)
    omega
  | cons a qa' =>
    have hua : u = a := by
      rw [hq] at hsplit
      exact (List.cons_eq_cons.mp hsplit).1
    have hdu2 : du = d0 := by
      refine bfsDist_unique _ _ _ _ _ hdu (hua ▸ hqa a (List.mem_cons_self _ _))
    rcases List.mem_append.1 (hsplit ▸ hx) with h | h
    · have := bfsDist_unique _ _ _ _ _ hdx (hqa x h)
      omega
    · have := bfsDist_unique _ _ _ _ _ hdx (hqb x h)
      omega

theorem bfs_undiscovered_far [DecidableEq V] (g : V → List V)
    (verts : List V) (start : V) (s : BfsState V)
    (hinv : BfsInv g verts start s) (u : V) (rest : List V)
    (hq : s.queue = u :: rest) (du : Nat) (hdu : BfsDist g start u du)
    (n : V) (hn : lookupA s.predecessor_map n = none) (d : Nat)
    (hpath : PathTo g start n d) : du + 1 ≤ d := by
  have main : ∀ (n1 : V) (d1 : Nat), PathTo g start n1 d1 →
      lookupA s.predecessor_map n1 = none → du + 1 ≤ d1 := by
    intro n1 d1 hpath1
    induction hpath1 with
    | base =>
      intro hn1
      rw [hinv.hs0] at hn1
      cases hn1
    | step hw hx ih =>
      rename_i w x d2
      intro hn1
      rcases hl : lookupA s.predecessor_map w with - | lw
      · have := ih hl
        omega
      · rcases hinv.hexp w lw hl with hmem | hdone
        · obtain ⟨dw, hdw⟩ := hinv.hdisc w lw hl
          have h1 : du ≤ dw :=
            bfs_head_min g verts start s hinv u rest hq du hdu w hmem dw hdw
          have h2 : dw ≤ d2 := hdw.2 d2 hw
          omega
        · obtain ⟨ln, hln⟩ := hdone x hx
          rw [hln] at hn1
          cases hn1
  exact main n d hpath hn

theorem length_insertA_fresh [DecidableEq K] (m : List (K × A)) (k : K) (a : A)
    (h : lookupA m k = none) : (insertA m k a).length = m.length + 1 := by
  induction m with
  | nil => simp [insertA]
  | cons hd t ih =>
    obtain ⟨k0, a0⟩ := hd
    simp only [lookupA] at h
    by_cases hk : k0 = k
    · rw [if_pos hk] at h
      cases h
    · rw [if_neg hk] at h
      simp only [insertA, if_neg hk, List.length_cons, ih h]

theorem lookupA_isSome_of_memKeys [DecidableEq K] (m : List (K × A)) (k : K)
    (h : k ∈ m.map Prod.fst) : ∃ a, lookupA m k = some a := by
  induction m with
  | nil => simp at h
  | cons hd t ih =>
    obtain ⟨k0, a0⟩ := hd
    by_cases hk : k0 = k
    · exact ⟨a0, by simp [lookupA, hk]⟩
    · simp only [List.map_cons, List.mem_cons] at h
      rcases h with h | h
      · exact absurd h.symm hk
      · obtain ⟨a, ha⟩ := ih h
        exact ⟨a, by simp [lookupA, hk, ha]⟩

theorem assoc_length_le [DecidableEq K] (m : List (K × A)) (verts : List K)
    (hnd : keysND m) (hsub : ∀ x a, lookupA m x = some a → x ∈ verts) :
    m.length ≤ verts.length := by
  have hsub2 : m.map Prod.fst ⊆ verts := by
    intro k hk
    obtain ⟨a, ha⟩ := lookupA_isSome_of_memKeys m k hk
    exact hsub k a ha
  have := (List.subperm_of_subset hnd hsub2).length_le
  simpa using this

theorem chainOk_snoc [DecidableEq V] (g : V → List V) (x : V) :
    ∀ (q : List V) (w : V), chainOk g q = true → q.getLast? = some w →
      x ∈ g w → chainOk g (q ++ [x]) = true := by
  intro q
  induction q with
  | nil => intro w _ hw; simp at hw
  | cons a q2 ih2 =>
    intro w hc hw hxw
    cases q2 with
    | nil =>
      simp only [List.getLast?_singleton] at hw
      injection hw with hw
      subst hw
      simpa [chainOk] using hxw
    | cons b q3 =>
      simp only [chainOk, Bool.and_eq_true] at hc
      have hrec := ih2 w hc.2 (by
        simpa only [List.getLast?_cons_cons] using hw) hxw
      simp only [List.cons_append, chainOk, Bool.and_eq_true]
      refine ⟨hc.1, ?_⟩
      simpa only [List.cons_append] using hrec

theorem isPathList_snoc [DecidableEq V] (g : V → List V) (s w x : V)
    (p : List V) (hp : isPathList g s w p = true) (hx : x ∈ g w) :
    isPathList g s x (p ++ [x]) = true := by
  simp only [isPathList, Bool.and_eq_true, decide_eq_true_eq] at hp ⊢
  obtain ⟨⟨h1, h2⟩, h3⟩ := hp
  refine ⟨⟨?_, ?_⟩, ?_⟩
  · cases p with
    | nil => simp at h1
    | cons a q => simpa using h1
  · simp
  · exact chainOk_snoc g x p w h3 h2 hx

/-- Existing predecessor-map entries survive the neighbor-expansion fold of
`bfsNext`. -/
theorem bfs_fold_entry_mono [DecidableEq V] (u k : V) (lk : Option V)
    (l : List V) (qp : List V × List (V × Option V))
    (h : lookupA qp.2 k = some lk) :
    lookupA (l.foldl
      (fun (qp : List V × List (V × Option V)) n =>
        if containsA qp.2 n then qp
        else (qp.1 ++ [n], insertA qp.2 n (some u))) qp).2 k = some lk := by
  induction l generalizing qp with
  | nil => exact h
  | cons n rest ih =>
    simp only [List.foldl_cons]
    by_cases hc : containsA qp.2 n
    · rw [if_pos hc]
      exact ih qp h
    · rw [if_neg hc]
      refine ih _ ?_
      have hnk : n ≠ k := by
        intro he
        subst he
        rw [containsA, h] at hc
        simp at hc
      simp only []
      rw [lookupA_insertA_ne _ _ _ _ (Ne.symm hnk)]
      exact h

/-- After the expansion fold of `bfsNext`, every processed neighbor has a
predecessor-map entry. -/
theorem bfs_fold_covers [DecidableEq V] (u : V) :
    ∀ (l : List V) (qp : List V × List (V × Option V)) (n : V), n ∈ l →
      ∃ ln, lookupA (l.foldl
        (fun (qp : List V × List (V × Option V)) n =>
          if containsA qp.2 n then qp
          else (qp.1 ++ [n], insertA qp.2 n (some u))) qp).2 n = some ln := by
  intro l
  induction l with
  | nil => intro qp n hn; simp at hn
  | cons m rest ih =>
    intro qp n hn
    simp only [List.foldl_cons]
    rcases List.mem_cons.1 hn with hn1 | hn1
    · subst hn1
      by_cases hc : containsA qp.2 n
      · rw [if_pos hc]
        rcases hlk : lookupA qp.2 n with - | lk
        · rw [containsA, hlk] at hc
          simp at hc
        · exact ⟨lk, bfs_fold_entry_mono u n lk rest qp hlk⟩
      · rw [if_neg hc]
        refine ⟨some u, bfs_fold_entry_mono u n (some u) rest _ ?_⟩
        simp only []
        exact lookupA_insertA_self qp.2 n (some u)
    · by_cases hc2 : containsA qp.2 m
      · rw [if_pos hc2]
        exact ih qp n hn1
      · rw [if_neg hc2]
        exact ih _ n hn1

/-- The invariant carried through the expansion fold of `bfsNext`: relative
to the pre-step predecessor map `pm` and queue tail `rest`, the accumulated
map extends `pm` precisely by previously undiscovered neighbors of `u`
recorded with predecessor `u`, and the accumulated queue is `rest` followed
by exactly those new vertices. -/
def BfsMid [DecidableEq V] (g : V → List V) (u : V) (rest : List V)
    (pm : List (V × Option V)) (qp : List V × List (V × Option V)) : Prop :=
  keysND qp.2 ∧
  (∀ x lx, lookupA pm x = some lx → lookupA qp.2 x = some lx) ∧
  (∀ x lx, lookupA qp.2 x = some lx → lookupA pm x = some lx ∨
    (lx = some u ∧ x ∈ g u ∧ lookupA pm x = none ∧ x ∈ qp.1)) ∧
  (∀ x ∈ qp.1, ∃ lx, lookupA qp.2 x = some lx) ∧
  (∃ qnew, qp.1 = rest ++ qnew ∧ ∀ x ∈ qnew, x ∈ g u ∧ lookupA pm x = none) ∧
  (qp.2.length + rest.length = pm.length + qp.1.length)

theorem bfs_fold_mid [DecidableEq V] (g : V → List V) (u : V) (rest : List V)
    (pm : List (V × Option V)) :
    ∀ (l : List V), (∀ n ∈ l, n ∈ g u) →
      ∀ qp, BfsMid g u rest pm qp →
      BfsMid g u rest pm (l.foldl
        (fun (qp : List V × List (V × Option V)) n =>
          if containsA qp.2 n then qp
          else (qp.1 ++ [n], insertA qp.2 n (some u))) qp) := by
  intro l
  induction l with
  | nil => intro _ qp h; exact h
  | cons n rest2 ih =>
    intro hl qp hmid
    obtain ⟨hnd, hold, hnew, hqsub, ⟨qnew, hqnew, hqnewP⟩, hlen⟩ := hmid
    simp only [List.foldl_cons]
    by_cases hc : containsA qp.2 n
    · rw [if_pos hc]
      exact ih (fun m hm => hl m (List.mem_cons_of_mem _ hm)) qp
        ⟨hnd, hold, hnew, hqsub, ⟨qnew, hqnew, hqnewP⟩, hlen⟩
    · rw [if_neg hc]
      have hnone : lookupA qp.2 n = none := by
        rcases h2 : lookupA qp.2 n with - | lk
        · rfl
        · rw [containsA, h2] at hc
          simp at hc
      have hpmnone : lookupA pm n = none := by
        rcases h2 : lookupA pm n with - | lk
        · rfl
        · rw [hold n lk h2] at hnone
          cases hnone
      refine ih (fun m hm => hl m (List.mem_cons_of_mem _ hm)) _
        ⟨?_, ?_, ?_, ?_, ?_, ?_⟩
      · exact keysND_insertA qp.2 n (some u) hnd
      · intro x lx hx
        have hxn : x ≠ n := by
          intro he
          rw [he, hpmnone] at hx
          cases hx
        simp only []
        rw [lookupA_insertA_ne _ _ _ _ hxn]
        exact hold x lx hx
      · intro x lx hx
        simp only [] at hx
        by_cases hxn : x = n
        · subst hxn
          rw [lookupA_insertA_self] at hx
          injection hx with hx
          right
          exact ⟨hx.symm, hl x (List.mem_cons_self _ _), hpmnone,
            by simp⟩
        · rw [lookupA_insertA_ne _ _ _ _ hxn] at hx
          rcases hnew x lx hx with h1 | ⟨h1, h2, h3, h4⟩
          · left; exact h1
          · right
            exact ⟨h1, h2, h3, List.mem_append.2 (Or.inl h4)⟩
      · intro x hx
        simp only [] at hx ⊢
        rcases List.mem_append.1 hx with h1 | h1
        · obtain ⟨lx, hlx⟩ := hqsub x h1
          have hxn : x ≠ n := by
            intro he
            rw [he, hnone] at hlx
            cases hlx
          rw [lookupA_insertA_ne _ _ _ _ hxn]
          exact ⟨lx, hlx⟩
        · have hxn : x = n := by simpa using h1
          subst hxn
          exact ⟨some u, lookupA_insertA_self _ _ _⟩
      · refine ⟨qnew ++ [n], ?_, ?_⟩
        · simp only [hqnew, List.append_assoc]
        · intro x hx
          rcases List.mem_append.1 hx with h1 | h1
          · exact hqnewP x h1
          · have hxn : x = n := by simpa using h1
            subst hxn
            exact ⟨hl x (List.mem_cons_self _ _), hpmnone⟩
      · simp only [List.length_append, List.length_singleton,
          length_insertA_fresh qp.2 n (some u) hnone]
        omega

/-- One `bfsNext` step on a nonempty queue yields the head, preserves the
BFS invariant, keeps every predecessor-map entry, and trades exactly one
queue slot per new map entry. -/
theorem bfsInv_step [DecidableEq V] (g : V → List V) (verts : List V)
    (start : V) (hclosed : ∀ v ∈ verts, ∀ n ∈ g v, n ∈ verts)
    (s : BfsState V) (hinv : BfsInv g verts start s)
    (u : V) (rest : List V) (hq : s.queue = u :: rest) :
    (bfsNext g s).1 = some u ∧
    BfsInv g verts start (bfsNext g s).2 ∧
    (∀ x lx, lookupA s.predecessor_map x = some lx →
      lookupA (bfsNext g s).2.predecessor_map x = some lx) ∧
    (bfsNext g s).2.predecessor_map.length + rest.length =
      s.predecessor_map.length + (bfsNext g s).2.queue.length := by
  have hnext : bfsNext g s = (some u,
      { start := s.start,
        queue := ((g u).foldl
          (fun (qp : List V × List (V × Option V)) n =>
            if containsA qp.2 n then qp
            else (qp.1 ++ [n], insertA qp.2 n (some u)))
          (rest, s.predecessor_map)).1,
        predecessor_map := ((g u).foldl
          (fun (qp : List V × List (V × Option V)) n =>
            if containsA qp.2 n then qp
            else (qp.1 ++ [n], insertA qp.2 n (some u)))
          (rest, s.predecessor_map)).2 }) := by
    unfold bfsNext
    rw [hq]
  obtain ⟨lu, hlu⟩ := hinv.hqsub u (by rw [hq]; exact List.mem_cons_self _ _)
  obtain ⟨du, hdu⟩ := hinv.hdisc u lu hlu
  have hmid0 : BfsMid g u rest s.predecessor_map (rest, s.predecessor_map) := by
    refine ⟨hinv.hnd, fun x lx hx => hx, fun x lx hx => Or.inl hx, ?_,
      ⟨[], by simp⟩, by simp⟩
    intro x hx
    exact hinv.hqsub x (by rw [hq]; exact List.mem_cons_of_mem _ hx)
  have hmid := bfs_fold_mid g u rest s.predecessor_map (g u)
    (fun n hn => hn) _ hmid0
  obtain ⟨hnd, hold, hnew, hqsub, ⟨qnew, hqnew, hqnewP⟩, hlen⟩ := hmid
  have hucov := bfs_fold_covers u (g u) (rest, s.predecessor_map)
  have hdnew : ∀ x ∈ qnew, BfsDist g start x (du + 1) := by
    intro x hx
    obtain ⟨hxg, hxnone⟩ := hqnewP x hx
    exact ⟨PathTo.step hdu.1 hxg,
      fun d' hd' => bfs_undiscovered_far g verts start s hinv u rest hq du hdu
        x hxnone d' hd'⟩
  rw [hnext]
  refine ⟨rfl, ?_, ?_, ?_⟩
  · refine ⟨hinv.hstart, hnd, hold start none hinv.hs0, ?_, ?_, hqsub, ?_, ?_,
      ?_, ?_⟩
    · intro x hx
      rcases hnew x none hx with h1 | ⟨h1, _, _, _⟩
      · exact hinv.hnone x h1
      · cases h1
    · intro x w hx
      rcases hnew x (some w) hx with h1 | ⟨h1, h2, h3, _⟩
      · obtain ⟨hxg, ⟨lw, hlw⟩, dw, hdw, hdx⟩ := hinv.hsome x w h1
        exact ⟨hxg, ⟨lw, hold w lw hlw⟩, dw, hdw, hdx⟩
      · have hwu : w = u := by injection h1
        rw [hwu]
        refine ⟨h2, ⟨lu, hold u lu hlu⟩, du, hdu, ?_⟩
        exact ⟨PathTo.step hdu.1 h2,
          fun d' hd' => bfs_undiscovered_far g verts start s hinv u rest hq
            du hdu x h3 d' hd'⟩
    · intro x lx hx
      rcases hnew x lx hx with h1 | ⟨_, h2, h3, _⟩
      · exact hinv.hdisc x lx h1
      · exact ⟨du + 1, PathTo.step hdu.1 h2,
          fun d' hd' => bfs_undiscovered_far g verts start s hinv u rest hq
            du hdu x h3 d' hd'⟩
    · intro x lx hx
      rcases hnew x lx hx with h1 | ⟨_, h2, _, _⟩
      · exact hinv.hvsub x lx h1
      · exact hclosed u (hinv.hvsub u lu hlu) x h2
    · obtain ⟨d0, qa, qb, hsplit, hqa, hqb⟩ := hinv.hqsplit
      cases qa with
      | nil =>
        simp only [List.nil_append] at hsplit
        have hub : u ∈ qb := by rw [← hsplit, hq]; exact List.mem_cons_self _ _
        have hdu2 : du = d0 + 1 := bfsDist_unique _ _ _ _ _ hdu (hqb u hub)
        refine ⟨du, rest, qnew, hqnew, ?_, hdnew⟩
        intro x hx
        have hxb : x ∈ qb := by
          rw [← hsplit, hq]
          exact List.mem_cons_of_mem _ hx
        rw [hdu2]
        exact hqb x hxb
      | cons a qa' =>
        rw [hq] at hsplit
        have hua : u = a := (List.cons_eq_cons.mp hsplit).1
        have hrest : rest = qa' ++ qb := (List.cons_eq_cons.mp hsplit).2
        have hdu2 : du = d0 := bfsDist_unique _ _ _ _ _ hdu
          (hua ▸ hqa a (List.mem_cons_self _ _))
        refine ⟨d0, qa', qb ++ qnew, ?_, ?_, ?_⟩
        · rw [hqnew, hrest, List.append_assoc]
        · intro x hx
          exact hqa x (List.mem_cons_of_mem _ hx)
        · intro x hx
          rcases List.mem_append.1 hx with h1 | h1
          · exact hqb x h1
          · rw [← hdu2]
            exact hdnew x h1
    · intro x lx hx
      rcases hnew x lx hx with h1 | ⟨_, _, _, h4⟩
      · rcases hinv.hexp x lx h1 with h2 | h2
        · rw [hq] at h2
          rcases List.mem_cons.1 h2 with h3 | h3
          · subst h3
            right
            intro n hn
            exact hucov n hn
          · left
            rw [hqnew]
            exact List.mem_append.2 (Or.inl h3)
        · right
          intro n hn
          obtain ⟨ln, hln⟩ := h2 n hn
          exact ⟨ln, hold n ln hln⟩
      · left
        exact h4
  · exact hold
  · exact hlen

/-- Termination measure of the BFS drive loop: pending queue entries plus
vertices not yet discovered. -/
def bfsMeas (verts : List V) (s : BfsState V) : Nat :=
  s.queue.length + (verts.length - s.predecessor_map.length)

theorem bfs_driveFind_spec [DecidableEq V] (g : V → List V) (verts : List V)
    (start : V) (hclosed : ∀ v ∈ verts, ∀ n ∈ g v, n ∈ verts) (target : V) :
    ∀ (fuel : Nat) (s : BfsState V), BfsInv g verts start s →
      bfsMeas verts s ≤ fuel →
      BfsInv g verts start (driveFind (bfsTrav g) fuel s target) ∧
      ((driveFind (bfsTrav g) fuel s target).queue = [] ∨
        ∃ l0, lookupA
          (driveFind (bfsTrav g) fuel s target).predecessor_map target =
            some l0) := by
  intro fuel
  induction fuel with
  | zero =>
    intro s hinv hm
    have hq : s.queue = [] := by
      simp only [bfsMeas, Nat.le_zero, Nat.add_eq_zero] at hm
      exact List.length_eq_zero.1 hm.1
    exact ⟨hinv, Or.inl hq⟩
  | succ fuel ih =>
    intro s hinv hm
    rcases hq : s.queue with - | ⟨u, rest⟩
    · have hnone : bfsNext g s = (none, s) := by
        unfold bfsNext
        rw [hq]
      have hred : driveFind (bfsTrav g) (fuel + 1) s target = s := by
        simp only [driveFind, bfsTrav]
        rw [hnone]
      rw [hred]
      exact ⟨hinv, Or.inl hq⟩
    · obtain ⟨h1, hinv2, hpres, hlen⟩ :=
        bfsInv_step g verts start hclosed s hinv u rest hq
      have hpair : bfsNext g s = (some u, (bfsNext g s).2) := by
        conv_lhs => rw [← Prod.mk.eta (p := bfsNext g s)]
        rw [h1]
      have hred : driveFind (bfsTrav g) (fuel + 1) s target =
          if u = target then (bfsNext g s).2
          else driveFind (bfsTrav g) fuel (bfsNext g s).2 target := by
        simp only [driveFind, bfsTrav]
        rw [hpair]
      by_cases hu : u = target
      · rw [hred, if_pos hu]
        refine ⟨hinv2, Or.inr ?_⟩
        obtain ⟨lu, hlu⟩ := hinv.hqsub u (by rw [hq]; exact List.mem_cons_self _ _)
        exact ⟨lu, hu ▸ hpres u lu hlu⟩
      · rw [hred, if_neg hu]
        refine ih (bfsNext g s).2 hinv2 ?_
        have ha : s.predecessor_map.length ≤ verts.length :=
          assoc_length_le s.predecessor_map verts hinv.hnd hinv.hvsub
        have hb : (bfsNext g s).2.predecessor_map.length ≤ verts.length :=
          assoc_length_le _ verts hinv2.hnd hinv2.hvsub
        simp only [bfsMeas, hq, List.length_cons] at hm ⊢
        omega

/-- With an exhausted frontier every vertex reachable from the start has
been discovered. -/
theorem bfs_exhausted_covers [DecidableEq V] (g : V → List V) (verts : List V)
    (start : V) (s : BfsState V) (hinv : BfsInv g verts start s)
    (hq : s.queue = []) :
    ∀ (t : V) (d : Nat), PathTo g start t d →
      ∃ l0, lookupA s.predecessor_map t = some l0 := by
  intro t d hpath
  induction hpath with
  | base => exact ⟨none, hinv.hs0⟩
  | step hw hx ih =>
    obtain ⟨lw, hlw⟩ := ih
    rcases hinv.hexp _ lw hlw with h1 | h1
    · rw [hq] at h1
      cases h1
    · exact h1 _ hx

/-- Walking the predecessor map backward from any discovered vertex yields
(after reversal) a start-to-vertex path whose length is one more than the
BFS distance, as soon as the walk fuel covers that distance. -/
theorem bfs_predWalk_spec [DecidableEq V] (g : V → List V) (verts : List V)
    (start : V) (s : BfsState V) (hinv : BfsInv g verts start s) :
    ∀ (dt : Nat) (x : V) (lx : Option V),
      lookupA s.predecessor_map x = some lx → BfsDist g start x dt →
      ∀ fuel, dt ≤ fuel →
        (predWalk (bfsPredecessor s) fuel x).reverse.length = dt + 1 ∧
        isPathList g start x (predWalk (bfsPredecessor s) fuel x).reverse =
          true := by
  intro dt
  induction dt using Nat.strong_induction_on with
  | _ dt ih =>
    intro x lx hx hdx fuel hfuel
    rcases lx with - | w
    · have hxs : x = start := hinv.hnone x hx
      have hdt0 : dt = 0 := by
        rw [hxs] at hdx
        exact bfsDist_unique _ _ _ _ _ hdx (bfsDist_start g start)
      have hpnone : bfsPredecessor s x = none := by
        simp [bfsPredecessor, hx]
      have hpw : predWalk (bfsPredecessor s) fuel x = [x] := by
        cases fuel with
        | zero => rfl
        | succ f =>
          simp only [predWalk]
          rw [hpnone]
      rw [hpw, hdt0]
      refine ⟨rfl, ?_⟩
      rw [hxs]
      simp [isPathList, chainOk]
    · obtain ⟨hxw, ⟨lw, hlw⟩, dw, hdw, hdx1⟩ := hinv.hsome x w hx
      have hdt : dt = dw + 1 := bfsDist_unique _ _ _ _ _ hdx hdx1
      have hpx : bfsPredecessor s x = some w := by
        simp [bfsPredecessor, hx]
      cases fuel with
      | zero => omega
      | succ f =>
        have hfw : dw ≤ f := by omega
        obtain ⟨ihlen, ihpath⟩ := ih dw (by omega) w lw hlw hdw f hfw
        have hpw : predWalk (bfsPredecessor s) (f + 1) x =
            x :: predWalk (bfsPredecessor s) f w := by
          simp only [predWalk]
          rw [hpx]
        rw [hpw, List.reverse_cons]
        constructor
        · simp only [List.length_append, List.length_singleton]
          simp only [ihlen]
          omega
        · exact isPathList_snoc g start w x _ ihpath hxw

theorem pathTo_zero (g : V → List V) (s t : V) (h : PathTo g s t 0) :
    t = s := by
  cases h
  rfl

/-- C2: on a finite unweighted graph, for every target reachable from the
start vertex, the BFS traverser's `construct_path(target)` returns a path
from start to target whose number of edges equals the minimum edge count
over all paths from start to target.  `verts` enumerates the (finitely
many) vertices, closed under adjacency; the fuel covers the drive loop and
the backward walk. -/
theorem bfs_construct_path_shortest [DecidableEq V] (g : V → List V)
    (verts : List V) (hclosed : ∀ v ∈ verts, ∀ n ∈ g v, n ∈ verts)
    (start target : V) (hs : start ∈ verts)
    (d : Nat) (hreach : PathTo g start target d)
    (fuel : Nat) (hfuel : verts.length + d ≤ fuel) :
    ∃ p, (constructPath (bfsTrav g) fuel (bfsNew start) target).1 = some p ∧
      isPathList g start target p = true ∧
      ∀ q, isPathList g start target q = true → p.length ≤ q.length := by
  have hinv0 : BfsInv g verts start (bfsNew start) :=
    bfsInv_init g verts start hs
  have hm0 : bfsMeas verts (bfsNew start) ≤ fuel := by
    have hv1 : 0 < verts.length := List.length_pos_of_mem hs
    simp only [bfsMeas, bfsNew, List.length_singleton]
    omega
  obtain ⟨hinv1, hdisj⟩ :=
    bfs_driveFind_spec g verts start hclosed target fuel (bfsNew start)
      hinv0 hm0
  obtain ⟨lt0, hlt0⟩ : ∃ l0,
      lookupA (driveFind (bfsTrav g) fuel (bfsNew start)
        target).predecessor_map target = some l0 := by
    rcases hdisj with h1 | h1
    · exact bfs_exhausted_covers g verts start _ hinv1 h1 target d hreach
    · exact h1
  obtain ⟨dt, hdt⟩ := bfsDist_exists g start target d hreach
  have hdtd : dt ≤ d := hdt.2 d hreach
  obtain ⟨hplen, hppath⟩ :=
    bfs_predWalk_spec g verts start _ hinv1 dt target lt0 hlt0 hdt fuel
      (by omega)
  have hpn : bfsPredecessor (bfsNew start) target = none := by
    simp only [bfsPredecessor, bfsNew, lookupA]
    by_cases h : start = target
    · rw [if_pos h]
      rfl
    · rw [if_neg h]
      rfl
  have hTp : (bfsTrav g).predecessor = bfsPredecessor := rfl
  have hTf : (bfsTrav g).first = fun s : BfsState V => s.start := rfl
  have hcond2 : 1 < (predWalk
      (bfsPredecessor (driveFind (bfsTrav g) fuel (bfsNew start) target))
      fuel target).reverse.length ∨
      target = (driveFind (bfsTrav g) fuel (bfsNew start) target).start := by
    rcases Nat.eq_zero_or_pos dt with h0 | h0
    · right
      have hts : target = start := by
        rw [h0] at hdt
        exact pathTo_zero g start target hdt.1
      rw [hinv1.hstart]
      exact hts
    · left
      rw [hplen]
      omega
  have hred : (constructPath (bfsTrav g) fuel (bfsNew start) target).1 =
      some ((predWalk
        (bfsPredecessor (driveFind (bfsTrav g) fuel (bfsNew start) target))
        fuel target).reverse) := by
    unfold constructPath
    rw [hTp, hpn]
    simp only [Option.isNone_none, eq_self_iff_true, if_true]
    rw [hTf]
    simp only []
    rw [if_pos hcond2]
  refine ⟨_, hred, hppath, ?_⟩
  intro q hq
  have hqne : q ≠ [] := by
    intro he
    rw [he] at hq
    simp [isPathList] at hq
  have hq1 : 0 < q.length := List.length_pos.2 hqne
  have hqpath : PathTo g start target (q.length - 1) := by
    refine (pathTo_iff_isPathList g start target (q.length - 1)).2
      ⟨q, hq, by omega⟩
  have hmin : dt ≤ q.length - 1 := hdt.2 _ hqpath
  rw [hplen]
  omega

def gW2 : Nat → List Nat := fun v => if v = 0 then [1] else if v = 1 then [2] else []

theorem bfs_construct_path_shortest_witness :
    ∃ p, (constructPath (bfsTrav gW2) 5 (bfsNew 0) 2).1 = some p ∧
      isPathList gW2 0 2 p = true ∧
      ∀ q, isPathList gW2 0 2 q = true → p.length ≤ q.length := by
  have h1 : PathTo gW2 0 1 1 := PathTo.step PathTo.base (by decide)
  have h2 : PathTo gW2 0 2 2 := PathTo.step h1 (by decide)
  exact bfs_construct_path_shortest gW2 [0, 1, 2] (by decide) 0 2 (by decide)
    2 h2 5 (by decide)



/-! ## C1, amended part: Dijkstra minimality under a monotone combination

The machinery below proves that with the documented contract plus
monotonicity of the combination in both arguments, the Dijkstra traverser
(`astarNext` with no estimator) computes minimal-cost paths. -/

theorem mem_eraseEntry_of_ne [LinearOrder C] (l : List (C × Nat))
    (x p : C × Nat) (hp : p ∈ l) (hne : p ≠ x) : p ∈ eraseEntry l x := by
  induction l with
  | nil => simp at hp
  | cons e rest ih =>
    simp only [eraseEntry]
    by_cases he : e = x
    · rw [if_pos he]
      rcases List.mem_cons.1 hp with h1 | h1
      · exact absurd (h1.trans he) hne
      · exact h1
    · rw [if_neg he]
      rcases List.mem_cons.1 hp with h1 | h1
      · exact h1 ▸ List.mem_cons_self _ _
      · exact List.mem_cons_of_mem _ (ih h1)

theorem length_eraseEntry_of_mem [LinearOrder C] (l : List (C × Nat))
    (x : C × Nat) (hx : x ∈ l) :
    (eraseEntry l x).length + 1 = l.length := by
  induction l with
  | nil => simp at hx
  | cons e rest ih =>
    simp only [eraseEntry]
    by_cases he : e = x
    · rw [if_pos he]
      simp
    · rw [if_neg he]
      rcases List.mem_cons.1 hx with h1 | h1
      · exact absurd h1.symm he
      · simp only [List.length_cons, ih h1]

theorem listMin_mem [LinearOrder E] :
    ∀ (l : List E) (m : E), listMin l = some m → m ∈ l := by
  intro l
  induction l with
  | nil => intro m h; simp [listMin] at h
  | cons e rest ih =>
    intro m h
    simp only [listMin] at h
    cases hr : listMin rest with
    | none =>
      rw [hr] at h
      injection h with h
      exact h ▸ List.mem_cons_self _ _
    | some m0 =>
      rw [hr] at h
      injection h with h
      rcases min_cases e m0 with ⟨hm, -⟩ | ⟨hm, -⟩
      · rw [← h, hm]
        exact List.mem_cons_self _ _
      · rw [← h, hm]
        exact List.mem_cons_of_mem _ (ih m0 hr)

theorem listMin_le_mem [LinearOrder E] :
    ∀ (l : List E) (e : E), e ∈ l → ∃ m, listMin l = some m ∧ m ≤ e := by
  intro l
  induction l with
  | nil => intro e h; simp at h
  | cons a rest ih =>
    intro e h
    simp only [listMin]
    rcases List.mem_cons.1 h with h1 | h1
    · cases hr : listMin rest with
      | none => exact ⟨a, rfl, h1 ▸ le_refl _⟩
      | some m0 => exact ⟨min a m0, rfl, h1 ▸ min_le_left _ _⟩
    · obtain ⟨m, hm, hle⟩ := ih e h1
      rw [hm]
      exact ⟨min a m, rfl, le_trans (min_le_right _ _) hle⟩

/-- A walk from `s` to the indexed vertex whose left-folded edge weight is
the indexed cost, each step using any of the parallel edges. -/
inductive EPathTo (g : EGraph V E) (add : E → E → E) (dflt : E) (s : V) :
    V → E → Prop where
  | base : EPathTo g add dflt s s dflt
  | step {u x : V} {c e : E} : EPathTo g add dflt s u c →
      x ∈ g.neighbors u → e ∈ g.edges u x → EPathTo g add dflt s x (add c e)

theorem epathTo_of_edgedOk [DecidableEq V] [DecidableEq E] (g : EGraph V E)
    (add : E → E → E) (dflt : E) (s : V) :
    ∀ (steps : List (E × V)) (v : V) (c : E),
      EPathTo g add dflt s v c → edgedOk g v steps = true →
      EPathTo g add dflt s (stepsEnd v steps)
        ((steps.map Prod.fst).foldl add c) := by
  intro steps
  induction steps with
  | nil => intro v c hv _; exact hv
  | cons p rest ih =>
    intro v c hv hok
    obtain ⟨e, w⟩ := p
    simp only [edgedOk, Bool.and_eq_true, decide_eq_true_eq] at hok
    obtain ⟨⟨h1, h2⟩, h3⟩ := hok
    have hw : EPathTo g add dflt s w (add c e) := EPathTo.step hv h1 h2
    have := ih w (add c e) hw h3
    simpa [stepsEnd, List.foldl] using this

theorem epathTo_of_isEPath [DecidableEq V] [DecidableEq E] (g : EGraph V E)
    (add : E → E → E) (dflt : E) (s t : V) (steps : List (E × V))
    (h : isEPath g s t steps = true) :
    EPathTo g add dflt s t (epCost add dflt (steps.map Prod.fst)) := by
  simp only [isEPath, Bool.and_eq_true, decide_eq_true_eq] at h
  have := epathTo_of_edgedOk g add dflt s steps s dflt EPathTo.base h.1
  rw [h.2] at this
  exact this

theorem edgedOk_append [DecidableEq V] [DecidableEq E] (g : EGraph V E) :
    ∀ (l1 l2 : List (E × V)) (v : V),
      edgedOk g v (l1 ++ l2) =
        (edgedOk g v l1 && edgedOk g (stepsEnd v l1) l2) := by
  intro l1
  induction l1 with
  | nil => intro l2 v; simp [edgedOk, stepsEnd]
  | cons p rest ih =>
    intro l2 v
    obtain ⟨e, w⟩ := p
    simp only [List.cons_append, edgedOk, List.append_eq]
    rw [ih l2 w]
    simp [stepsEnd, Bool.and_assoc]

theorem stepsEnd_append (v : V) (l1 l2 : List (E × V)) :
    stepsEnd v (l1 ++ l2) = stepsEnd (stepsEnd v l1) l2 := by
  simp [stepsEnd, List.foldl_append]

/-- The Dijkstra loop invariant (estimator absent, so heap scores equal
edge costs).  `P` lists the settled vertices in settling order: their
recorded costs are minimal over all walks, and their neighbors are fully
relaxed.  Unsettled discovered vertices keep a heap entry at their current
recorded cost, and every heap entry resolves through `id_map` to a value
whose edge component equals the heap cost. -/
structure DInv [DecidableEq V] [LinearOrder E] (g : EGraph V E)
    (add : E → E → E) (dflt : E) (verts : List V) (start : V)
    (rel : V → List V) (P : List V) (s : AstarState V E) : Prop where
  hstart : s.start = start
  hndp : keysND s.predecessor_map
  hndm : keysND s.min_edge_map
  hndi : keysND s.queue.id_map
  hhnd : (s.queue.binary_heap.map Prod.snd).Nodup
  hidb : ∀ p ∈ s.queue.binary_heap, p.2 < s.queue.id
  hheap : ∀ p ∈ s.queue.binary_heap,
    ∃ v : V, lookupA s.queue.id_map p.2 = some (v, p.1)
  hdom : ∀ x : V, (∃ e, lookupA s.min_edge_map x = some e) ↔
    (∃ l, lookupA s.predecessor_map x = some l)
  hs0p : lookupA s.predecessor_map start = some none
  hs0m : lookupA s.min_edge_map start = some dflt
  hnone : ∀ x, lookupA s.predecessor_map x = some none → x = start
  hvsub : ∀ x e, lookupA s.min_edge_map x = some e → x ∈ verts
  hreal : ∀ x e, lookupA s.min_edge_map x = some e →
    EPathTo g add dflt start x e
  hpm : ∀ x u, lookupA s.predecessor_map x = some (some u) →
    x ∈ g.neighbors u ∧ u ∈ P ∧
    ∃ me, listMin (g.edges u x) = some me ∧
    ∃ eu, lookupA s.min_edge_map u = some eu ∧
      lookupA s.min_edge_map x = some (add eu me)
  hqge : ∀ p ∈ s.queue.binary_heap, ∀ (v : V) (e : E),
    lookupA s.queue.id_map p.2 = some (v, e) →
    ∃ mv, lookupA s.min_edge_map v = some mv ∧ mv ≤ e
  hPnd : P.Nodup
  hPverts : ∀ v ∈ P, v ∈ verts
  hPmem : ∀ v ∈ P, ∃ e, lookupA s.min_edge_map v = some e
  hPmin : ∀ v ∈ P, ∀ e, lookupA s.min_edge_map v = some e →
    ∀ c, EPathTo g add dflt start v c → e ≤ c
  hPrelax : ∀ v ∈ P, ∀ ev, lookupA s.min_edge_map v = some ev →
    ∀ n ∈ rel v, ∀ me, listMin (g.edges v n) = some me →
    ∃ en, lookupA s.min_edge_map n = some en ∧ en ≤ add ev me
  hunsett : ∀ x e, lookupA s.min_edge_map x = some e → x ∉ P →
    ∃ i, (e, i) ∈ s.queue.binary_heap ∧
      lookupA s.queue.id_map i = some (x, e)
  hord : ∀ i x u, P.get? i = some x →
    lookupA s.predecessor_map x = some (some u) →
    ∃ j, j < i ∧ P.get? j = some u

theorem dInv_init [DecidableEq V] [LinearOrder E] (g : EGraph V E)
    (add : E → E → E) (dflt : E) (verts : List V) (start : V)
    (rel : V → List V) (hs : start ∈ verts) :
    DInv g add dflt verts start rel [] (astarNew dflt start) := by
  refine ⟨rfl, ?_, ?_, ?_, ?_, ?_, ?_, ?_, ?_, ?_, ?_, ?_, ?_, ?_, ?_,
    List.nodup_nil, ?_, ?_, ?_, ?_, ?_, ?_⟩
  · simp [astarNew, keysND]
  · simp [astarNew, keysND]
  · simp [astarNew, AstarContainer.new, AstarContainer.push, keysND,
      insertA]
  · simp [astarNew, AstarContainer.new, AstarContainer.push]
  · intro p hp
    simp only [astarNew, AstarContainer.new, AstarContainer.push,
      List.nil_append, List.mem_singleton] at hp
    rw [hp]
    simp [astarNew, AstarContainer.new, AstarContainer.push]
  · intro p hp
    simp only [astarNew, AstarContainer.new, AstarContainer.push,
      List.nil_append, List.mem_singleton] at hp
    rw [hp]
    exact ⟨start, by simp [astarNew, AstarContainer.new,
      AstarContainer.push, insertA, lookupA]⟩
  · intro x
    constructor
    · rintro ⟨e, he⟩
      simp only [astarNew, lookupA] at he ⊢
      by_cases h : start = x
      · rw [if_pos h]
        exact ⟨none, rfl⟩
      · rw [if_neg h] at he
        cases he
    · rintro ⟨l, hl⟩
      simp only [astarNew, lookupA] at hl ⊢
      by_cases h : start = x
      · rw [if_pos h]
        exact ⟨dflt, rfl⟩
      · rw [if_neg h] at hl
        cases hl
  · simp [astarNew, lookupA]
  · simp [astarNew, lookupA]
  · intro x hx
    simp only [astarNew, lookupA] at hx
    by_cases h : start = x
    · exact h.symm
    · rw [if_neg h] at hx
      cases hx
  · intro x e hx
    simp only [astarNew, lookupA] at hx
    by_cases h : start = x
    · rw [← h]
      exact hs
    · rw [if_neg h] at hx
      cases hx
  · intro x e hx
    simp only [astarNew, lookupA] at hx
    by_cases h : start = x
    · rw [if_pos h] at hx
      injection hx with hx
      rw [← h, ← hx]
      exact EPathTo.base
    · rw [if_neg h] at hx
      cases hx
  · intro x u hx
    simp only [astarNew, lookupA] at hx
    by_cases h : start = x
    · rw [if_pos h] at hx
      cases hx
    · rw [if_neg h] at hx
      cases hx
  · intro p hp v e hl
    simp only [astarNew, AstarContainer.new, AstarContainer.push,
      List.nil_append, List.mem_singleton] at hp
    rw [hp] at hl
    simp only [insertA, lookupA, if_pos rfl] at hl
    injection hl with hl
    have hv : v = start := (congrArg Prod.fst hl).symm
    have he : e = dflt := (congrArg Prod.snd hl).symm
    rw [hv, he]
    exact ⟨dflt, by simp [astarNew, lookupA], le_refl _⟩
  · intro v hv
    cases hv
  · intro v hv
    cases hv
  · intro v hv
    cases hv
  · intro v hv
    cases hv
  · intro x e hx _
    simp only [astarNew, lookupA] at hx
    by_cases h : start = x
    · rw [if_pos h] at hx
      injection hx with hx
      refine ⟨0, ?_, ?_⟩
      · simp only [astarNew, AstarContainer.new, AstarContainer.push,
          List.nil_append]
        rw [← hx]
        exact List.mem_singleton.2 rfl
      · simp only [astarNew, AstarContainer.new, AstarContainer.push,
          insertA, lookupA, if_pos rfl]
        rw [← h, ← hx]
        simp
    · rw [if_neg h] at hx
      cases hx
  · intro i x u hi
    simp at hi

/-- The Dijkstra frontier lemma: every walk cost is dominated either by the
settled cost of its endpoint or by some live heap entry. -/
theorem dijkstra_frontier [DecidableEq V] [LinearOrder E] (g : EGraph V E)
    (add : E → E → E) (dflt : E) (verts : List V) (start : V)
    (hc1 : ∀ a b : E, a ≤ add a b)
    (hml : ∀ a b c : E, a ≤ b → add a c ≤ add b c)
    (hmr : ∀ a b c : E, b ≤ c → add a b ≤ add a c)
    (P : List V) (s : AstarState V E)
    (hinv : DInv g add dflt verts start g.neighbors P s) :
    ∀ (w : V) (c : E), EPathTo g add dflt start w c →
      (w ∈ P ∧ ∃ mw, lookupA s.min_edge_map w = some mw ∧ mw ≤ c) ∨
      (∃ (x : V) (ex : E) (i : Nat), (ex, i) ∈ s.queue.binary_heap ∧
        lookupA s.queue.id_map i = some (x, ex) ∧ ex ≤ c) := by
  intro w c hpath
  induction hpath with
  | base =>
    by_cases hP : start ∈ P
    · exact Or.inl ⟨hP, dflt, hinv.hs0m, le_refl _⟩
    · obtain ⟨i, hin, hlk⟩ := hinv.hunsett start dflt hinv.hs0m hP
      exact Or.inr ⟨start, dflt, i, hin, hlk, le_refl _⟩
  | step hu hxn he ih =>
    rename_i u x c1 e
    rcases ih with ⟨huP, mu, hmu, hmuc⟩ | ⟨x', ex', i, hin, hlk, hlec⟩
    · obtain ⟨me, hme, hmele⟩ := listMin_le_mem (g.edges u x) e he
      obtain ⟨ex', hex', hle⟩ :=
        hinv.hPrelax u huP mu hmu x hxn me hme
      have hchain : ex' ≤ add c1 e :=
        le_trans hle (le_trans (hml mu c1 me hmuc) (hmr c1 me e hmele))
      by_cases hxP : x ∈ P
      · exact Or.inl ⟨hxP, ex', hex', hchain⟩
      · obtain ⟨i, hin, hlk⟩ := hinv.hunsett x ex' hex' hxP
        exact Or.inr ⟨x, ex', i, hin, hlk, hchain⟩
    · exact Or.inr ⟨x', ex', i, hin, hlk, le_trans hlec (hc1 c1 e)⟩

/-- During the expansion of `v`, vertex `v` itself is only relaxed for the
neighbors processed so far (`done`); all other settled vertices are fully
relaxed. -/
def relDone [DecidableEq V] (g : EGraph V E) (v : V) (done : List V)
    (w : V) : List V :=
  if w = v then done else g.neighbors w

/-- A relaxation from a settled vertex with a cost at least its recorded
cost is a no-op. -/
theorem dRelax_noop [DecidableEq V] [LinearOrder E] (g : EGraph V E)
    (add : E → E → E) (dflt : E) (verts : List V) (start : V)
    (hml : ∀ a b c : E, a ≤ b → add a c ≤ add b c)
    (P : List V) (st : AstarState V E)
    (hinv : DInv g add dflt verts start g.neighbors P st)
    (v : V) (hv : v ∈ P) (e mv : E)
    (hmv : lookupA st.min_edge_map v = some mv) (hle : mv ≤ e)
    (n : V) (hn : n ∈ g.neighbors v) :
    astarRelax g add none v e st n = st := by
  unfold astarRelax
  cases hme : listMin (g.edges v n) with
  | none => rfl
  | some me =>
    obtain ⟨en, hen, henle⟩ := hinv.hPrelax v hv mv hmv n hn me hme
    have hnl : ¬ add e me < en := by
      have h1 : en ≤ add e me := le_trans henle (hml mv e me hle)
      exact not_lt.2 h1
    simp only [hen, if_neg hnl]

theorem dRelax_noop_fold [DecidableEq V] [LinearOrder E] (g : EGraph V E)
    (add : E → E → E) (dflt : E) (verts : List V) (start : V)
    (hml : ∀ a b c : E, a ≤ b → add a c ≤ add b c)
    (P : List V) (st : AstarState V E)
    (hinv : DInv g add dflt verts start g.neighbors P st)
    (v : V) (hv : v ∈ P) (e mv : E)
    (hmv : lookupA st.min_edge_map v = some mv) (hle : mv ≤ e) :
    ∀ l : List V, (∀ n ∈ l, n ∈ g.neighbors v) →
      l.foldl (astarRelax g add none v e) st = st := by
  intro l
  induction l with
  | nil => intro _; rfl
  | cons n rest ih =>
    intro hl
    simp only [List.foldl_cons]
    rw [dRelax_noop g add dflt verts start hml P st hinv v hv e mv hmv hle n
      (hl n (List.mem_cons_self _ _))]
    exact ih (fun m hm => hl m (List.mem_cons_of_mem _ hm))

/-- A successful relaxation of neighbor `n` from the vertex `v` currently
being expanded preserves the Dijkstra invariant, with `n` added to the
relaxed set of `v`. -/
theorem dRelax_update [DecidableEq V] [LinearOrder E] (g : EGraph V E)
    (add : E → E → E) (dflt : E) (verts : List V) (start : V)
    (hclosed : ∀ w ∈ verts, ∀ n ∈ g.neighbors w, n ∈ verts)
    (hz : ∀ e : E, dflt ≤ e)
    (hc1 : ∀ a b : E, a ≤ add a b) (hc2 : ∀ a b : E, b ≤ add a b)
    (P : List V) (v : V) (done : List V) (st : AstarState V E)
    (hinv : DInv g add dflt verts start (relDone g v done) (P ++ [v]) st)
    (hvnP : v ∉ P)
    (ev : E) (hmemv : lookupA st.min_edge_map v = some ev)
    (n : V) (hn : n ∈ g.neighbors v)
    (me : E) (hme : listMin (g.edges v n) = some me)
    (hless : ∀ mn, lookupA st.min_edge_map n = some mn → add ev me < mn) :
    DInv g add dflt verts start (relDone g v (done ++ [n])) (P ++ [v])
      { st with
        min_edge_map := insertA st.min_edge_map n (add ev me),
        queue := st.queue.push (n, add ev me) (add ev me),
        predecessor_map := insertA st.predecessor_map n (some v) } := by
  have hvx : v ∈ P ++ [v] := List.mem_append.2 (Or.inr (List.mem_singleton.2 rfl))
  have hreal_n : EPathTo g add dflt start n (add ev me) :=
    EPathTo.step (hinv.hreal v ev hmemv) hn (listMin_mem _ me hme)
  have hnv : n ≠ v := by
    intro he
    rw [he] at hless
    exact absurd (hc1 ev me) (not_le.2 (hless ev hmemv))
  have hnP2 : n ∉ P ++ [v] := by
    intro hmem
    rcases List.mem_append.1 hmem with h1 | h1
    · obtain ⟨mn, hmn⟩ := hinv.hPmem n (List.mem_append.2 (Or.inl h1))
      have h2 := hinv.hPmin n (List.mem_append.2 (Or.inl h1)) mn hmn
        (add ev me) hreal_n
      exact absurd (hless mn hmn) (not_lt.2 h2)
    · exact hnv (List.mem_singleton.1 h1)
  have hns : n ≠ start := by
    intro he
    rw [he] at hless
    have h1 := hless dflt hinv.hs0m
    exact absurd (le_trans (hz me) (hc2 ev me)) (not_le.2 h1)
  have hsn : start ≠ n := fun h => hns h.symm
  have hvn : v ≠ n := fun h => hnv h.symm
  refine ⟨hinv.hstart, keysND_insertA _ _ _ hinv.hndp,
    keysND_insertA _ _ _ hinv.hndm, keysND_insertA _ _ _ hinv.hndi,
    ?_, ?_, ?_, ?_, ?_, ?_, ?_, ?_, ?_, ?_, ?_, hinv.hPnd, hinv.hPverts,
    ?_, ?_, ?_, ?_, ?_⟩
  · show ((st.queue.binary_heap ++ [(add ev me, st.queue.id)]).map
      Prod.snd).Nodup
    rw [List.map_append]
    rw [List.nodup_append]
    refine ⟨hinv.hhnd, List.nodup_singleton _, ?_⟩
    intro a ha hb
    rcases List.mem_map.1 ha with ⟨p, hp, hpa⟩
    have := hinv.hidb p hp
    have hab : a = st.queue.id := by simpa using hb
    omega
  · intro p hp
    show p.2 < st.queue.id + 1
    rcases List.mem_append.1 hp with h1 | h1
    · have := hinv.hidb p h1
      omega
    · have hp2 : p = (add ev me, st.queue.id) := List.mem_singleton.1 h1
      rw [hp2]
      omega
  · intro p hp
    rcases List.mem_append.1 hp with h1 | h1
    · obtain ⟨x, hx⟩ := hinv.hheap p h1
      have hne : p.2 ≠ st.queue.id := by
        have := hinv.hidb p h1
        omega
      refine ⟨x, ?_⟩
      show lookupA (insertA st.queue.id_map st.queue.id (n, add ev me))
        p.2 = some (x, p.1)
      rw [lookupA_insertA_ne _ _ _ _ hne]
      exact hx
    · have hp2 : p = (add ev me, st.queue.id) := List.mem_singleton.1 h1
      refine ⟨n, ?_⟩
      rw [hp2]
      show lookupA (insertA st.queue.id_map st.queue.id (n, add ev me))
        st.queue.id = some (n, add ev me)
      exact lookupA_insertA_self _ _ _
  · intro x
    by_cases hx : x = n
    · subst hx
      constructor
      · intro _
        exact ⟨some v, lookupA_insertA_self _ _ _⟩
      · intro _
        exact ⟨add ev me, lookupA_insertA_self _ _ _⟩
    · constructor
      · rintro ⟨e, he⟩
        rw [lookupA_insertA_ne _ _ _ _ hx] at he
        obtain ⟨l, hl⟩ := (hinv.hdom x).1 ⟨e, he⟩
        exact ⟨l, by rw [lookupA_insertA_ne _ _ _ _ hx]; exact hl⟩
      · rintro ⟨l, hl⟩
        rw [lookupA_insertA_ne _ _ _ _ hx] at hl
        obtain ⟨e, he⟩ := (hinv.hdom x).2 ⟨l, hl⟩
        exact ⟨e, by rw [lookupA_insertA_ne _ _ _ _ hx]; exact he⟩
  · show lookupA (insertA st.predecessor_map n (some v)) start = some none
    rw [lookupA_insertA_ne _ _ _ _ hsn]
    exact hinv.hs0p
  · show lookupA (insertA st.min_edge_map n (add ev me)) start = some dflt
    rw [lookupA_insertA_ne _ _ _ _ hsn]
    exact hinv.hs0m
  · intro x hx
    by_cases hxn : x = n
    · subst hxn
      rw [lookupA_insertA_self] at hx
      injection hx with hx
      cases hx
    · rw [lookupA_insertA_ne _ _ _ _ hxn] at hx
      exact hinv.hnone x hx
  · intro x e hx
    by_cases hxn : x = n
    · subst hxn
      exact hclosed v (hinv.hvsub v ev hmemv) x hn
    · rw [lookupA_insertA_ne _ _ _ _ hxn] at hx
      exact hinv.hvsub x e hx
  · intro x e hx
    by_cases hxn : x = n
    · subst hxn
      rw [lookupA_insertA_self] at hx
      injection hx with hx
      rw [← hx]
      exact hreal_n
    · rw [lookupA_insertA_ne _ _ _ _ hxn] at hx
      exact hinv.hreal x e hx
  · intro x u hx
    by_cases hxn : x = n
    · subst hxn
      rw [lookupA_insertA_self] at hx
      injection hx with hx
      injection hx with hx
      refine ⟨?_, ?_, me, ?_, ev, ?_, ?_⟩
      · rw [← hx]
        exact hn
      · rw [← hx]
        exact hvx
      · rw [← hx]
        exact hme
      · rw [← hx]
        show lookupA (insertA st.min_edge_map x (add ev me)) v = some ev
        rw [lookupA_insertA_ne _ _ _ _ hvn]
        exact hmemv
      · show lookupA (insertA st.min_edge_map x (add ev me)) x =
          some (add ev me)
        exact lookupA_insertA_self _ _ _
    · rw [lookupA_insertA_ne _ _ _ _ hxn] at hx
      obtain ⟨h1, h2, me', hme', eu, heu, hex⟩ := hinv.hpm x u hx
      have hun : u ≠ n := by
        intro he
        exact hnP2 (he ▸ h2)
      refine ⟨h1, h2, me', hme', eu, ?_, ?_⟩
      · rw [lookupA_insertA_ne _ _ _ _ hun]
        exact heu
      · rw [lookupA_insertA_ne _ _ _ _ hxn]
        exact hex
  · intro p hp x e hl
    rcases List.mem_append.1 hp with h1 | h1
    · have hne : p.2 ≠ st.queue.id := by
        have := hinv.hidb p h1
        omega
      rw [show ({ st with
          min_edge_map := insertA st.min_edge_map n (add ev me),
          queue := st.queue.push (n, add ev me) (add ev me),
          predecessor_map := insertA st.predecessor_map n (some v) } :
            AstarState V E).queue.id_map =
          insertA st.queue.id_map st.queue.id (n, add ev me) from rfl,
        lookupA_insertA_ne _ _ _ _ hne] at hl
      obtain ⟨mv, hmv, hmvle⟩ := hinv.hqge p h1 x e hl
      by_cases hxn : x = n
      · subst hxn
        refine ⟨add ev me, lookupA_insertA_self _ _ _, ?_⟩
        exact le_trans (le_of_lt (hless mv hmv)) hmvle
      · exact ⟨mv, by rw [lookupA_insertA_ne _ _ _ _ hxn]; exact hmv, hmvle⟩
    · have hp2 : p = (add ev me, st.queue.id) := List.mem_singleton.1 h1
      rw [hp2] at hl
      rw [show ({ st with
          min_edge_map := insertA st.min_edge_map n (add ev me),
          queue := st.queue.push (n, add ev me) (add ev me),
          predecessor_map := insertA st.predecessor_map n (some v) } :
            AstarState V E).queue.id_map =
          insertA st.queue.id_map st.queue.id (n, add ev me) from rfl,
        lookupA_insertA_self] at hl
      injection hl with hl
      have hx : n = x := congrArg Prod.fst hl
      have he : add ev me = e := congrArg Prod.snd hl
      refine ⟨add ev me, ?_, ?_⟩
      · rw [← hx]
        exact lookupA_insertA_self _ _ _
      · rw [← he]
  · intro w hw
    obtain ⟨ew, hew⟩ := hinv.hPmem w hw
    have hwn : w ≠ n := fun h => hnP2 (h ▸ hw)
    exact ⟨ew, by rw [lookupA_insertA_ne _ _ _ _ hwn]; exact hew⟩
  · intro w hw e hwe c hc
    have hwn : w ≠ n := fun h => hnP2 (h ▸ hw)
    rw [lookupA_insertA_ne _ _ _ _ hwn] at hwe
    exact hinv.hPmin w hw e hwe c hc
  · intro w hw ew hew n' hn' me' hme'
    have hwn : w ≠ n := fun h => hnP2 (h ▸ hw)
    rw [lookupA_insertA_ne _ _ _ _ hwn] at hew
    by_cases hwv : w = v
    · subst hwv
      simp only [relDone, if_pos rfl] at hn'
      rcases List.mem_append.1 hn' with h1 | h1
      · obtain ⟨en, hen, henle⟩ := hinv.hPrelax w hw ew hew n'
          (by simp [relDone]; exact h1) me' hme'
        by_cases hn'n : n' = n
        · subst hn'n
          refine ⟨add ev me, lookupA_insertA_self _ _ _, ?_⟩
          exact le_trans (le_of_lt (hless en hen)) henle
        · exact ⟨en, by rw [lookupA_insertA_ne _ _ _ _ hn'n]; exact hen,
            henle⟩
      · have hn'n : n' = n := List.mem_singleton.1 h1
        subst hn'n
        rw [hme] at hme'
        injection hme' with hme'
        have hewev : ew = ev := by
          rw [hmemv] at hew
          injection hew with hew
          exact hew.symm
        refine ⟨add ev me, lookupA_insertA_self _ _ _, ?_⟩
        rw [hewev, ← hme']
    · have hn'2 : n' ∈ g.neighbors w := by
        simp only [relDone, if_neg hwv] at hn'
        exact hn'
      obtain ⟨en, hen, henle⟩ := hinv.hPrelax w hw ew hew n'
        (by simp [relDone, if_neg hwv]; exact hn'2) me' hme'
      by_cases hn'n : n' = n
      · subst hn'n
        refine ⟨add ev me, lookupA_insertA_self _ _ _, ?_⟩
        exact le_trans (le_of_lt (hless en hen)) henle
      · exact ⟨en, by rw [lookupA_insertA_ne _ _ _ _ hn'n]; exact hen, henle⟩
  · intro x e hx hxP
    by_cases hxn : x = n
    · subst hxn
      rw [lookupA_insertA_self] at hx
      injection hx with hx
      refine ⟨st.queue.id, ?_, ?_⟩
      · show (e, st.queue.id) ∈
          st.queue.binary_heap ++ [(add ev me, st.queue.id)]
        rw [← hx]
        exact List.mem_append.2 (Or.inr (List.mem_singleton.2 rfl))
      · show lookupA (insertA st.queue.id_map st.queue.id (x, add ev me))
          st.queue.id = some (x, e)
        rw [← hx, lookupA_insertA_self]
    · rw [lookupA_insertA_ne _ _ _ _ hxn] at hx
      obtain ⟨i, hin, hlk⟩ := hinv.hunsett x e hx hxP
      have hii : i ≠ st.queue.id := by
        have := hinv.hidb (e, i) hin
        simp only at this
        omega
      refine ⟨i, List.mem_append.2 (Or.inl hin), ?_⟩
      show lookupA (insertA st.queue.id_map st.queue.id (n, add ev me)) i =
        some (x, e)
      rw [lookupA_insertA_ne _ _ _ _ hii]
      exact hlk
  · intro i x u hi hx
    have hxP : x ∈ P ++ [v] := List.get?_mem hi
    have hxn : x ≠ n := fun h => hnP2 (h ▸ hxP)
    rw [show ({ st with
        min_edge_map := insertA st.min_edge_map n (add ev me),
        queue := st.queue.push (n, add ev me) (add ev me),
        predecessor_map := insertA st.predecessor_map n (some v) } :
          AstarState V E).predecessor_map =
        insertA st.predecessor_map n (some v) from rfl,
      lookupA_insertA_ne _ _ _ _ hxn] at hx
    exact hinv.hord i x u hi hx

theorem dInv_relax_extend [DecidableEq V] [LinearOrder E] (g : EGraph V E)
    (add : E → E → E) (dflt : E) (verts : List V) (start : V)
    (v : V) (done : List V) (Q : List V) (st : AstarState V E)
    (hinv : DInv g add dflt verts start (relDone g v done) Q st)
    (n : V)
    (hext : ∀ ew, lookupA st.min_edge_map v = some ew →
      ∀ me, listMin (g.edges v n) = some me →
      ∃ en, lookupA st.min_edge_map n = some en ∧ en ≤ add ew me) :
    DInv g add dflt verts start (relDone g v (done ++ [n])) Q st := by
  refine ⟨hinv.hstart, hinv.hndp, hinv.hndm, hinv.hndi, hinv.hhnd,
    hinv.hidb, hinv.hheap, hinv.hdom, hinv.hs0p, hinv.hs0m, hinv.hnone,
    hinv.hvsub, hinv.hreal, hinv.hpm, hinv.hqge, hinv.hPnd, hinv.hPverts,
    hinv.hPmem, hinv.hPmin, ?_, hinv.hunsett, hinv.hord⟩
  intro w hw ew hew n' hn' me' hme'
  by_cases hwv : w = v
  · simp only [relDone, if_pos hwv] at hn'
    rcases List.mem_append.1 hn' with h1 | h1
    · exact hinv.hPrelax w hw ew hew n'
        (by simp only [relDone, if_pos hwv]; exact h1) me' hme'
    · have hn'n : n' = n := List.mem_singleton.1 h1
      rw [hwv] at hew hme'
      rw [hn'n] at hme' ⊢
      exact hext ew hew me' hme'
  · simp only [relDone, if_neg hwv] at hn'
    exact hinv.hPrelax w hw ew hew n'
      (by simp only [relDone, if_neg hwv]; exact hn') me' hme'

theorem astarRelax_mem_mono [DecidableEq V] [LinearOrder E] (g : EGraph V E)
    (add : E → E → E) (est : Option (V → E)) (v : V) (e : E)
    (st : AstarState V E) (n : V) :
    ∀ x ex, lookupA st.min_edge_map x = some ex →
      ∃ ex', lookupA (astarRelax g add est v e st n).min_edge_map x =
        some ex' ∧ ex' ≤ ex := by
  intro x ex hx
  unfold astarRelax
  rcases hme : listMin (g.edges v n) with - | me
  · simp only [hme]
    exact ⟨ex, hx, le_refl _⟩
  · simp only [hme]
    rcases hlk : lookupA st.min_edge_map n with - | mn
    · simp only [hlk]
      have hxn : x ≠ n := by
        intro he
        rw [he, hlk] at hx
        cases hx
      refine ⟨ex, ?_, le_refl _⟩
      show lookupA (insertA st.min_edge_map n (add e me)) x = some ex
      rw [lookupA_insertA_ne _ _ _ _ hxn]
      exact hx
    · simp only [hlk]
      by_cases hlt : add e me < mn
      · rw [if_pos hlt]
        by_cases hxn : x = n
        · refine ⟨add e me, ?_, ?_⟩
          · show lookupA (insertA st.min_edge_map n (add e me)) x =
              some (add e me)
            rw [hxn]
            exact lookupA_insertA_self _ _ _
          · have : ex = mn := by
              rw [hxn, hlk] at hx
              injection hx with hx
              exact hx.symm
            rw [this]
            exact le_of_lt hlt
        · refine ⟨ex, ?_, le_refl _⟩
          show lookupA (insertA st.min_edge_map n (add e me)) x = some ex
          rw [lookupA_insertA_ne _ _ _ _ hxn]
          exact hx
      · rw [if_neg hlt]
        exact ⟨ex, hx, le_refl _⟩

theorem astarRelax_heap_le [DecidableEq V] [LinearOrder E] (g : EGraph V E)
    (add : E → E → E) (est : Option (V → E)) (v : V) (e : E)
    (st : AstarState V E) (n : V) :
    (astarRelax g add est v e st n).queue.binary_heap.length ≤
      st.queue.binary_heap.length + 1 := by
  unfold astarRelax
  rcases hme : listMin (g.edges v n) with - | me
  · simp only [hme]
    omega
  · simp only [hme]
    rcases hlk : lookupA st.min_edge_map n with - | mn
    · simp only [hlk]
      simp [AstarContainer.push]
    · simp only [hlk]
      by_cases hlt : add e me < mn
      · rw [if_pos hlt]
        simp [AstarContainer.push]
      · rw [if_neg hlt]
        omega

/-- One relaxation during the expansion of `v` preserves the invariant and
extends `v`'s relaxed set by the processed neighbor. -/
theorem dRelax_step [DecidableEq V] [LinearOrder E] (g : EGraph V E)
    (add : E → E → E) (dflt : E) (verts : List V) (start : V)
    (hclosed : ∀ w ∈ verts, ∀ n ∈ g.neighbors w, n ∈ verts)
    (hz : ∀ e : E, dflt ≤ e)
    (hc1 : ∀ a b : E, a ≤ add a b) (hc2 : ∀ a b : E, b ≤ add a b)
    (P : List V) (v : V) (done : List V) (st : AstarState V E)
    (hinv : DInv g add dflt verts start (relDone g v done) (P ++ [v]) st)
    (hvnP : v ∉ P)
    (ev : E) (hmemv : lookupA st.min_edge_map v = some ev)
    (n : V) (hn : n ∈ g.neighbors v) :
    DInv g add dflt verts start (relDone g v (done ++ [n])) (P ++ [v])
      (astarRelax g add none v ev st n) ∧
    lookupA (astarRelax g add none v ev st n).min_edge_map v = some ev := by
  unfold astarRelax
  rcases hme : listMin (g.edges v n) with - | me
  · simp only [hme]
    refine ⟨?_, hmemv⟩
    refine dInv_relax_extend g add dflt verts start v done _ st hinv n ?_
    intro ew _ me' hme'
    rw [hme] at hme'
    cases hme'
  · simp only [hme]
    rcases hlk : lookupA st.min_edge_map n with - | mn
    · simp only [hlk]
      have hupd := dRelax_update g add dflt verts start hclosed hz hc1 hc2
        P v done st hinv hvnP ev hmemv n hn me hme
        (fun mn hmn => by rw [hlk] at hmn; cases hmn)
      have hvn : v ≠ n := by
        intro he
        rw [he, hlk] at hmemv
        cases hmemv
      refine ⟨hupd, ?_⟩
      show lookupA (insertA st.min_edge_map n (add ev me)) v = some ev
      rw [lookupA_insertA_ne _ _ _ _ hvn]
      exact hmemv
    · simp only [hlk]
      by_cases hlt : add ev me < mn
      · rw [if_pos hlt]
        have hless : ∀ mn', lookupA st.min_edge_map n = some mn' →
            add ev me < mn' := by
          intro mn' hmn'
          rw [hlk] at hmn'
          injection hmn' with hmn'
          rw [← hmn']
          exact hlt
        have hupd := dRelax_update g add dflt verts start hclosed hz hc1 hc2
          P v done st hinv hvnP ev hmemv n hn me hme hless
        have hvn : v ≠ n := by
          intro he
          rw [he] at hmemv
          rw [hlk] at hmemv
          injection hmemv with hmemv
          rw [hmemv] at hlt
          exact absurd (hc1 ev me) (not_le.2 hlt)
        refine ⟨hupd, ?_⟩
        show lookupA (insertA st.min_edge_map n (add ev me)) v = some ev
        rw [lookupA_insertA_ne _ _ _ _ hvn]
        exact hmemv
      · rw [if_neg hlt]
        refine ⟨?_, hmemv⟩
        refine dInv_relax_extend g add dflt verts start v done _ st hinv n ?_
        intro ew hew me' hme'
        rw [hme] at hme'
        injection hme' with hme'
        have hewev : ew = ev := by
          rw [hmemv] at hew
          injection hew with hew
          exact hew.symm
        refine ⟨mn, hlk, ?_⟩
        rw [hewev, ← hme']
        exact not_lt.1 hlt

theorem dRelax_fold [DecidableEq V] [LinearOrder E] (g : EGraph V E)
    (add : E → E → E) (dflt : E) (verts : List V) (start : V)
    (hclosed : ∀ w ∈ verts, ∀ n ∈ g.neighbors w, n ∈ verts)
    (hz : ∀ e : E, dflt ≤ e)
    (hc1 : ∀ a b : E, a ≤ add a b) (hc2 : ∀ a b : E, b ≤ add a b)
    (P : List V) (v : V) (hvnP : v ∉ P) (ev : E) :
    ∀ (l done : List V) (st : AstarState V E),
      (∀ x ∈ l, x ∈ g.neighbors v) →
      DInv g add dflt verts start (relDone g v done) (P ++ [v]) st →
      lookupA st.min_edge_map v = some ev →
      DInv g add dflt verts start (relDone g v (done ++ l)) (P ++ [v])
        (l.foldl (astarRelax g add none v ev) st) ∧
      lookupA (l.foldl (astarRelax g add none v ev)
        st).min_edge_map v = some ev := by
  intro l
  induction l with
  | nil =>
    intro done st _ hinv hm
    simp only [List.foldl_nil, List.append_nil]
    exact ⟨hinv, hm⟩
  | cons n rest ih =>
    intro done st hl hinv hm
    simp only [List.foldl_cons]
    obtain ⟨hinv2, hm2⟩ := dRelax_step g add dflt verts start hclosed hz
      hc1 hc2 P v done st hinv hvnP ev hm n (hl n (List.mem_cons_self _ _))
    have := ih (done ++ [n]) _
      (fun x hx => hl x (List.mem_cons_of_mem _ hx)) hinv2 hm2
    rwa [List.append_assoc, List.singleton_append] at this

theorem relDone_full [DecidableEq V] (g : EGraph V E) (v : V) :
    relDone g v (g.neighbors v) = g.neighbors := by
  funext w
  simp only [relDone]
  by_cases h : w = v
  · rw [if_pos h, h]
  · rw [if_neg h]

theorem relax_fold_mem_mono [DecidableEq V] [LinearOrder E] (g : EGraph V E)
    (add : E → E → E) (est : Option (V → E)) (v : V) (e : E) :
    ∀ (l : List V) (st : AstarState V E) (x : V) (ex : E),
      lookupA st.min_edge_map x = some ex →
      ∃ ex', lookupA (l.foldl (astarRelax g add est v e)
        st).min_edge_map x = some ex' ∧ ex' ≤ ex := by
  intro l
  induction l with
  | nil => intro st x ex hx; exact ⟨ex, hx, le_refl _⟩
  | cons n rest ih =>
    intro st x ex hx
    simp only [List.foldl_cons]
    obtain ⟨ex1, hx1, hle1⟩ := astarRelax_mem_mono g add est v e st n x ex hx
    obtain ⟨ex2, hx2, hle2⟩ := ih _ x ex1 hx1
    exact ⟨ex2, hx2, le_trans hle2 hle1⟩

theorem relax_fold_heap_le [DecidableEq V] [LinearOrder E] (g : EGraph V E)
    (add : E → E → E) (est : Option (V → E)) (v : V) (e : E) :
    ∀ (l : List V) (st : AstarState V E),
      (l.foldl (astarRelax g add est v e) st).queue.binary_heap.length ≤
        st.queue.binary_heap.length + l.length := by
  intro l
  induction l with
  | nil => intro st; simp
  | cons n rest ih =>
    intro st
    simp only [List.foldl_cons, List.length_cons]
    have h1 := astarRelax_heap_le g add est v e st n
    have h2 := ih (astarRelax g add est v e st n)
    omega

/-- Container facts surviving a pop of the heap minimum. -/
theorem dPop_heap_facts [DecidableEq V] [LinearOrder E] (g : EGraph V E)
    (add : E → E → E) (dflt : E) (verts : List V) (start : V)
    (rel : V → List V) (P : List V) (s : AstarState V E)
    (hinv : DInv g add dflt verts start rel P s)
    (cost : E) (i : Nat) (v : V)
    (hhm : heapMin s.queue.binary_heap = some (cost, i))
    (hlkm : lookupA s.queue.id_map i = some (v, cost)) :
    ((eraseEntry s.queue.binary_heap (cost, i)).map Prod.snd).Nodup ∧
    (∀ p ∈ eraseEntry s.queue.binary_heap (cost, i), p.2 < s.queue.id) ∧
    (∀ p ∈ eraseEntry s.queue.binary_heap (cost, i),
      ∃ x : V, lookupA (removeA s.queue.id_map i) p.2 = some (x, p.1)) ∧
    (∀ p ∈ eraseEntry s.queue.binary_heap (cost, i), ∀ (x : V) (e : E),
      lookupA (removeA s.queue.id_map i) p.2 = some (x, e) →
      ∃ mx, lookupA s.min_edge_map x = some mx ∧ mx ≤ e) ∧
    (∀ (x : V) (ex : E), lookupA s.min_edge_map x = some ex → x ∉ P →
      x ≠ v → ∃ i', (ex, i') ∈ eraseEntry s.queue.binary_heap (cost, i) ∧
        lookupA (removeA s.queue.id_map i) i' = some (x, ex)) := by
  have hpop_mem : (cost, i) ∈ s.queue.binary_heap := heapMin_mem _ _ hhm
  have hsne : ∀ p ∈ eraseEntry s.queue.binary_heap (cost, i), p.2 ≠ i :=
    fun p hp => snd_ne_of_mem_eraseEntry _ _ _ hinv.hhnd hpop_mem hp
  refine ⟨?_, ?_, ?_, ?_, ?_⟩
  · exact hinv.hhnd.sublist ((eraseEntry_sublist _ _).map Prod.snd)
  · intro p hp
    exact hinv.hidb p (mem_of_mem_eraseEntry _ _ _ hp)
  · intro p hp
    obtain ⟨x, hx⟩ := hinv.hheap p (mem_of_mem_eraseEntry _ _ _ hp)
    refine ⟨x, ?_⟩
    rw [lookupA_removeA_ne _ _ _ (hsne p hp)]
    exact hx
  · intro p hp x e hl
    rw [lookupA_removeA_ne _ _ _ (hsne p hp)] at hl
    exact hinv.hqge p (mem_of_mem_eraseEntry _ _ _ hp) x e hl
  · intro x ex hx hxP hxv
    obtain ⟨i', hin, hlk⟩ := hinv.hunsett x ex hx hxP
    have hii : i' ≠ i := by
      intro he
      rw [he, hlkm] at hlk
      injection hlk with hlk
      exact hxv (congrArg Prod.fst hlk).symm
    refine ⟨i', ?_, ?_⟩
    · refine mem_eraseEntry_of_ne _ _ _ hin ?_
      intro he
      exact hii (congrArg Prod.snd he)
    · rw [lookupA_removeA_ne _ _ _ hii]
      exact hlk

/-- A stale pop (the popped vertex is already settled) preserves the
invariant with the same settled list. -/
theorem dPop_stale [DecidableEq V] [LinearOrder E] (g : EGraph V E)
    (add : E → E → E) (dflt : E) (verts : List V) (start : V)
    (P : List V) (s : AstarState V E)
    (hinv : DInv g add dflt verts start g.neighbors P s)
    (cost : E) (i : Nat) (v : V)
    (hhm : heapMin s.queue.binary_heap = some (cost, i))
    (hlkm : lookupA s.queue.id_map i = some (v, cost))
    (hvP : v ∈ P) :
    DInv g add dflt verts start g.neighbors P
      { s with queue :=
        { id := s.queue.id,
          binary_heap := eraseEntry s.queue.binary_heap (cost, i),
          id_map := removeA s.queue.id_map i } } := by
  obtain ⟨hf1, hf2, hf3, hf4, hf5⟩ := dPop_heap_facts g add dflt verts start
    g.neighbors P s hinv cost i v hhm hlkm
  refine ⟨hinv.hstart, hinv.hndp, hinv.hndm,
    keysND_removeA _ _ hinv.hndi, hf1, hf2, hf3, hinv.hdom, hinv.hs0p,
    hinv.hs0m, hinv.hnone, hinv.hvsub, hinv.hreal, hinv.hpm, hf4,
    hinv.hPnd, hinv.hPverts, hinv.hPmem, hinv.hPmin, hinv.hPrelax, ?_,
    hinv.hord⟩
  intro x ex hx hxP
  have hxv : x ≠ v := by
    intro he
    exact hxP (he ▸ hvP)
  exact hf5 x ex hx hxP hxv

/-- At a first pop of an unsettled vertex the popped cost equals its
recorded cost. -/
theorem dPop_cost_eq [DecidableEq V] [LinearOrder E] (g : EGraph V E)
    (add : E → E → E) (dflt : E) (verts : List V) (start : V)
    (rel : V → List V) (P : List V) (s : AstarState V E)
    (hinv : DInv g add dflt verts start rel P s)
    (cost : E) (i : Nat) (v : V)
    (hhm : heapMin s.queue.binary_heap = some (cost, i))
    (hlkm : lookupA s.queue.id_map i = some (v, cost))
    (hvP : v ∉ P) :
    lookupA s.min_edge_map v = some cost := by
  obtain ⟨mv, hmv, hmvle⟩ :=
    hinv.hqge (cost, i) (heapMin_mem _ _ hhm) v cost hlkm
  obtain ⟨i2, hin2, hlk2⟩ := hinv.hunsett v mv hmv hvP
  have hnlt := heapMin_min _ _ hhm (mv, i2) hin2
  have hcle : cost ≤ mv := by
    rcases lt_trichotomy mv cost with h | h | h
    · exact absurd (Or.inl h) hnlt
    · exact le_of_eq h.symm
    · exact le_of_lt h
  rw [le_antisymm hmvle hcle] at hmv
  exact hmv

/-- A first pop of an unsettled vertex settles it: the invariant holds for
the extended settled list, with the popped vertex not yet relaxed. -/
theorem dPop_settle [DecidableEq V] [LinearOrder E] (g : EGraph V E)
    (add : E → E → E) (dflt : E) (verts : List V) (start : V)
    (hc1 : ∀ a b : E, a ≤ add a b)
    (hml : ∀ a b c : E, a ≤ b → add a c ≤ add b c)
    (hmr : ∀ a b c : E, b ≤ c → add a b ≤ add a c)
    (P : List V) (s : AstarState V E)
    (hinv : DInv g add dflt verts start g.neighbors P s)
    (cost : E) (i : Nat) (v : V)
    (hhm : heapMin s.queue.binary_heap = some (cost, i))
    (hlkm : lookupA s.queue.id_map i = some (v, cost))
    (hvP : v ∉ P) :
    DInv g add dflt verts start (relDone g v []) (P ++ [v])
      { s with queue :=
        { id := s.queue.id,
          binary_heap := eraseEntry s.queue.binary_heap (cost, i),
          id_map := removeA s.queue.id_map i } } := by
  have hmemv : lookupA s.min_edge_map v = some cost :=
    dPop_cost_eq g add dflt verts start g.neighbors P s hinv cost i v
      hhm hlkm hvP
  have hminv : ∀ c, EPathTo g add dflt start v c → cost ≤ c := by
    intro c hc
    rcases dijkstra_frontier g add dflt verts start hc1 hml hmr P s hinv
      v c hc with ⟨h1, -⟩ | ⟨x, ex, i', hin, hlk, hlec⟩
    · exact absurd h1 hvP
    · have hnlt := heapMin_min _ _ hhm (ex, i') hin
      have : cost ≤ ex := by
        rcases lt_trichotomy ex cost with h | h | h
        · exact absurd (Or.inl h) hnlt
        · exact le_of_eq h.symm
        · exact le_of_lt h
      exact le_trans this hlec
  obtain ⟨hf1, hf2, hf3, hf4, hf5⟩ := dPop_heap_facts g add dflt verts start
    g.neighbors P s hinv cost i v hhm hlkm
  have hPv : ∀ w, w ∈ P ++ [v] → w ∈ P ∨ w = v := by
    intro w hw
    rcases List.mem_append.1 hw with h | h
    · exact Or.inl h
    · exact Or.inr (List.mem_singleton.1 h)
  refine ⟨hinv.hstart, hinv.hndp, hinv.hndm,
    keysND_removeA _ _ hinv.hndi, hf1, hf2, hf3, hinv.hdom, hinv.hs0p,
    hinv.hs0m, hinv.hnone, hinv.hvsub, hinv.hreal, ?_, hf4, ?_, ?_, ?_,
    ?_, ?_, ?_, ?_⟩
  · intro x u hx
    obtain ⟨h1, h2, me, hme, eu, heu, hex⟩ := hinv.hpm x u hx
    exact ⟨h1, List.mem_append.2 (Or.inl h2), me, hme, eu, heu, hex⟩
  · rw [List.nodup_append]
    exact ⟨hinv.hPnd, List.nodup_singleton _,
      fun a ha hb => hvP ((List.mem_singleton.1 hb) ▸ ha)⟩
  · intro w hw
    rcases hPv w hw with h | h
    · exact hinv.hPverts w h
    · exact h ▸ hinv.hvsub v cost hmemv
  · intro w hw
    rcases hPv w hw with h | h
    · exact hinv.hPmem w h
    · exact ⟨cost, h ▸ hmemv⟩
  · intro w hw e hwe c hc
    rcases hPv w hw with h | h
    · exact hinv.hPmin w h e hwe c hc
    · subst h
      rw [hmemv] at hwe
      injection hwe with hwe
      rw [← hwe]
      exact hminv c hc
  · intro w hw ew hew n hn me hme
    rcases hPv w hw with h | h
    · have hwv : w ≠ v := fun he => hvP (he ▸ h)
      simp only [relDone, if_neg hwv] at hn
      exact hinv.hPrelax w h ew hew n hn me hme
    · subst h
      simp only [relDone, if_pos rfl] at hn
      cases hn
  · intro x ex hx hxP
    have hxv : x ≠ v := by
      intro he
      exact hxP (he ▸ List.mem_append.2 (Or.inr (List.mem_singleton.2 rfl)))
    have hxP2 : x ∉ P := fun h => hxP (List.mem_append.2 (Or.inl h))
    exact hf5 x ex hx hxP2 hxv
  · intro j x u hj hx
    have hjlt : j < P.length + 1 := by
      have := List.get?_eq_some.1 hj
      obtain ⟨h, -⟩ := this
      simpa using h
    rcases Nat.lt_or_ge j P.length with hlt | hge
    · rw [List.get?_append hlt] at hj
      obtain ⟨j2, hj2, hg2⟩ := hinv.hord j x u hj hx
      refine ⟨j2, hj2, ?_⟩
      rw [List.get?_append (lt_trans hj2 hlt)]
      exact hg2
    · have hj2 : j = P.length := by omega
      rw [hj2, List.get?_concat_length] at hj
      injection hj with hj
      obtain ⟨-, h2, -⟩ := hinv.hpm x u hx
      obtain ⟨j3, hj3⟩ := List.mem_iff_get?.1 h2
      have hj3lt : j3 < P.length := by
        have := List.get?_eq_some.1 hj3
        obtain ⟨h, -⟩ := this
        exact h
      refine ⟨j3, ?_, ?_⟩
      · omega
      · rw [List.get?_append hj3lt]
        exact hj3

/-- Termination measure of the Dijkstra drive loop: live heap entries plus,
for every unsettled vertex, one pop and one push per neighbor. -/
def dMeas [DecidableEq V] (g : EGraph V E) (verts P : List V)
    (s : AstarState V E) : Nat :=
  s.queue.binary_heap.length +
    ((verts.diff P).map (fun v => 1 + (g.neighbors v).length)).sum

theorem dijkstra_driveFind_spec [DecidableEq V] [LinearOrder E]
    (g : EGraph V E) (add : E → E → E) (dflt : E) (verts : List V)
    (start : V)
    (hclosed : ∀ w ∈ verts, ∀ n ∈ g.neighbors w, n ∈ verts)
    (hz : ∀ e : E, dflt ≤ e)
    (hc1 : ∀ a b : E, a ≤ add a b) (hc2 : ∀ a b : E, b ≤ add a b)
    (hml : ∀ a b c : E, a ≤ b → add a c ≤ add b c)
    (hmr : ∀ a b c : E, b ≤ c → add a b ≤ add a c)
    (target : V) :
    ∀ (fuel : Nat) (P : List V) (s : AstarState V E),
      DInv g add dflt verts start g.neighbors P s →
      dMeas g verts P s ≤ fuel →
      ∃ P', DInv g add dflt verts start g.neighbors P'
          (driveFind (astarTrav g add none) fuel s target) ∧
        ((driveFind (astarTrav g add none) fuel s
            target).queue.binary_heap = [] ∨ target ∈ P') := by
  intro fuel
  induction fuel with
  | zero =>
    intro P s hinv hm
    have hq : s.queue.binary_heap = [] := by
      simp only [dMeas, Nat.le_zero, Nat.add_eq_zero] at hm
      exact List.length_eq_zero.1 hm.1
    exact ⟨P, hinv, Or.inl hq⟩
  | succ fuel ih =>
    intro P s hinv hm
    rcases hhm : heapMin s.queue.binary_heap with - | ⟨cost, i⟩
    · have hq : s.queue.binary_heap = [] := (heapMin_eq_none_iff _).1 hhm
      have hpop : s.queue.popE = some none := by
        unfold AstarContainer.popE
        simp only [hhm]
      have hnext : astarNext g add none s = (none, s) := by
        unfold astarNext
        rw [hpop]
      have hred : driveFind (astarTrav g add none) (fuel + 1) s target =
          s := by
        simp only [driveFind]
        rw [show (astarTrav g add none).next s = (none, s) from hnext]
      rw [hred]
      exact ⟨P, hinv, Or.inl hq⟩
    · obtain ⟨v, hlkm0⟩ := hinv.hheap (cost, i) (heapMin_mem _ _ hhm)
      have hpop : s.queue.popE = some (some (((v, cost), cost),
          { id := s.queue.id,
            binary_heap := eraseEntry s.queue.binary_heap (cost, i),
            id_map := removeA s.queue.id_map i })) := by
        unfold AstarContainer.popE
        simp only [hhm, hlkm0]
      have hnext : astarNext g add none s = (some v,
          (g.neighbors v).foldl (astarRelax g add none v cost)
            { s with queue :=
              { id := s.queue.id,
                binary_heap := eraseEntry s.queue.binary_heap (cost, i),
                id_map := removeA s.queue.id_map i } }) := by
        unfold astarNext
        rw [hpop]
      have hred : driveFind (astarTrav g add none) (fuel + 1) s target =
          if v = target then
            (g.neighbors v).foldl (astarRelax g add none v cost)
              { s with queue :=
                { id := s.queue.id,
                  binary_heap := eraseEntry s.queue.binary_heap (cost, i),
                  id_map := removeA s.queue.id_map i } }
          else driveFind (astarTrav g add none) fuel
            ((g.neighbors v).foldl (astarRelax g add none v cost)
              { s with queue :=
                { id := s.queue.id,
                  binary_heap := eraseEntry s.queue.binary_heap (cost, i),
                  id_map := removeA s.queue.id_map i } }) target := by
        simp only [driveFind]
        rw [show (astarTrav g add none).next s = _ from hnext]
      have hlen1 : (eraseEntry s.queue.binary_heap (cost, i)).length + 1 =
          s.queue.binary_heap.length :=
        length_eraseEntry_of_mem _ _ (heapMin_mem _ _ hhm)
      by_cases hvP : v ∈ P
      · have hinv1 := dPop_stale g add dflt verts start P s hinv cost i v
          hhm hlkm0 hvP
        obtain ⟨mv, hmv, hmvle⟩ :=
          hinv.hqge (cost, i) (heapMin_mem _ _ hhm) v cost hlkm0
        have hfold := dRelax_noop_fold g add dflt verts start hml P
          _ hinv1 v hvP cost mv hmv hmvle (g.neighbors v)
          (fun n hn => hn)
        rw [hred, hfold]
        by_cases hvt : v = target
        · rw [if_pos hvt]
          exact ⟨P, hinv1, Or.inr (hvt ▸ hvP)⟩
        · rw [if_neg hvt]
          refine ih P _ hinv1 ?_
          simp only [dMeas] at hm ⊢
          omega
      · have hmemv : lookupA s.min_edge_map v = some cost :=
          dPop_cost_eq g add dflt verts start g.neighbors P s hinv cost i v
            hhm hlkm0 hvP
        have hinv1 := dPop_settle g add dflt verts start hc1 hml hmr P s
          hinv cost i v hhm hlkm0 hvP
        obtain ⟨hinv2, hm2⟩ := dRelax_fold g add dflt verts start hclosed
          hz hc1 hc2 P v hvP cost (g.neighbors v) [] _
          (fun x hx => hx) hinv1 hmemv
        rw [List.nil_append, relDone_full] at hinv2
        rw [hred]
        by_cases hvt : v = target
        · rw [if_pos hvt]
          exact ⟨P ++ [v], hinv2, Or.inr (hvt ▸ List.mem_append.2
            (Or.inr (List.mem_singleton.2 rfl)))⟩
        · rw [if_neg hvt]
          refine ih (P ++ [v]) _ hinv2 ?_
          have hvverts : v ∈ verts := hinv.hvsub v cost hmemv
          have hvdiff : v ∈ verts.diff P := List.mem_diff_of_mem hvverts hvP
          have hperm : List.Perm (verts.diff P)
              (v :: (verts.diff P).erase v) :=
            List.perm_cons_erase hvdiff
          have hdiff2 : verts.diff (P ++ [v]) = (verts.diff P).erase v := by
            rw [List.diff_append]
            rw [show [v] = v :: [] from rfl, List.diff_cons, List.diff_nil]
          have hsum : ((verts.diff P).map
              (fun w => 1 + (g.neighbors w).length)).sum =
              (1 + (g.neighbors v).length) +
              (((verts.diff P).erase v).map
                (fun w => 1 + (g.neighbors w).length)).sum := by
            rw [(hperm.map (fun w => 1 + (g.neighbors w).length)).sum_eq]
            simp
          have hfle := relax_fold_heap_le g add none v cost (g.neighbors v)
            { s with queue :=
              { id := s.queue.id,
                binary_heap := eraseEntry s.queue.binary_heap (cost, i),
                id_map := removeA s.queue.id_map i } }
          simp only [dMeas] at hm ⊢
          rw [hdiff2]
          simp only [show ({ s with queue :=
            { id := s.queue.id,
              binary_heap := eraseEntry s.queue.binary_heap (cost, i),
              id_map := removeA s.queue.id_map i } } :
                AstarState V E).queue.binary_heap =
            eraseEntry s.queue.binary_heap (cost, i) from rfl] at hfle
          omega

/-- With an exhausted heap every vertex reachable from the start is
settled. -/
theorem dijkstra_exhausted_covers [DecidableEq V] [LinearOrder E]
    (g : EGraph V E) (add : E → E → E) (dflt : E) (verts : List V)
    (start : V) (P : List V) (s : AstarState V E)
    (hinv : DInv g add dflt verts start g.neighbors P s)
    (hq : s.queue.binary_heap = []) :
    ∀ (w : V) (c : E), EPathTo g add dflt start w c →
      w ∈ P ∧ ∃ e, lookupA s.min_edge_map w = some e := by
  have hsett : ∀ x e, lookupA s.min_edge_map x = some e → x ∈ P := by
    intro x e hx
    by_cases hxP : x ∈ P
    · exact hxP
    · obtain ⟨i, hin, -⟩ := hinv.hunsett x e hx hxP
      rw [hq] at hin
      cases hin
  intro w c hpath
  induction hpath with
  | base => exact ⟨hsett start dflt hinv.hs0m, dflt, hinv.hs0m⟩
  | step hu hxn he ih =>
    rename_i u x c1 e
    obtain ⟨huP, eu, heu⟩ := ih
    obtain ⟨me, hme, -⟩ := listMin_le_mem (g.edges u x) e he
    obtain ⟨en, hen, -⟩ := hinv.hPrelax u huP eu heu x hxn me hme
    exact ⟨hsett x en hen, en, hen⟩

/-- Walking the predecessor map backward from a settled vertex yields
(after reversal) an explicit start-to-vertex edge path realizing exactly
the recorded cost, once the walk fuel exceeds the settle index. -/
theorem dijkstra_predWalk_spec [DecidableEq V] [DecidableEq E]
    [LinearOrder E] (g : EGraph V E) (add : E → E → E) (dflt : E)
    (verts : List V) (start : V) (rel : V → List V) (P : List V)
    (s : AstarState V E)
    (hinv : DInv g add dflt verts start rel P s) :
    ∀ (i : Nat) (x : V), P.get? i = some x →
      ∀ ex, lookupA s.min_edge_map x = some ex →
      ∀ fuel, i + 1 ≤ fuel →
        ∃ steps, isEPath g start x steps = true ∧
          stepsVerts start steps =
            (predWalk (astarPredecessor s) fuel x).reverse ∧
          epCost add dflt (steps.map Prod.fst) = ex := by
  intro i
  induction i using Nat.strong_induction_on with
  | _ i ih =>
    intro x hx ex hex fuel hfuel
    have hxmem : x ∈ P := List.get?_mem hx
    obtain ⟨lx, hlx⟩ := (hinv.hdom x).1 ⟨ex, hex⟩
    rcases lx with - | u
    · have hxs : x = start := hinv.hnone x hlx
      have hexd : ex = dflt := by
        rw [hxs, hinv.hs0m] at hex
        injection hex with hex
        exact hex.symm
      have hpn : astarPredecessor s x = none := by
        simp [astarPredecessor, hlx]
      have hpw : predWalk (astarPredecessor s) fuel x = [x] := by
        cases fuel with
        | zero => rfl
        | succ f =>
          simp only [predWalk]
          rw [hpn]
      refine ⟨[], ?_, ?_, ?_⟩
      · rw [hxs]
        simp [isEPath, edgedOk, stepsEnd]
      · rw [hpw, hxs]
        simp [stepsVerts]
      · rw [hexd]
        rfl
    · obtain ⟨hxu, huP, me, hme, eu, heu, hexval⟩ := hinv.hpm x u hlx
      have hexeq : ex = add eu me := by
        rw [hexval] at hex
        injection hex with hex
        exact hex.symm
      obtain ⟨j, hji, hj⟩ := hinv.hord i x u hx hlx
      cases fuel with
      | zero => omega
      | succ f =>
        have hfj : j + 1 ≤ f := by omega
        obtain ⟨steps, hpath, hverts, hcost⟩ :=
          ih j hji u hj eu heu f hfj
        have hpx : astarPredecessor s x = some u := by
          simp [astarPredecessor, hlx]
        have hpw : predWalk (astarPredecessor s) (f + 1) x =
            x :: predWalk (astarPredecessor s) f u := by
          simp only [predWalk]
          rw [hpx]
        simp only [isEPath, Bool.and_eq_true, decide_eq_true_eq] at hpath
        obtain ⟨hok, hend⟩ := hpath
        refine ⟨steps ++ [(me, x)], ?_, ?_, ?_⟩
        · simp only [isEPath, Bool.and_eq_true, decide_eq_true_eq]
          refine ⟨?_, ?_⟩
          · rw [edgedOk_append, hok, hend]
            simp [edgedOk, hxu, listMin_mem _ me hme]
          · rw [stepsEnd_append, hend]
            simp [stepsEnd]
        · rw [hpw, List.reverse_cons, ← hverts]
          simp [stepsVerts]
        · simp only [List.map_append, List.map_cons, List.map_nil]
          simp only [epCost] at hcost ⊢
          rw [List.foldl_append]
          simp only [List.foldl_cons, List.foldl_nil]
          rw [hcost, hexeq]

def gW1 : EGraph Nat Nat :=
  { neighbors := fun v => if v = 0 then [1] else if v = 1 then [2] else [],
    edges := fun v w =>
      if v = 0 ∧ w = 1 then [1] else if v = 1 ∧ w = 2 then [2] else [] }


theorem isEPath_of_epathTo [DecidableEq V] [DecidableEq E] (g : EGraph V E)
    (add : E → E → E) (dflt : E) (s : V) :
    ∀ (t : V) (c : E), EPathTo g add dflt s t c →
      ∃ steps, isEPath g s t steps = true := by
  intro t c h
  induction h with
  | base => exact ⟨[], by simp [isEPath, edgedOk, stepsEnd]⟩
  | step hu hx he ih =>
    rename_i u x c1 e
    obtain ⟨steps, hs⟩ := ih
    simp only [isEPath, Bool.and_eq_true, decide_eq_true_eq] at hs
    refine ⟨steps ++ [(e, x)], ?_⟩
    simp only [isEPath, Bool.and_eq_true, decide_eq_true_eq]
    refine ⟨?_, ?_⟩
    · rw [edgedOk_append, hs.1, hs.2]
      simp [edgedOk, hx, he]
    · rw [stepsEnd_append, hs.2]
      simp [stepsEnd]

/-- C1 (amended): for every finite graph whose edge combination satisfies
the weighted-edge contract (`e1 + e2` at least each argument, all values at
least `zero`) and is monotone in both arguments, the Dijkstra traverser's
`construct_path(target)` returns a path from start to target realizing a
combined edge weight that is minimal among all paths from start to target,
or `None` exactly when no path from start to target exists.  `verts`
enumerates the (finitely many) vertices, closed under adjacency; the fuel
covers the drive loop and the backward walk. -/
theorem dijkstra_construct_path_minimal [DecidableEq V] [DecidableEq E]
    [LinearOrder E] (g : EGraph V E) (add : E → E → E) (dflt : E)
    (verts : List V)
    (hclosed : ∀ w ∈ verts, ∀ n ∈ g.neighbors w, n ∈ verts)
    (hz : ∀ e : E, dflt ≤ e)
    (hc1 : ∀ a b : E, a ≤ add a b) (hc2 : ∀ a b : E, b ≤ add a b)
    (hml : ∀ a b c : E, a ≤ b → add a c ≤ add b c)
    (hmr : ∀ a b c : E, b ≤ c → add a b ≤ add a c)
    (start target : V) (hs : start ∈ verts)
    (fuel : Nat)
    (hfuel : 1 + (verts.map (fun w => 1 + (g.neighbors w).length)).sum +
      verts.length + 1 ≤ fuel) :
    ((¬ ∃ steps, isEPath g start target steps = true) →
      (constructPath (astarTrav g add none) fuel (astarNew dflt start)
        target).1 = none) ∧
    (∀ steps0, isEPath g start target steps0 = true →
      ∃ (p : List V) (c : E),
        (constructPath (astarTrav g add none) fuel (astarNew dflt start)
          target).1 = some p ∧
        (∃ steps, isEPath g start target steps = true ∧
          stepsVerts start steps = p ∧
          epCost add dflt (steps.map Prod.fst) = c) ∧
        ∀ steps, isEPath g start target steps = true →
          c ≤ epCost add dflt (steps.map Prod.fst)) := by
  have hinv0 : DInv g add dflt verts start g.neighbors []
      (astarNew dflt start) :=
    dInv_init g add dflt verts start g.neighbors hs
  have hm0 : dMeas g verts [] (astarNew dflt start) ≤ fuel := by
    simp only [dMeas, astarNew, AstarContainer.new, AstarContainer.push,
      List.nil_append, List.length_singleton, List.diff_nil]
    omega
  obtain ⟨P1, hinv1, hdisj⟩ := dijkstra_driveFind_spec g add dflt verts
    start hclosed hz hc1 hc2 hml hmr target fuel [] (astarNew dflt start)
    hinv0 hm0
  have hpn : astarPredecessor (astarNew dflt start) target = none := by
    simp only [astarPredecessor, astarNew, lookupA]
    by_cases h : start = target
    · rw [if_pos h]
      rfl
    · rw [if_neg h]
      rfl
  have hTp : (astarTrav g add none).predecessor =
      (astarPredecessor : AstarState V E → V → Option V) := rfl
  have hTf : (astarTrav g add none).first =
      fun s : AstarState V E => s.start := rfl
  constructor
  · intro hunreach
    have hundisc : lookupA (driveFind (astarTrav g add none) fuel
        (astarNew dflt start) target).predecessor_map target = none := by
      rcases hl : lookupA (driveFind (astarTrav g add none) fuel
          (astarNew dflt start) target).predecessor_map target with - | l
      · rfl
      · obtain ⟨e, he⟩ := (hinv1.hdom target).2 ⟨l, hl⟩
        exact absurd (isEPath_of_epathTo g add dflt start target e
          (hinv1.hreal target e he)) hunreach
    have hts : target ≠ start := by
      intro he
      refine hunreach ⟨[], ?_⟩
      rw [he]
      simp [isEPath, edgedOk, stepsEnd]
    have hps1 : astarPredecessor (driveFind (astarTrav g add none) fuel
        (astarNew dflt start) target) target = none := by
      simp [astarPredecessor, hundisc]
    have hpw : predWalk (astarPredecessor
        (driveFind (astarTrav g add none) fuel (astarNew dflt start)
          target)) fuel target = [target] := by
      cases fuel with
      | zero => rfl
      | succ f =>
        simp only [predWalk]
        rw [hps1]
    have hcond : ¬ (1 < (predWalk (astarPredecessor
        (driveFind (astarTrav g add none) fuel (astarNew dflt start)
          target)) fuel target).reverse.length ∨
        target = (driveFind (astarTrav g add none) fuel
          (astarNew dflt start) target).start) := by
      rw [hpw]
      push_neg
      refine ⟨by simp, ?_⟩
      rw [hinv1.hstart]
      exact hts
    unfold constructPath
    rw [hTp, hpn]
    simp only [Option.isNone_none, eq_self_iff_true, if_true]
    rw [hTf]
    simp only []
    rw [if_neg hcond]
  · intro steps0 hreach
    have htP : target ∈ P1 ∧
        ∃ e, lookupA (driveFind (astarTrav g add none) fuel
          (astarNew dflt start) target).min_edge_map target = some e := by
      rcases hdisj with h1 | h1
      · exact dijkstra_exhausted_covers g add dflt verts start P1 _ hinv1 h1
          target _ (epathTo_of_isEPath g add dflt start target steps0 hreach)
      · exact ⟨h1, hinv1.hPmem target h1⟩
    obtain ⟨htP1, mt, hmt⟩ := htP
    obtain ⟨it, hit⟩ := List.mem_iff_get?.1 htP1
    have hitlt : it < P1.length := by
      obtain ⟨h, -⟩ := List.get?_eq_some.1 hit
      exact h
    have hP1len : P1.length ≤ verts.length := by
      have hsub : P1 ⊆ verts := fun w hw => hinv1.hPverts w hw
      exact (List.subperm_of_subset hinv1.hPnd hsub).length_le
    obtain ⟨steps, hpath, hverts, hcost⟩ :=
      dijkstra_predWalk_spec g add dflt verts start g.neighbors P1 _ hinv1
        it target hit mt hmt fuel (by omega)
    have hplen : (predWalk (astarPredecessor
        (driveFind (astarTrav g add none) fuel (astarNew dflt start)
          target)) fuel target).reverse.length = steps.length + 1 := by
      rw [← hverts]
      simp [stepsVerts]
    have hcond2 : 1 < (predWalk (astarPredecessor
        (driveFind (astarTrav g add none) fuel (astarNew dflt start)
          target)) fuel target).reverse.length ∨
        target = (driveFind (astarTrav g add none) fuel
          (astarNew dflt start) target).start := by
      cases hst : steps with
      | nil =>
        right
        rw [hst] at hpath
        simp only [isEPath, edgedOk, stepsEnd, Bool.and_eq_true,
          decide_eq_true_eq, List.foldl_nil] at hpath
        rw [hinv1.hstart]
        exact hpath.2.symm
      | cons a l =>
        left
        rw [hplen, hst]
        simp
    have hred : (constructPath (astarTrav g add none) fuel
        (astarNew dflt start) target).1 =
        some ((predWalk (astarPredecessor
          (driveFind (astarTrav g add none) fuel (astarNew dflt start)
            target)) fuel target).reverse) := by
      unfold constructPath
      rw [hTp, hpn]
      simp only [Option.isNone_none, eq_self_iff_true, if_true]
      rw [hTf]
      simp only []
      rw [if_pos hcond2]
    refine ⟨_, mt, hred, ⟨steps, hpath, hverts, hcost⟩, ?_⟩
    intro steps2 hsteps2
    exact hinv1.hPmin target htP1 mt hmt _
      (epathTo_of_isEPath g add dflt start target steps2 hsteps2)

theorem dijkstra_construct_path_minimal_witness :
    ((¬ ∃ steps, isEPath gW1 0 2 steps = true) →
      (constructPath (astarTrav gW1 (· + ·) none) 10 (astarNew 0 0) 2).1 =
        none) ∧
    (∀ steps0, isEPath gW1 0 2 steps0 = true →
      ∃ (p : List Nat) (c : Nat),
        (constructPath (astarTrav gW1 (· + ·) none) 10
          (astarNew 0 0) 2).1 = some p ∧
        (∃ steps, isEPath gW1 0 2 steps = true ∧
          stepsVerts 0 steps = p ∧
          epCost (· + ·) 0 (steps.map Prod.fst) = c) ∧
        ∀ steps, isEPath gW1 0 2 steps = true →
          c ≤ epCost (· + ·) 0 (steps.map Prod.fst)) :=
  dijkstra_construct_path_minimal gW1 (· + ·) 0 [0, 1, 2] (by decide)
    (fun e => Nat.zero_le e) (fun a b => Nat.le_add_right a b)
    (fun a b => Nat.le_add_left b a)
    (fun a b c h => Nat.add_le_add_right h c)
    (fun a b c h => Nat.add_le_add_left h a)
    0 2 (by decide) 10 (by decide)

/-! ## C9, amended part: `predecessor` across all traversers

`predecessor` is a pure read of the recorded predecessor map.  The
invariants below, established for every state reachable from a fresh
traverser by iterating `next`, pin down exactly when it returns `None`:
the start vertex (recorded with no predecessor) or a vertex not reached
yet. -/

/-- Iterate a traverser's `next` a given number of times, keeping the
state. -/
def stepN (next : S → Option V × S) : Nat → S → S
  | 0, s => s
  | k + 1, s => stepN next k (next s).2

/-- The BFS predecessor-map discipline: the start vertex is recorded with
no predecessor, and it is the only such vertex. -/
def PmOk [DecidableEq V] (start : V) (pm : List (V × Option V)) : Prop :=
  lookupA pm start = some none ∧
  ∀ x, lookupA pm x = some none → x = start

theorem bfs_fold_PmOk [DecidableEq V] (start v : V) :
    ∀ (l : List V) (qp : List V × List (V × Option V)),
      PmOk start qp.2 →
      PmOk start (l.foldl
        (fun (qp : List V × List (V × Option V)) n =>
          if containsA qp.2 n then qp
          else (qp.1 ++ [n], insertA qp.2 n (some v))) qp).2 := by
  intro l
  induction l with
  | nil => intro qp h; exact h
  | cons n rest ih =>
    intro qp h
    simp only [List.foldl_cons]
    by_cases hc : containsA qp.2 n
    · rw [if_pos hc]
      exact ih qp h
    · rw [if_neg hc]
      obtain ⟨h1, h2⟩ := h
      have hnone : lookupA qp.2 n = none := by
        rcases hl : lookupA qp.2 n with - | lk
        · rfl
        · rw [containsA, hl] at hc
          simp at hc
      have hns : start ≠ n := by
        intro he
        rw [← he, h1] at hnone
        cases hnone
      refine ih _ ⟨?_, ?_⟩
      · show lookupA (insertA qp.2 n (some v)) start = some none
        rw [lookupA_insertA_ne _ _ _ _ hns]
        exact h1
      · intro x hx
        simp only [] at hx
        by_cases hxn : x = n
        · rw [hxn, lookupA_insertA_self] at hx
          injection hx with hx
          cases hx
        · rw [lookupA_insertA_ne _ _ _ _ hxn] at hx
          exact h2 x hx

theorem bfsNext_PmOk [DecidableEq V] (g : V → List V) (start : V)
    (s : BfsState V) (h : PmOk start s.predecessor_map) :
    PmOk start (bfsNext g s).2.predecessor_map := by
  unfold bfsNext
  rcases hq : s.queue with - | ⟨v, rest⟩
  · exact h
  · exact bfs_fold_PmOk start v (g v) (rest, s.predecessor_map) h

theorem bfs_stepN_PmOk [DecidableEq V] (g : V → List V) (start : V) :
    ∀ (k : Nat) (s : BfsState V), PmOk start s.predecessor_map →
      PmOk start (stepN (bfsNext g) k s).predecessor_map := by
  intro k
  induction k with
  | zero => intro s h; exact h
  | succ k ih =>
    intro s h
    exact ih _ (bfsNext_PmOk g start s h)

/-- The DFS predecessor discipline: `None`-predecessor stack entries and
map records belong to the start vertex only, and before the start vertex
is recorded the stack is still the initial one. -/
def DfsOk [DecidableEq V] (start : V) (q : List (V × Option V))
    (pfm : List (V × (Option V × Bool))) : Prop :=
  (∀ p ∈ q, p.2 = none → p.1 = start) ∧
  (∀ x pr b, lookupA pfm x = some (pr, b) → pr = none → x = start) ∧
  (∀ pr b, lookupA pfm start = some (pr, b) → pr = none) ∧
  (lookupA pfm start = none → q = [(start, none)])

theorem dfs_push_mem [DecidableEq V] (v : V) :
    ∀ (l : List V) (q0 : List (V × Option V)) (p : V × Option V),
      p ∈ l.foldl (fun q n => (n, some v) :: q) q0 →
      p ∈ q0 ∨ ∃ n, p = (n, some v) := by
  intro l
  induction l with
  | nil => intro q0 p hp; exact Or.inl hp
  | cons m rest ih =>
    intro q0 p hp
    simp only [List.foldl_cons] at hp
    rcases ih ((m, some v) :: q0) p hp with h | h
    · rcases List.mem_cons.1 h with h1 | h1
      · exact Or.inr ⟨m, h1⟩
      · exact Or.inl h1
    · exact Or.inr h

theorem dfsNextAux_DfsOk [DecidableEq V] (g : V → List V) (start : V) :
    ∀ (q : List (V × Option V)) (pfm : List (V × (Option V × Bool))),
      DfsOk start q pfm →
      DfsOk start (dfsNextAux g q pfm).2.1 (dfsNextAux g q pfm).2.2 := by
  intro q
  induction q with
  | nil =>
    intro pfm h
    obtain ⟨h1, h2, h3, h4⟩ := h
    exact ⟨fun p hp => absurd hp (by simp [dfsNextAux]), h2, h3,
      fun hn => h4 hn⟩
  | cons hd rest ih =>
    intro pfm h
    obtain ⟨v, p⟩ := hd
    obtain ⟨h1, h2, h3, h4⟩ := h
    unfold dfsNextAux
    rcases hlk : lookupA pfm v with - | ⟨pr, b⟩
    · simp only [hlk]
      have hps : p = none → v = start := h1 (v, p) (List.mem_cons_self _ _)
      refine ⟨?_, ?_, ?_, ?_⟩
      · intro p2 hp2 hp2n
        rcases dfs_push_mem v (g v) ((v, p) :: rest) p2 hp2 with hm | ⟨n, hn⟩
        · exact h1 p2 hm hp2n
        · rw [hn] at hp2n
          cases hp2n
      · intro x pr2 b2 hx hpr2
        by_cases hxv : x = v
        · rw [hxv, lookupA_insertA_self] at hx
          injection hx with hx
          have : pr2 = p := (congrArg Prod.fst hx).symm
          rw [hxv]
          exact hps (by rw [← this]; exact hpr2)
        · rw [lookupA_insertA_ne _ _ _ _ hxv] at hx
          exact h2 x pr2 b2 hx hpr2
      · intro pr2 b2 hx
        by_cases hsv : start = v
        · rw [hsv, lookupA_insertA_self] at hx
          injection hx with hx
          have hpr2 : pr2 = p := (congrArg Prod.fst hx).symm
          have hq := h4 (by rw [hsv]; exact hlk)
          have : p = none := by
            have := List.cons_eq_cons.mp hq
            exact (congrArg Prod.snd this.1)
          rw [hpr2, this]
        · rw [lookupA_insertA_ne _ _ _ _ hsv] at hx
          exact h3 pr2 b2 hx
      · intro hx
        by_cases hsv : start = v
        · rw [hsv, lookupA_insertA_self] at hx
          cases hx
        · rw [lookupA_insertA_ne _ _ _ _ hsv] at hx
          have hq := h4 hx
          have hvs : v = start := (congrArg Prod.fst
            (List.cons_eq_cons.mp hq).1)
          exact absurd hvs.symm hsv
    · rcases b with - | -
      · simp only [hlk]
        have hnotnone : ¬ lookupA pfm start = none := by
          intro hn
          have hq := h4 hn
          have hvs : v = start := (congrArg Prod.fst
            (List.cons_eq_cons.mp hq).1)
          rw [hvs, hn] at hlk
          cases hlk
        refine ih (insertA pfm v (pr, true)) ⟨?_, ?_, ?_, ?_⟩
        · intro p2 hp2 hp2n
          exact h1 p2 (List.mem_cons_of_mem _ hp2) hp2n
        · intro x pr2 b2 hx hpr2
          by_cases hxv : x = v
          · rw [hxv, lookupA_insertA_self] at hx
            injection hx with hx
            have : pr2 = pr := (congrArg Prod.fst hx).symm
            rw [hxv]
            exact h2 v pr false hlk (by rw [← this]; exact hpr2)
          · rw [lookupA_insertA_ne _ _ _ _ hxv] at hx
            exact h2 x pr2 b2 hx hpr2
        · intro pr2 b2 hx
          by_cases hsv : start = v
          · rw [hsv, lookupA_insertA_self] at hx
            injection hx with hx
            have : pr2 = pr := (congrArg Prod.fst hx).symm
            rw [this]
            exact h3 pr false (by rw [hsv]; exact hlk)
          · rw [lookupA_insertA_ne _ _ _ _ hsv] at hx
            exact h3 pr2 b2 hx
        · intro hx
          by_cases hsv : start = v
          · rw [hsv, lookupA_insertA_self] at hx
            cases hx
          · rw [lookupA_insertA_ne _ _ _ _ hsv] at hx
            exact absurd hx hnotnone
      · simp only [hlk]
        have hnotnone : ¬ lookupA pfm start = none := by
          intro hn
          have hq := h4 hn
          have hvs : v = start := (congrArg Prod.fst
            (List.cons_eq_cons.mp hq).1)
          rw [hvs, hn] at hlk
          cases hlk
        refine ih pfm ⟨?_, h2, h3, fun hn => absurd hn hnotnone⟩
        intro p2 hp2 hp2n
        exact h1 p2 (List.mem_cons_of_mem _ hp2) hp2n

theorem dfsNext_DfsOk [DecidableEq V] (g : V → List V) (start : V)
    (s : DfsState V)
    (h : DfsOk start s.queue s.predecessor_finished_map) :
    DfsOk start (dfsNext g s).2.queue
      (dfsNext g s).2.predecessor_finished_map := by
  have := dfsNextAux_DfsOk g start s.queue s.predecessor_finished_map h
  unfold dfsNext
  rcases haux : dfsNextAux g s.queue s.predecessor_finished_map
    with ⟨o, q2, m2⟩
  rw [haux] at this
  exact this

theorem dfs_stepN_DfsOk [DecidableEq V] (g : V → List V) (start : V) :
    ∀ (k : Nat) (s : DfsState V),
      DfsOk start s.queue s.predecessor_finished_map →
      DfsOk start (stepN (dfsNext g) k s).queue
        (stepN (dfsNext g) k s).predecessor_finished_map := by
  intro k
  induction k with
  | zero => intro s h; exact h
  | succ k ih =>
    intro s h
    exact ih _ (dfsNext_DfsOk g start s h)

/-- The Dijkstra/A* predecessor discipline under the weighted-edge
contract: the start vertex keeps cost `zero` and no predecessor, and it is
the only vertex recorded without one. -/
def AOk [DecidableEq V] (dflt : E) (start : V) (s : AstarState V E) :
    Prop :=
  lookupA s.predecessor_map start = some none ∧
  lookupA s.min_edge_map start = some dflt ∧
  ∀ x, lookupA s.predecessor_map x = some none → x = start

theorem astarRelax_AOk [DecidableEq V] [LinearOrder E] (g : EGraph V E)
    (add : E → E → E) (dflt : E) (est : Option (V → E)) (start : V)
    (hd : ∀ e : E, dflt ≤ e) (hb : ∀ a b : E, b ≤ add a b)
    (vertex n : V) (edge : E) (st : AstarState V E)
    (h : AOk dflt start st) :
    AOk dflt start (astarRelax g add est vertex edge st n) := by
  obtain ⟨h1, h2, h3⟩ := h
  unfold astarRelax
  rcases hme : listMin (g.edges vertex n) with - | oe
  · simp only [hme]
    exact ⟨h1, h2, h3⟩
  · simp only [hme]
    by_cases hns : n = start
    · rw [hns, h2]
      simp only []
      have hnew : ¬ (add edge oe < dflt) :=
        not_lt.2 (le_trans (hd oe) (hb edge oe))
      rw [if_neg hnew]
      exact ⟨h1, h2, h3⟩
    · have hsn : start ≠ n := fun he => hns he.symm
      have hupd : AOk dflt start
          { st with
            min_edge_map := insertA st.min_edge_map n (add edge oe),
            queue := st.queue.push (n, add edge oe)
              (match est with
                | none => add edge oe
                | some f => add (add edge oe) (f n)),
            predecessor_map :=
              insertA st.predecessor_map n (some vertex) } := by
        refine ⟨?_, ?_, ?_⟩
        · show lookupA (insertA st.predecessor_map n (some vertex)) start =
            some none
          rw [lookupA_insertA_ne _ _ _ _ hsn]
          exact h1
        · show lookupA (insertA st.min_edge_map n (add edge oe)) start =
            some dflt
          rw [lookupA_insertA_ne _ _ _ _ hsn]
          exact h2
        · intro x hx
          simp only [] at hx
          by_cases hxn : x = n
          · rw [hxn, lookupA_insertA_self] at hx
            injection hx with hx
            cases hx
          · rw [lookupA_insertA_ne _ _ _ _ hxn] at hx
            exact h3 x hx
      rcases hlk : lookupA st.min_edge_map n with - | mn
      · simp only [hlk]
        exact hupd
      · simp only [hlk]
        by_cases hlt : add edge oe < mn
        · rw [if_pos hlt]
          exact hupd
        · rw [if_neg hlt]
          exact ⟨h1, h2, h3⟩

theorem astar_fold_AOk [DecidableEq V] [LinearOrder E] (g : EGraph V E)
    (add : E → E → E) (dflt : E) (est : Option (V → E)) (start : V)
    (hd : ∀ e : E, dflt ≤ e) (hb : ∀ a b : E, b ≤ add a b)
    (vertex : V) (edge : E) :
    ∀ (l : List V) (st : AstarState V E), AOk dflt start st →
      AOk dflt start (l.foldl (astarRelax g add est vertex edge) st) := by
  intro l
  induction l with
  | nil => intro st h; exact h
  | cons n rest ih =>
    intro st h
    simp only [List.foldl_cons]
    exact ih _ (astarRelax_AOk g add dflt est start hd hb vertex n edge
      st h)

theorem astarNext_AOk [DecidableEq V] [LinearOrder E] (g : EGraph V E)
    (add : E → E → E) (dflt : E) (est : Option (V → E)) (start : V)
    (hd : ∀ e : E, dflt ≤ e) (hb : ∀ a b : E, b ≤ add a b)
    (s : AstarState V E) (h : AOk dflt start s) :
    AOk dflt start (astarNext g add est s).2 := by
  unfold astarNext
  rcases hp : s.queue.popE with - | ⟨pe⟩
  · exact h
  · rcases pe with - | ⟨⟨⟨vertex, edge⟩, c⟩, q1⟩
    · exact h
    · simp only []
      refine astar_fold_AOk g add dflt est start hd hb vertex edge
        (g.neighbors vertex) { s with queue := q1 } ?_
      obtain ⟨h1, h2, h3⟩ := h
      exact ⟨h1, h2, h3⟩

theorem astar_stepN_AOk [DecidableEq V] [LinearOrder E] (g : EGraph V E)
    (add : E → E → E) (dflt : E) (est : Option (V → E)) (start : V)
    (hd : ∀ e : E, dflt ≤ e) (hb : ∀ a b : E, b ≤ add a b) :
    ∀ (k : Nat) (s : AstarState V E), AOk dflt start s →
      AOk dflt start (stepN (astarNext g add est) k s) := by
  intro k
  induction k with
  | zero => intro s h; exact h
  | succ k ih =>
    intro s h
    exact ih _ (astarNext_AOk g add dflt est start hd hb s h)

/-- C9 (amended): for every traverser (BFS, DFS, and the unified
Dijkstra/A* traverser under the documented weighted-edge contract, with
any estimator), on every state reachable from the fresh traverser by
iterating `next`, `predecessor(v)` only reports the currently recorded
predecessor: it returns `None` exactly when `v` is the start vertex or has
not been reached yet, and `Some u` exactly when the map currently records
`u`.  It performs no additional pulls (those are done by `construct_path`;
the refutation shows `predecessor` leaving the state unchanged on an
undiscovered vertex). -/
theorem traverser_predecessor_reports_recorded [DecidableEq V]
    [LinearOrder E] :
    (∀ (g : V → List V) (start : V) (k : Nat) (v : V),
      (bfsPredecessor (stepN (bfsNext g) k (bfsNew start)) v = none ↔
        (v = start ∨
          lookupA (stepN (bfsNext g) k (bfsNew start)).predecessor_map v =
            none)) ∧
      (∀ u, bfsPredecessor (stepN (bfsNext g) k (bfsNew start)) v =
          some u ↔
        lookupA (stepN (bfsNext g) k (bfsNew start)).predecessor_map v =
          some (some u))) ∧
    (∀ (g : V → List V) (start : V) (k : Nat) (v : V),
      (dfsPredecessor (stepN (dfsNext g) k (dfsNew start)) v = none ↔
        (v = start ∨
          lookupA (stepN (dfsNext g) k
            (dfsNew start)).predecessor_finished_map v = none)) ∧
      (∀ u, dfsPredecessor (stepN (dfsNext g) k (dfsNew start)) v =
          some u ↔
        ∃ b, lookupA (stepN (dfsNext g) k
          (dfsNew start)).predecessor_finished_map v = some (some u, b))) ∧
    (∀ (g : EGraph V E) (add : E → E → E) (dflt : E)
        (est : Option (V → E)) (start : V),
      (∀ e : E, dflt ≤ e) → (∀ a b : E, b ≤ add a b) →
      ∀ (k : Nat) (v : V),
      (astarPredecessor (stepN (astarNext g add est) k
          (astarNew dflt start)) v = none ↔
        (v = start ∨
          lookupA (stepN (astarNext g add est) k
            (astarNew dflt start)).predecessor_map v = none)) ∧
      (∀ u, astarPredecessor (stepN (astarNext g add est) k
          (astarNew dflt start)) v = some u ↔
        lookupA (stepN (astarNext g add est) k
          (astarNew dflt start)).predecessor_map v = some (some u))) := by
  refine ⟨?_, ?_, ?_⟩
  · intro g start k v
    have hok : PmOk start
        (stepN (bfsNext g) k (bfsNew start)).predecessor_map := by
      refine bfs_stepN_PmOk g start k (bfsNew start) ⟨?_, ?_⟩
      · simp [bfsNew, lookupA]
      · intro x hx
        simp only [bfsNew, lookupA] at hx
        by_cases h : start = x
        · exact h.symm
        · rw [if_neg h] at hx
          cases hx
    obtain ⟨h1, h2⟩ := hok
    constructor
    · constructor
      · intro h
        rcases hl : lookupA (stepN (bfsNext g) k
            (bfsNew start)).predecessor_map v with - | lv
        · exact Or.inr rfl
        · rcases lv with - | u
          · exact Or.inl (h2 v hl)
          · rw [bfsPredecessor, hl] at h
            cases h
      · intro h
        rcases h with h | h
        · rw [bfsPredecessor, h, h1]
          rfl
        · rw [bfsPredecessor, h]
          rfl
    · intro u
      constructor
      · intro h
        rcases hl : lookupA (stepN (bfsNext g) k
            (bfsNew start)).predecessor_map v with - | lv
        · rw [bfsPredecessor, hl] at h
          cases h
        · rw [bfsPredecessor, hl] at h
          rcases lv with - | w
          · cases h
          · injection h with h
            rw [h]
      · intro h
        rw [bfsPredecessor, h]
        rfl
  · intro g start k v
    have hok : DfsOk start (stepN (dfsNext g) k (dfsNew start)).queue
        (stepN (dfsNext g) k (dfsNew start)).predecessor_finished_map := by
      refine dfs_stepN_DfsOk g start k (dfsNew start) ⟨?_, ?_, ?_, ?_⟩
      · intro p hp _
        have : p = (start, none) := by simpa [dfsNew] using hp
        rw [this]
      · intro x pr b hx
        simp [dfsNew, lookupA] at hx
      · intro pr b hx
        simp [dfsNew, lookupA] at hx
      · intro _
        rfl
    obtain ⟨-, h2, h3, -⟩ := hok
    constructor
    · constructor
      · intro h
        rcases hl : lookupA (stepN (dfsNext g) k
            (dfsNew start)).predecessor_finished_map v with - | ⟨pr, b⟩
        · exact Or.inr rfl
        · rcases pr with - | u
          · exact Or.inl (h2 v none b hl rfl)
          · rw [dfsPredecessor, hl] at h
            cases h
      · intro h
        rcases h with h | h
        · rcases hl : lookupA (stepN (dfsNext g) k
              (dfsNew start)).predecessor_finished_map v with - | ⟨pr, b⟩
          · rw [dfsPredecessor, hl]
            rfl
          · rw [dfsPredecessor, hl]
            have hl2 := hl
            rw [h] at hl2
            have : pr = none := h3 pr b hl2
            rw [this]
            rfl
        · rw [dfsPredecessor, h]
          rfl
    · intro u
      constructor
      · intro h
        rcases hl : lookupA (stepN (dfsNext g) k
            (dfsNew start)).predecessor_finished_map v with - | ⟨pr, b⟩
        · rw [dfsPredecessor, hl] at h
          cases h
        · rw [dfsPredecessor, hl] at h
          rcases pr with - | w
          · cases h
          · injection h with h
            refine ⟨b, ?_⟩
            rw [h]
      · rintro ⟨b, hb⟩
        rw [dfsPredecessor, hb]
        rfl
  · intro g add dflt est start hd hb k v
    have hok : AOk dflt start
        (stepN (astarNext g add est) k (astarNew dflt start)) := by
      refine astar_stepN_AOk g add dflt est start hd hb k
        (astarNew dflt start) ⟨?_, ?_, ?_⟩
      · simp [astarNew, lookupA]
      · simp [astarNew, lookupA]
      · intro x hx
        simp only [astarNew, lookupA] at hx
        by_cases h : start = x
        · exact h.symm
        · rw [if_neg h] at hx
          cases hx
    obtain ⟨h1, -, h3⟩ := hok
    constructor
    · constructor
      · intro h
        rcases hl : lookupA (stepN (astarNext g add est) k
            (astarNew dflt start)).predecessor_map v with - | lv
        · exact Or.inr rfl
        · rcases lv with - | u
          · exact Or.inl (h3 v hl)
          · rw [astarPredecessor, hl] at h
            cases h
      · intro h
        rcases h with h | h
        · rw [astarPredecessor, h, h1]
          rfl
        · rw [astarPredecessor, h]
          rfl
    · intro u
      constructor
      · intro h
        rcases hl : lookupA (stepN (astarNext g add est) k
            (astarNew dflt start)).predecessor_map v with - | lv
        · rw [astarPredecessor, hl] at h
          cases h
        · rw [astarPredecessor, hl] at h
          rcases lv with - | w
          · cases h
          · injection h with h
            rw [h]
      · intro h
        rw [astarPredecessor, h]
        rfl

theorem traverser_predecessor_reports_recorded_witness :
    ((bfsPredecessor (stepN (bfsNext (fun _ : Nat => ([] : List Nat))) 1
        (bfsNew 0)) 1 = none ↔
      ((1 : Nat) = 0 ∨
        lookupA (stepN (bfsNext (fun _ : Nat => ([] : List Nat))) 1
          (bfsNew 0)).predecessor_map 1 = none)) ∧
      (∀ u, bfsPredecessor (stepN (bfsNext (fun _ : Nat => ([] : List Nat)))
          1 (bfsNew 0)) 1 = some u ↔
        lookupA (stepN (bfsNext (fun _ : Nat => ([] : List Nat))) 1
          (bfsNew 0)).predecessor_map 1 = some (some u))) ∧
    ((dfsPredecessor (stepN (dfsNext (fun _ : Nat => ([] : List Nat))) 1
        (dfsNew 0)) 1 = none ↔
      ((1 : Nat) = 0 ∨
        lookupA (stepN (dfsNext (fun _ : Nat => ([] : List Nat))) 1
          (dfsNew 0)).predecessor_finished_map 1 = none)) ∧
      (∀ u, dfsPredecessor (stepN (dfsNext (fun _ : Nat => ([] : List Nat)))
          1 (dfsNew 0)) 1 = some u ↔
        ∃ b, lookupA (stepN (dfsNext (fun _ : Nat => ([] : List Nat))) 1
          (dfsNew 0)).predecessor_finished_map 1 = some (some u, b))) ∧
    ((astarPredecessor (stepN (astarNext
        { neighbors := fun _ : Nat => ([] : List Nat),
          edges := fun _ _ => ([] : List Nat) } (· + ·) none) 1
        (astarNew 0 0)) 1 = none ↔
      ((1 : Nat) = 0 ∨
        lookupA (stepN (astarNext
          { neighbors := fun _ : Nat => ([] : List Nat),
            edges := fun _ _ => ([] : List Nat) } (· + ·) none) 1
          (astarNew 0 0)).predecessor_map 1 = none)) ∧
      (∀ u, astarPredecessor (stepN (astarNext
          { neighbors := fun _ : Nat => ([] : List Nat),
            edges := fun _ _ => ([] : List Nat) } (· + ·) none) 1
          (astarNew 0 0)) 1 = some u ↔
        lookupA (stepN (astarNext
          { neighbors := fun _ : Nat => ([] : List Nat),
            edges := fun _ _ => ([] : List Nat) } (· + ·) none) 1
          (astarNew 0 0)).predecessor_map 1 = some (some u))) :=
  ⟨(traverser_predecessor_reports_recorded (V := Nat) (E := Nat)).1
     (fun _ => []) 0 1 1,
   (traverser_predecessor_reports_recorded (V := Nat) (E := Nat)).2.1
     (fun _ => []) 0 1 1,
   (traverser_predecessor_reports_recorded (V := Nat) (E := Nat)).2.2
     { neighbors := fun _ => [], edges := fun _ _ => [] } (· + ·) 0 none 0
     (fun e => Nat.zero_le e) (fun a b => Nat.le_add_left b a) 1 1⟩
